import Mathlib

/-!
# Containers of `BG3Extender/GameDefinitions/BaseContainers.h`

A shallow embedding of the chained hash maps (`Map`, `RefMap`), the growable
sequences (`CompactSet`, `Set`, `PrimitiveSmallSet`, `Array`), `BitArray` and
the lookup side of `MultiHashMap`.

Conventions of the embedding:

* `uint32_t` / `unsigned` values are natural numbers; every C++ operation that
  can leave the 32-bit range is followed by an explicit `% 2 ^ 32` (`u32`).
* A heap buffer is the list of its allocated slots (`nullptr` is the empty
  list).  A singly linked hash chain is the list of its nodes, the `Next`
  pointer of a node being the tail of the list.
* A function returns `none` exactly where the C++ code would leave defined
  behaviour: a modulo by zero, or a read or write outside an allocation.
* A member function that takes another object of its own class by `const&`
  (copy assignment, `CopyFrom`) runs on `Operands`: the object `*this` and
  the object the parameter designates, which may be `*this` itself.  Each
  read through the parameter is a read of that object as it is at that
  moment, and the result is the state of both operands afterwards.
* A loop whose number of iterations is not bounded by a counter of the code
  (the chain walk of `MultiHashMap::FindIndex`, the traversal with a map
  iterator) takes an explicit bound on its iterations and returns `none` when
  the bound is used up; the theorems give a bound that is enough.
-/

namespace bg3se

/-- Truncation of an arithmetic result to `uint32_t`. -/
def u32 (n : Nat) : Nat := n % 2 ^ 32

/-! ## Chained hash maps: `Map`, `RefMap` -/

/-- `Map::Node` / `RefMap::Node` without its `Next` link (the link is the tail
of the list that holds the node). -/
structure Node (K V : Type) where
  Key : K
  Value : V
deriving DecidableEq, Repr

/-- The walk of `Insert(TKey const&)` along one chain, followed by the
allocation of a fresh node when no node holds `key`.  The result is the chain
afterwards, the position in the chain of the node whose `Value` address is
returned, and whether a node has been allocated (`ItemCount++`).  The fresh
node is linked after `last`, that is at the tail (or becomes the head of an
empty bucket). -/
def insertChain {K V : Type} [DecidableEq K] [Inhabited V] (key : K) :
    List (Node K V) → List (Node K V) × Nat × Bool
  | [] => ([{ Key := key, Value := default }], 0, true)
  | item :: next =>
    if key = item.Key then (item :: next, 0, false)
    else
      let r := insertChain key next
      (item :: r.1, r.2.1 + 1, r.2.2)

/-- The store `*nodeValue = value` through the pointer returned by
`Insert(key)`: the pointer is the position of its node in the chain. -/
def writeValue {K V : Type} : List (Node K V) → Nat → V → List (Node K V)
  | [], _, _ => []
  | item :: next, 0, value => { item with Value := value } :: next
  | item :: next, pos + 1, value => item :: writeValue next pos value

/-- The `while (item != nullptr)` loop of `Find`: the value of the first node
of the chain whose key equals `key`, `none` for the null pointer. -/
def findChain {K V : Type} [DecidableEq K] (key : K) : List (Node K V) → Option V
  | [] => none
  | item :: next => if key = item.Key then some item.Value else findChain key next

/-- The `for` loop of `Clear` over the buckets `i, i + 1, ...` (`n` buckets
left): a non-null bucket has its chain freed and is reset to `nullptr`. -/
def clearLoop {K V : Type} : Nat → Nat → List (List (Node K V)) → Option (List (List (Node K V)))
  | 0, _, table => some table
  | n + 1, i, table =>
    match table[i]? with
    | none => none
    | some [] => clearLoop n (i + 1) table
    | some (_ :: _) => clearLoop n (i + 1) (table.set i [])

/-- Body shared by `Map::Insert(TKey const&)` and `RefMap::Insert(TKey const&)`
on a bucket array of `hashSize` buckets: the new bucket array, whether a node
was allocated, and the slot (bucket, position) of the returned value pointer. -/
def insertKeyTable {K V : Type} [DecidableEq K] [Inhabited V] (hash : K → Nat)
    (hashSize : Nat) (table : List (List (Node K V))) (key : K) :
    Option (List (List (Node K V)) × Bool × Nat × Nat) :=
  if hashSize = 0 then none
  else
    match table[hash key % hashSize]? with
    | none => none
    | some chain =>
      let r := insertChain key chain
      some (table.set (hash key % hashSize) r.1, r.2.2, hash key % hashSize, r.2.1)

/-- The store through a value pointer given as a slot (bucket, position). -/
def writeSlot {K V : Type} (table : List (List (Node K V))) (bucket pos : Nat) (value : V) :
    List (List (Node K V)) :=
  match table[bucket]? with
  | none => table
  | some chain => table.set bucket (writeValue chain pos value)

/-- Body shared by `Map::Find` and `RefMap::Find`. -/
def findTable {K V : Type} [DecidableEq K] (hash : K → Nat)
    (hashSize : Nat) (table : List (List (Node K V))) (key : K) : Option (Option V) :=
  if hashSize = 0 then none
  else
    match table[hash key % hashSize]? with
    | none => none
    | some chain => some (findChain key chain)

/-- The class `Map<TKey, TValue>`: `HashTable` is the bucket array. -/
structure Map (K V : Type) where
  HashSize : Nat
  HashTable : List (List (Node K V))
  ItemCount : Nat
deriving DecidableEq, Repr

namespace Map

variable {K V : Type}

/-- `Map::Init(hashSize)`: a zeroed bucket array of `hashSize` null pointers. -/
def Init (hashSize : Nat) : Map K V :=
  { HashSize := hashSize, HashTable := List.replicate hashSize [], ItemCount := 0 }

/-- `Map::Insert(TKey const&)`: the map afterwards and the slot of the
returned value pointer. -/
def InsertKey [DecidableEq K] [Inhabited V] (hash : K → Nat) (m : Map K V) (key : K) :
    Option (Map K V × Nat × Nat) :=
  match insertKeyTable hash m.HashSize m.HashTable key with
  | none => none
  | some (table, fresh, slot) =>
    some ({ m with HashTable := table,
                   ItemCount := if fresh then u32 (m.ItemCount + 1) else m.ItemCount }, slot)

/-- `Map::Insert(TKey const&, TValue const&)`. -/
def Insert [DecidableEq K] [Inhabited V] (hash : K → Nat) (m : Map K V) (key : K) (value : V) :
    Option (Map K V) :=
  match InsertKey hash m key with
  | none => none
  | some (m1, bucket, pos) =>
    some { m1 with HashTable := writeSlot m1.HashTable bucket pos value }

/-- `Map::Find`: outer `none` is undefined behaviour, inner `none` is the
null pointer, `some v` a pointer to a slot holding `v`. -/
def Find [DecidableEq K] (hash : K → Nat) (m : Map K V) (key : K) : Option (Option V) :=
  findTable hash m.HashSize m.HashTable key

/-- `Map::Clear`. -/
def Clear (m : Map K V) : Option (Map K V) :=
  match clearLoop m.HashSize 0 m.HashTable with
  | none => none
  | some table => some { m with ItemCount := 0, HashTable := table }

/-- `Map::Count`. -/
def Count (m : Map K V) : Nat := m.ItemCount

/-- A sequence of `Insert(key, value)` calls, in order. -/
def InsertAll [DecidableEq K] [Inhabited V] (hash : K → Nat) :
    Map K V → List (K × V) → Option (Map K V)
  | m, [] => some m
  | m, kv :: rest =>
    match Insert hash m kv.1 kv.2 with
    | none => none
    | some m1 => InsertAll hash m1 rest

end Map

/-- The class `RefMap<TKey, TValue>` (fields in the order of the source). -/
structure RefMap (K V : Type) where
  ItemCount : Nat
  HashSize : Nat
  HashTable : List (List (Node K V))
deriving DecidableEq, Repr

namespace RefMap

variable {K V : Type}

/-- `RefMap::RefMap(hashSize)`; the source defaults `hashSize` to 31. -/
def Init (hashSize : Nat) : RefMap K V :=
  { ItemCount := 0, HashSize := hashSize, HashTable := List.replicate hashSize [] }

/-- `RefMap::Insert(TKey const&)`. -/
def InsertKey [DecidableEq K] [Inhabited V] (hash : K → Nat) (m : RefMap K V) (key : K) :
    Option (RefMap K V × Nat × Nat) :=
  match insertKeyTable hash m.HashSize m.HashTable key with
  | none => none
  | some (table, fresh, slot) =>
    some ({ m with HashTable := table,
                   ItemCount := if fresh then u32 (m.ItemCount + 1) else m.ItemCount }, slot)

/-- `RefMap::Insert(TKey const&, TValue const&)`. -/
def Insert [DecidableEq K] [Inhabited V] (hash : K → Nat) (m : RefMap K V) (key : K)
    (value : V) : Option (RefMap K V) :=
  match InsertKey hash m key with
  | none => none
  | some (m1, bucket, pos) =>
    some { m1 with HashTable := writeSlot m1.HashTable bucket pos value }

/-- `RefMap::Find`. -/
def Find [DecidableEq K] (hash : K → Nat) (m : RefMap K V) (key : K) : Option (Option V) :=
  findTable hash m.HashSize m.HashTable key

/-- `RefMap::Clear`. -/
def Clear (m : RefMap K V) : Option (RefMap K V) :=
  match clearLoop m.HashSize 0 m.HashTable with
  | none => none
  | some table => some { m with ItemCount := 0, HashTable := table }

/-- `RefMap::Count`. -/
def Count (m : RefMap K V) : Nat := m.ItemCount

/-- A sequence of `Insert(key, value)` calls, in order. -/
def InsertAll [DecidableEq K] [Inhabited V] (hash : K → Nat) :
    RefMap K V → List (K × V) → Option (RefMap K V)
  | m, [] => some m
  | m, kv :: rest =>
    match Insert hash m kv.1 kv.2 with
    | none => none
    | some m1 => InsertAll hash m1 rest

end RefMap

/-- One call on a chained map: `Insert(key)`, `Insert(key, value)` or
`Clear()`. -/
inductive MapOp (K V : Type) where
  | insertKey (key : K)
  | insert (key : K) (value : V)
  | clear
deriving DecidableEq, Repr

/-- The effect of one call on a `Map`. -/
def Map.step {K V : Type} [DecidableEq K] [Inhabited V] (hash : K → Nat) (m : Map K V) :
    MapOp K V → Option (Map K V)
  | MapOp.insertKey key =>
    match Map.InsertKey hash m key with
    | none => none
    | some r => some r.1
  | MapOp.insert key value => Map.Insert hash m key value
  | MapOp.clear => Map.Clear m

/-- A sequence of calls on a `Map`, in order. -/
def Map.run {K V : Type} [DecidableEq K] [Inhabited V] (hash : K → Nat) :
    Map K V → List (MapOp K V) → Option (Map K V)
  | m, [] => some m
  | m, op :: rest =>
    match Map.step hash m op with
    | none => none
    | some m1 => Map.run hash m1 rest

/-- The effect of one call on a `RefMap`. -/
def RefMap.step {K V : Type} [DecidableEq K] [Inhabited V] (hash : K → Nat) (m : RefMap K V) :
    MapOp K V → Option (RefMap K V)
  | MapOp.insertKey key =>
    match RefMap.InsertKey hash m key with
    | none => none
    | some r => some r.1
  | MapOp.insert key value => RefMap.Insert hash m key value
  | MapOp.clear => RefMap.Clear m

/-- A sequence of calls on a `RefMap`, in order. -/
def RefMap.run {K V : Type} [DecidableEq K] [Inhabited V] (hash : K → Nat) :
    RefMap K V → List (MapOp K V) → Option (RefMap K V)
  | m, [] => some m
  | m, op :: rest =>
    match RefMap.step hash m op with
    | none => none
    | some m1 => RefMap.run hash m1 rest

/-- The value given by the last `Insert(key, .)` of a sequence of calls, `none`
when `key` is never inserted (the specification side of the lookup claim). -/
def lastInserted {K V : Type} [DecidableEq K] (key : K) : List (K × V) → Option V
  | [] => none
  | kv :: rest =>
    match lastInserted key rest with
    | some v => some v
    | none => if key = kv.1 then some kv.2 else none

/-! ## Growable sequences: `CompactSet`, `Set`, `PrimitiveSmallSet`, `Array` -/

/-- The store `buf[i] = v`: `none` when slot `i` is outside the allocation. -/
def writeAt {T : Type} (buf : List T) (i : Nat) (v : T) : Option (List T) :=
  if i < buf.length then some (buf.set i v) else none

/-- The loop `for (i = ...; ...; i++) dst[i] = src[i]` with `n` iterations
left, used by `Reallocate` and by the copy operations. -/
def copyLoop {T : Type} (src : List T) : Nat → Nat → List T → Option (List T)
  | 0, _, dst => some dst
  | n + 1, i, dst =>
    match src[i]? with
    | none => none
    | some v =>
      match writeAt dst i v with
      | none => none
      | some dst1 => copyLoop src n (i + 1) dst1

/-- The loop `for (auto i = index; i < Size - 1; i++) Buf[i] = Buf[i + 1]` of
`Remove`, with `n` iterations left. -/
def shiftDownLoop {T : Type} : Nat → Nat → List T → Option (List T)
  | 0, _, buf => some buf
  | n + 1, i, buf =>
    match buf[i + 1]? with
    | none => none
    | some v =>
      match writeAt buf i v with
      | none => none
      | some buf1 => shiftDownLoop n (i + 1) buf1

/-- The two operands of a copy operation: the object `*this` that the member
function writes (`dst`) and the object that its `const&` parameter designates
(`src`).  The parameter designates either another object or `*this` itself,
as in the self-assignment `a = a`. -/
inductive Operands (α : Type) where
  | distinct (dst src : α)
  | aliased (obj : α)
deriving DecidableEq, Repr

namespace Operands

variable {α β : Type}

/-- The object `*this`, as it is now. -/
def dst : Operands α → α
  | distinct d _ => d
  | aliased o => o

/-- The object that the parameter designates, as it is now. -/
def src : Operands α → α
  | distinct _ s => s
  | aliased o => o

/-- A store to `*this`: a read through the parameter sees it when the
parameter designates `*this`. -/
def setDst : Operands α → α → Operands α
  | distinct _ s, d => distinct d s
  | aliased _, d => aliased d

/-- The operands seen through a member or a base class. -/
def map (f : α → β) : Operands α → Operands β
  | distinct d s => distinct (f d) (f s)
  | aliased o => aliased (f o)

end Operands

/-- The loop `for (i = ...; ...; i++) Buf[i] = other.Buf[i]` of the copy
operations on the buffers of the two operands, with `n` iterations left; each
iteration reads the buffer of the parameter as it is at that moment. -/
def copyElements {T : Type} : Nat → Nat → Operands (List T) → Option (Operands (List T))
  | 0, _, w => some w
  | n + 1, i, w =>
    match w.src[i]? with
    | none => none
    | some v =>
      match writeAt w.dst i v with
      | none => none
      | some buf => copyElements n (i + 1) (w.setDst buf)

/-- The struct `CompactSet<T, Allocator, StoreSize>`.  `Buf` is the allocation
the pointer designates (the 8-byte header of the `StoreSize` variant lies
before it and is not part of it). -/
structure CompactSet (T : Type) where
  Buf : List T
  Capacity : Nat
  Size : Nat
deriving DecidableEq, Repr

namespace CompactSet

variable {T : Type}

/-- The default-constructed `CompactSet`. -/
def empty : CompactSet T := { Buf := [], Capacity := 0, Size := 0 }

/-- `CompactSet::RawReallocate`: a fresh buffer of `newCapacity`
default-constructed elements (`nullptr` for zero). -/
def RawReallocate [Inhabited T] (s : CompactSet T) (newCapacity : Nat) : CompactSet T :=
  if newCapacity > 0 then
    { s with Buf := List.replicate newCapacity default, Capacity := newCapacity }
  else
    { s with Buf := [], Capacity := newCapacity }

/-- `CompactSet::Reallocate`. -/
def Reallocate [Inhabited T] (s : CompactSet T) (newCapacity : Nat) : Option (CompactSet T) :=
  let oldBuf := s.Buf
  let s1 := RawReallocate s newCapacity
  match copyLoop oldBuf (min s1.Size newCapacity) 0 s1.Buf with
  | none => none
  | some buf => some { s1 with Buf := buf }

/-- `CompactSet::operator []`. -/
def get (s : CompactSet T) (index : Nat) : Option T := s.Buf[index]?

/-- `CompactSet::Remove`; the `ERR` diagnostic of the first branch is a log
line and leaves no trace in the state. -/
def Remove (s : CompactSet T) (index : Nat) : Option (CompactSet T) :=
  if index ≥ s.Size then some s
  else
    match shiftDownLoop (s.Size - 1 - index) index s.Buf with
    | none => none
    | some buf => some { s with Buf := buf, Size := s.Size - 1 }

/-- `CompactSet::Clear`. -/
def Clear (s : CompactSet T) : CompactSet T := { s with Size := 0 }

/-- `CompactSet::operator =`, statement by statement on the two operands:
`Reallocate(other.Size)`, `Size = other.Size`, then the element loop.  Every
read of `other` is a read of the parameter as it is at that moment, so that in
a self-assignment it sees what the body has stored so far.  The result is the
state of both operands afterwards. -/
def assign [Inhabited T] (w : Operands (CompactSet T)) : Option (Operands (CompactSet T)) :=
  match Reallocate w.dst w.src.Size with
  | none => none
  | some s1 =>
    let w1 := w.setDst s1
    let w2 := w1.setDst { w1.dst with Size := w1.src.Size }
    match copyElements w2.src.Size 0 (w2.map CompactSet.Buf) with
    | none => none
    | some bufs => some (w2.setDst { w2.dst with Buf := bufs.dst })

/-- `CompactSet::CompactSet(CompactSet const&)`: the body of `operator =` run
on the new object, whose members have their default initialisers; the source
is another object. -/
def copy [Inhabited T] (other : CompactSet T) : Option (Operands (CompactSet T)) :=
  assign (Operands.distinct empty other)

end CompactSet

/-- The struct `Set<T, Allocator, StoreSize>`; `ObjectSet` and `PrimitiveSet`
derive from it without adding a member. -/
structure Set (T : Type) extends CompactSet T where
  CapacityIncrementSize : Nat
deriving DecidableEq, Repr

namespace Set

variable {T : Type}

/-- The default-constructed `Set` with its `CapacityIncrementSize` field set. -/
def empty (capacityIncrementSize : Nat) : Set T :=
  { CompactSet.empty with CapacityIncrementSize := capacityIncrementSize }

/-- `Set::CapacityIncrement`; `(uint32_t)CapacityIncrementSize` keeps the low
32 bits and the sum and the product are 32-bit. -/
def CapacityIncrement (s : Set T) : Nat :=
  if s.CapacityIncrementSize ≠ 0 then u32 (s.Capacity + u32 s.CapacityIncrementSize)
  else if s.Capacity > 0 then u32 (2 * s.Capacity)
  else 1

/-- The call `Reallocate(CapacityIncrement())` made by `Add` and `InsertAt`. -/
def Grow [Inhabited T] (s : Set T) : Option (Set T) :=
  match s.toCompactSet.Reallocate s.CapacityIncrement with
  | none => none
  | some c => some { s with toCompactSet := c }

/-- `Set::Add`. -/
def Add [Inhabited T] (s : Set T) (value : T) : Option (Set T) :=
  match (if s.Capacity ≤ s.Size then Grow s else some s) with
  | none => none
  | some s1 =>
    match writeAt s1.Buf s1.Size value with
    | none => none
    | some buf => some { s1 with Buf := buf, Size := u32 (s1.Size + 1) }

/-- A sequence of `Add` calls, in order. -/
def AddAll [Inhabited T] : Set T → List T → Option (Set T)
  | s, [] => some s
  | s, v :: rest =>
    match Add s v with
    | none => none
    | some s1 => AddAll s1 rest

/-- Successive forced growths `Reallocate(CapacityIncrement())`. -/
def GrowTimes [Inhabited T] : Nat → Set T → Option (Set T)
  | 0, s => some s
  | j + 1, s =>
    match Grow s with
    | none => none
    | some s1 => GrowTimes j s1

end Set

/-- The struct `PrimitiveSmallSet<T, Allocator>`. -/
structure PrimitiveSmallSet (T : Type) extends CompactSet T
deriving DecidableEq, Repr

namespace PrimitiveSmallSet

variable {T : Type}

/-- The default-constructed `PrimitiveSmallSet`. -/
def empty : PrimitiveSmallSet T := { CompactSet.empty with }

/-- `PrimitiveSmallSet::CapacityIncrement`. -/
def CapacityIncrement (s : PrimitiveSmallSet T) : Nat :=
  if s.Capacity > 0 then u32 (2 * s.Capacity) else 1

/-- `PrimitiveSmallSet::Add`. -/
def Add [Inhabited T] (s : PrimitiveSmallSet T) (value : T) : Option (PrimitiveSmallSet T) :=
  match (if s.Capacity ≤ s.Size then
           (match s.toCompactSet.Reallocate s.CapacityIncrement with
            | none => none
            | some c => some ({ toCompactSet := c } : PrimitiveSmallSet T))
         else some s) with
  | none => none
  | some s1 =>
    match writeAt s1.Buf s1.Size value with
    | none => none
    | some buf => some { s1 with Buf := buf, Size := u32 (s1.Size + 1) }

/-- A sequence of `Add` calls, in order. -/
def AddAll [Inhabited T] : PrimitiveSmallSet T → List T → Option (PrimitiveSmallSet T)
  | s, [] => some s
  | s, v :: rest =>
    match Add s v with
    | none => none
    | some s1 => AddAll s1 rest

end PrimitiveSmallSet

/-- The struct `Array<T>`, fields in the order of the source. -/
structure Array (T : Type) where
  Buf : List T
  Capacity : Nat
  Unknown : Nat
  Size : Nat
  Unknown2 : Nat
deriving DecidableEq, Repr

namespace Array

variable {T : Type}

/-- The default-constructed `Array`. -/
def empty : Array T := { Buf := [], Capacity := 0, Unknown := 0, Size := 0, Unknown2 := 0 }

/-- `Array::operator []`. -/
def get (a : Array T) (index : Nat) : Option T := a.Buf[index]?

/-- `Array::CapacityIncrement`. -/
def CapacityIncrement (a : Array T) : Nat :=
  if a.Capacity > 0 then u32 (2 * a.Capacity) else 1

/-- `Array::Clear`. -/
def Clear (a : Array T) : Array T := { a with Size := 0 }

/-- `Array::Reallocate`: `GameAllocArray<T>(newCapacity)` gives
`newCapacity` default-constructed elements. -/
def Reallocate [Inhabited T] (a : Array T) (newCapacity : Nat) : Option (Array T) :=
  let newBuf := List.replicate newCapacity (default : T)
  match copyLoop a.Buf (min a.Size newCapacity) 0 newBuf with
  | none => none
  | some buf => some { a with Buf := buf, Capacity := newCapacity }

/-- `Array::Add`. -/
def Add [Inhabited T] (a : Array T) (value : T) : Option (Array T) :=
  match (if a.Capacity ≤ a.Size then Reallocate a a.CapacityIncrement else some a) with
  | none => none
  | some a1 =>
    match writeAt a1.Buf a1.Size value with
    | none => none
    | some buf => some { a1 with Buf := buf, Size := u32 (a1.Size + 1) }

/-- A sequence of `Add` calls, in order. -/
def AddAll [Inhabited T] : Array T → List T → Option (Array T)
  | a, [] => some a
  | a, v :: rest =>
    match Add a v with
    | none => none
    | some a1 => AddAll a1 rest

/-- `Array::Remove`; the `ERR` diagnostic of the first branch is a log line
and leaves no trace in the state. -/
def Remove (a : Array T) (index : Nat) : Option (Array T) :=
  if index ≥ a.Size then some a
  else
    match shiftDownLoop (a.Size - 1 - index) index a.Buf with
    | none => none
    | some buf => some { a with Buf := buf, Size := a.Size - 1 }

/-- `Array::CopyFrom`, statement by statement on the two operands:
`Unknown = a.Unknown`, `Unknown2 = a.Unknown2`, `Clear()`, then under
`if (a.Size > 0)` the calls `Reallocate(a.Size)`, `Size = a.Size` and the
element loop up to `Size`.  Every read of `a` is a read of the parameter as
it is at that moment, so that in `a = a` the test `a.Size > 0` sees the `Size`
that `Clear()` has just stored.  The result is the state of both operands
afterwards. -/
def CopyFrom [Inhabited T] (w : Operands (Array T)) : Option (Operands (Array T)) :=
  let w1 := w.setDst { w.dst with Unknown := w.src.Unknown }
  let w2 := w1.setDst { w1.dst with Unknown2 := w1.src.Unknown2 }
  let w3 := w2.setDst (Clear w2.dst)
  if w3.src.Size > 0 then
    match Reallocate w3.dst w3.src.Size with
    | none => none
    | some d4 =>
      let w4 := w3.setDst d4
      let w5 := w4.setDst { w4.dst with Size := w4.src.Size }
      match copyElements w5.dst.Size 0 (w5.map Array.Buf) with
      | none => none
      | some bufs => some (w5.setDst { w5.dst with Buf := bufs.dst })
  else some w3

/-- `Array::Array(Array const&)`: `CopyFrom` run on the new object, whose
members have their default initialisers; the source is another object. -/
def copy [Inhabited T] (a : Array T) : Option (Operands (Array T)) :=
  CopyFrom (Operands.distinct empty a)

/-- `Array::SafeAdd`: the returned flag and the array afterwards. -/
def SafeAdd [Inhabited T] (a : Array T) (val : T) : Option (Bool × Array T) :=
  match (if a.Capacity ≤ a.Size then Reallocate a a.CapacityIncrement else some a) with
  | none => none
  | some a1 =>
    if a1.Size < a1.Capacity then
      match writeAt a1.Buf a1.Size val with
      | none => none
      | some buf => some (true, { a1 with Buf := buf, Size := u32 (a1.Size + 1) })
    else some (false, a1)

end Array

/-- The loop `for (auto i = Size; i > index; i--) Buf[i] = Buf[i - 1]` of
`InsertAt`, with `n` iterations left. -/
def shiftUpLoop {T : Type} : Nat → Nat → List T → Option (List T)
  | 0, _, buf => some buf
  | n + 1, i, buf =>
    match buf[i - 1]? with
    | none => none
    | some v =>
      match writeAt buf i v with
      | none => none
      | some buf1 => shiftUpLoop n (i - 1) buf1

/-- `Set::InsertAt`. -/
def Set.InsertAt {T : Type} [Inhabited T] (s : Set T) (index : Nat) (value : T) :
    Option (Set T) :=
  match (if s.Capacity ≤ s.Size then Set.Grow s else some s) with
  | none => none
  | some s1 =>
    match shiftUpLoop (s1.Size - index) s1.Size s1.Buf with
    | none => none
    | some buf =>
      match writeAt buf index value with
      | none => none
      | some buf2 => some { s1 with Buf := buf2, Size := u32 (s1.Size + 1) }

/-- `Set::CapacityIncrement` as a function of the two fields it reads. -/
def capacityStep (capacityIncrementSize capacity : Nat) : Nat :=
  Set.CapacityIncrement
    ({ Buf := [], Capacity := capacity, Size := 0,
       CapacityIncrementSize := capacityIncrementSize } : Set Unit)

/-- The growth policies under which `n` successive `Set::Add` calls never wrap
the 32-bit capacity: no explicit increment, or an explicit increment whose
low 32 bits `k` are nonzero and whose last needed multiple `k * ceil(n / k)`
is below `2 ^ 32`. -/
def incrementFits (capacityIncrementSize n : Nat) : Prop :=
  capacityIncrementSize = 0 ∨
    (capacityIncrementSize % 2 ^ 32 ≠ 0 ∧
      ((n + capacityIncrementSize % 2 ^ 32 - 1) / (capacityIncrementSize % 2 ^ 32))
        * (capacityIncrementSize % 2 ^ 32) < 2 ^ 32)

instance (capacityIncrementSize n : Nat) : Decidable (incrementFits capacityIncrementSize n) := by
  unfold incrementFits
  infer_instance

/-! ## `BitArray` -/

/-- The struct `BitArray<TDWords>`: `uint32_t Bits[TDWords]`. -/
structure BitArray (TDWords : Nat) where
  Bits : List Nat
  length_eq : Bits.length = TDWords

namespace BitArray

variable {TDWords : Nat}

/-- The guard `index <= 0 || index > (TDWords * 32)` on an unsigned `index`;
the product is an `unsigned` (32-bit) multiplication. -/
def outOfRange (TDWords index : Nat) : Bool :=
  decide (index = 0) || decide (index > u32 (TDWords * 32))

/-- The mask `1 << ((index - 1) & 0x1f)` as converted to `uint32_t`. -/
def mask (index : Nat) : Nat := u32 (1 <<< ((index - 1) &&& 0x1f))

/-- `BitArray::Set`: the returned flag and the array afterwards. -/
def Set (b : BitArray TDWords) (index : Nat) : Option (Bool × BitArray TDWords) :=
  if outOfRange TDWords index then some (false, b)
  else
    match b.Bits[(index - 1) >>> 5]? with
    | none => none
    | some w =>
      some (true, { Bits := b.Bits.set ((index - 1) >>> 5) (w ||| mask index),
                    length_eq := by rw [List.length_set]; exact b.length_eq })

/-- `BitArray::IsSet`. -/
def IsSet (b : BitArray TDWords) (index : Nat) : Option Bool :=
  if outOfRange TDWords index then some false
  else
    match b.Bits[(index - 1) >>> 5]? with
    | none => none
    | some w => some (decide (w &&& mask index ≠ 0))

/-- The `BitArray` with every bit clear. -/
def zero (TDWords : Nat) : BitArray TDWords :=
  { Bits := List.replicate TDWords 0, length_eq := List.length_replicate TDWords 0 }

/-- The mask `~(1 << ((index - 1) & 0x1f))` as converted to `uint32_t`: the
32-bit complement of `mask index`. -/
def notMask (index : Nat) : Nat := 2 ^ 32 - 1 - mask index

/-- `BitArray::Clear`: the returned flag and the array afterwards. -/
def Clear (b : BitArray TDWords) (index : Nat) : Option (Bool × BitArray TDWords) :=
  if outOfRange TDWords index then some (false, b)
  else
    match b.Bits[(index - 1) >>> 5]? with
    | none => none
    | some w =>
      some (true, { Bits := b.Bits.set ((index - 1) >>> 5) (w &&& notMask index),
                    length_eq := by rw [List.length_set]; exact b.length_eq })

/-- Bit `p` of the word `Bits[k]`, when the array has a word `k`. -/
def bit (b : BitArray TDWords) (k p : Nat) : Option Bool :=
  (b.Bits[k]?).map (fun x => x.testBit p)

end BitArray

/-! ## `MultiHashMap` -/

/-- The struct `MultiHashMap<TKey, TValue>`.  `HashKeys` and `Values` are the
allocations behind the two raw pointers; `int32_t` values are integers. -/
structure MultiHashMap (K V : Type) where
  HashKeys : List Int
  NumHashKeys : Int
  NextIds : Array Int
  Keys : Array K
  Values : List V
  NumValues : Int
deriving DecidableEq, Repr

namespace MultiHashMap

variable {K V : Type}

/-- The loop `while (keyIndex >= 0)` of `FindIndex`, with `fuel` iterations
allowed: `none` is an access outside `Keys` or `NextIds`, or a loop that has
not ended when the fuel is spent. -/
def findIndexLoop [DecidableEq K] (m : MultiHashMap K V) (key : K) : Nat → Int → Option Int
  | 0, keyIndex => if keyIndex ≥ 0 then none else some (-1)
  | fuel + 1, keyIndex =>
    if keyIndex ≥ 0 then
      match m.Keys.get keyIndex.toNat with
      | none => none
      | some k =>
        if k = key then some keyIndex
        else
          match m.NextIds.get keyIndex.toNat with
          | none => none
          | some next => findIndexLoop m key fuel next
    else some (-1)

/-- `MultiHashMap::FindIndex`; `hash` is `MultiHashMapHash`. -/
def FindIndex [DecidableEq K] (hash : K → Nat) (fuel : Nat) (m : MultiHashMap K V) (key : K) :
    Option Int :=
  if m.NumHashKeys ≤ 0 then some (-1)
  else
    match m.HashKeys[hash key % m.NumHashKeys.toNat]? with
    | none => none
    | some keyIndex => findIndexLoop m key fuel keyIndex

/-- `MultiHashMap::Find`: the inner option is the `std::optional`, and the
pointer `Values + index` it holds is given by its offset `index`. -/
def Find [DecidableEq K] (hash : K → Nat) (fuel : Nat) (m : MultiHashMap K V) (key : K) :
    Option (Option Int) :=
  match FindIndex hash fuel m key with
  | none => none
  | some index => if index = -1 then some none else some (some index)

/-- The slots met from `start` along the `NextIds` links up to the sentinel
`-1`, within `fuel` links; `none` when the sentinel is not reached or a link
is not a slot of `NextIds`. -/
def slotChain (m : MultiHashMap K V) : Nat → Int → Option (List Nat)
  | 0, i => if i = -1 then some [] else none
  | fuel + 1, i =>
    if i = -1 then some []
    else if 0 ≤ i then
      match m.NextIds.get i.toNat with
      | none => none
      | some next =>
        match slotChain m fuel next with
        | none => none
        | some rest => some (i.toNat :: rest)
    else none

/-- Whether slot `s` holds a key that hashes to bucket `b`. -/
def keyHashesTo (hash : K → Nat) (m : MultiHashMap K V) (s b : Nat) : Bool :=
  match m.Keys.get s with
  | none => false
  | some k => decide (hash k % m.NumHashKeys.toNat = b)

/-- Whether the chain of bucket `b` ends at `-1` and visits exactly the slots
whose key hashes to `b`. -/
def chainCovers (hash : K → Nat) (m : MultiHashMap K V) (b : Nat) : Bool :=
  match m.HashKeys[b]? with
  | none => false
  | some start =>
    match slotChain m m.Keys.Size start with
    | none => false
    | some slots =>
      slots.all (fun s => decide (s < m.Keys.Size) && keyHashesTo hash m s b) &&
      (List.range m.Keys.Size).all (fun s => !keyHashesTo hash m s b || decide (s ∈ slots))

/-- Whether an entry of `HashKeys` or `NextIds` is `-1` or a valid slot. -/
def validLink (m : MultiHashMap K V) (e : Int) : Prop :=
  e = -1 ∨ (0 ≤ e ∧ e < (m.Keys.Size : Int))

instance (m : MultiHashMap K V) (e : Int) : Decidable (validLink m e) := by
  unfold validLink
  infer_instance

/-- The layout invariant of the lookup claim: buckets are configured, the
three arrays are parallel and hold their contents, every link is `-1` or a
valid slot, and every bucket chain covers exactly the keys of its bucket. -/
def LayoutInvariant (hash : K → Nat) (m : MultiHashMap K V) : Prop :=
  0 < m.NumHashKeys ∧ m.HashKeys.length = m.NumHashKeys.toNat ∧
  m.Keys.Size ≤ m.Keys.Buf.length ∧
  m.NextIds.Size = m.Keys.Size ∧ m.NextIds.Size ≤ m.NextIds.Buf.length ∧
  m.Values.length = m.Keys.Size ∧ m.NumValues = (m.Keys.Size : Int) ∧
  (∀ e ∈ m.HashKeys, validLink m e) ∧
  (∀ e ∈ m.NextIds.Buf.take m.NextIds.Size, validLink m e) ∧
  (∀ b, b < m.NumHashKeys.toNat → chainCovers hash m b = true)

instance (hash : K → Nat) (m : MultiHashMap K V) : Decidable (LayoutInvariant hash m) := by
  unfold LayoutInvariant
  infer_instance

/-- Whether `key` is stored: some live slot of `Keys` holds it. -/
def Stored [DecidableEq K] (m : MultiHashMap K V) (key : K) : Prop :=
  ∃ s, s < m.Keys.Size ∧ m.Keys.get s = some key

/-- The first slot of a chain whose key equals `key`. -/
def firstSlotWithKey [DecidableEq K] (m : MultiHashMap K V) (key : K) (slots : List Nat) :
    Option Nat :=
  slots.find? (fun s => decide (m.Keys.get s = some key))

/-- The hash of the hand-built instance: `"a"` goes to bucket 0, `"b"` and
`"c"` collide in bucket 1, `"d"` goes to the empty bucket 2. -/
def handBuiltHash (key : String) : Nat :=
  if key = "a" then 4 else if key = "b" then 5 else if key = "c" then 9 else 2

/-- The hand-built instance with 4 buckets and the keys `"a"`, `"b"`, `"c"`:
slot 0 holds `"b"`, slot 1 holds `"a"`, slot 2 holds `"c"`, and the chain of
bucket 1 is slot 2, then slot 0. -/
def handBuilt : MultiHashMap String Nat :=
  { HashKeys := [1, 2, -1, -1], NumHashKeys := 4,
    NextIds := { Buf := [-1, -1, 0, -1], Capacity := 4, Unknown := 0, Size := 3, Unknown2 := 0 },
    Keys := { Buf := ["b", "a", "c", ""], Capacity := 4, Unknown := 0, Size := 3, Unknown2 := 0 },
    Values := [20, 10, 30], NumValues := 3 }

end MultiHashMap

/-! ## Chained hash maps: scans and iterators -/

/-- The inner `while (item != nullptr)` loop of `Iterate` on one chain: the
calls `visitor(item->Key, item->Value)` it makes, in order. -/
def visitChain {K V : Type} : List (Node K V) → List (K × V)
  | [] => []
  | item :: next => (item.Key, item.Value) :: visitChain next

/-- The `for (bucket = ...; bucket < HashSize; bucket++)` loop of `Iterate`,
with `n` buckets left: the visitor calls made, in order. -/
def iterateLoop {K V : Type} : Nat → Nat → List (List (Node K V)) → Option (List (K × V))
  | 0, _, _ => some []
  | n + 1, bucket, table =>
    match table[bucket]? with
    | none => none
    | some chain =>
      match iterateLoop n (bucket + 1) table with
      | none => none
      | some rest => some (visitChain chain ++ rest)

/-- `Map::Iterate`: the list of the visitor calls. -/
def Map.Iterate {K V : Type} (m : Map K V) : Option (List (K × V)) :=
  iterateLoop m.HashSize 0 m.HashTable

/-- `RefMap::Iterate`: the list of the visitor calls. -/
def RefMap.Iterate {K V : Type} (m : RefMap K V) : Option (List (K × V)) :=
  iterateLoop m.HashSize 0 m.HashTable

/-- The inner `while (item != nullptr)` loop of `FindByValue` on one chain. -/
def findValueChain {K V : Type} [DecidableEq V] (value : V) : List (Node K V) → Option K
  | [] => none
  | item :: next => if value = item.Value then some item.Key else findValueChain value next

/-- The `for (bucket = ...; bucket < HashSize; bucket++)` loop of
`FindByValue`, with `n` buckets left. -/
def findByValueLoop {K V : Type} [DecidableEq V] (value : V) :
    Nat → Nat → List (List (Node K V)) → Option (Option K)
  | 0, _, _ => some none
  | n + 1, bucket, table =>
    match table[bucket]? with
    | none => none
    | some chain =>
      match findValueChain value chain with
      | some key => some (some key)
      | none => findByValueLoop value n (bucket + 1) table

/-- `Map::FindByValue`: outer `none` is undefined behaviour, inner `none` the
null pointer, `some k` a pointer to a key slot holding `k`. -/
def Map.FindByValue {K V : Type} [DecidableEq V] (m : Map K V) (value : V) : Option (Option K) :=
  findByValueLoop value m.HashSize 0 m.HashTable

/-- The entries of a bucket array in bucket-then-chain order. -/
def entries {K V : Type} (table : List (List (Node K V))) : List (Node K V) :=
  table.flatten

/-- `Map::Iterator` / `RefMap::Iterator`: `Node` is the index of the bucket
slot the `Node**` designates, `NodeListEnd` the index `HashSize` of
`HashTable + HashSize`, and `Element` the chain that starts at the node the
`Node*` designates (`[]` for `nullptr`). -/
structure Iterator (K V : Type) where
  Node : Nat
  NodeListEnd : Nat
  Element : List (bg3se.Node K V)
deriving DecidableEq, Repr

namespace Iterator

variable {K V : Type}

/-- The loop `while (Node < NodeListEnd && *Node == nullptr) Node++` with
`n = NodeListEnd - Node`: `none` is a read of `*Node` outside the bucket
array. -/
def skipNullLoop (table : List (List (bg3se.Node K V))) : Nat → Nat → Option Nat
  | 0, node => some node
  | n + 1, node =>
    match table[node]? with
    | none => none
    | some [] => skipNullLoop table n (node + 1)
    | some (_ :: _) => some node

/-- The statement `if (Node < NodeListEnd && *Node) Element = *Node;`. -/
def loadElement (table : List (List (bg3se.Node K V))) (it : Iterator K V) :
    Option (Iterator K V) :=
  if it.Node < it.NodeListEnd then
    match table[it.Node]? with
    | none => none
    | some [] => some it
    | some (e :: es) => some { it with Element := e :: es }
  else some it

/-- The constructor `Iterator(Map& map)` used by `begin()`. -/
def begin (table : List (List (bg3se.Node K V))) (hashSize : Nat) : Option (Iterator K V) :=
  match skipNullLoop table hashSize 0 with
  | none => none
  | some node => loadElement table { Node := node, NodeListEnd := hashSize, Element := [] }

/-- The iterator `Iterator(*this, HashTable + HashSize, nullptr)` of `end()`. -/
def end_ (hashSize : Nat) : Iterator K V :=
  { Node := hashSize, NodeListEnd := hashSize, Element := [] }

/-- The increment `operator ++`: `none` is the read `Element->Next` through a
null `Element`, or a read of `*Node` outside the bucket array. -/
def next (table : List (List (bg3se.Node K V))) (it : Iterator K V) : Option (Iterator K V) :=
  match it.Element with
  | [] => none
  | _ :: rest =>
    match rest with
    | e :: es => some { it with Element := e :: es }
    | [] =>
      match skipNullLoop table (it.NodeListEnd - (it.Node + 1)) (it.Node + 1) with
      | none => none
      | some node => loadElement table { it with Node := node, Element := [] }

/-- The comparison `operator ==`.  The two `Element` pointers are compared
through the lengths of the chains that start at them: under equal `Node`
they lie in one bucket, where this is the equality of the nodes, and a null
pointer is the chain of length 0. -/
def eq (a b : Iterator K V) : Bool :=
  decide (a.Node = b.Node) && decide (a.Element.length = b.Element.length)

/-- The traversal `for (it = ...; it != end(); it++) visitor(it.Key(), it.Value())`
with `fuel` increments allowed: `none` is a dereference of a null `Element`,
a read outside the bucket array, or a traversal not ended when the fuel is
spent. -/
def traverse (table : List (List (bg3se.Node K V))) (hashSize : Nat) :
    Nat → Iterator K V → Option (List (K × V))
  | 0, it => if eq it (end_ hashSize) then some [] else none
  | fuel + 1, it =>
    if eq it (end_ hashSize) then some []
    else
      match it.Element with
      | [] => none
      | e :: _ =>
        match next table it with
        | none => none
        | some it1 =>
          match traverse table hashSize fuel it1 with
          | none => none
          | some rest => some ((e.Key, e.Value) :: rest)

end Iterator

/-- `Map::begin()`. -/
def Map.begin {K V : Type} (m : Map K V) : Option (Iterator K V) :=
  Iterator.begin m.HashTable m.HashSize

/-- `Map::end()`. -/
def Map.end_ {K V : Type} (m : Map K V) : Iterator K V := Iterator.end_ m.HashSize

/-- `RefMap::begin()`. -/
def RefMap.begin {K V : Type} (m : RefMap K V) : Option (Iterator K V) :=
  Iterator.begin m.HashTable m.HashSize

/-- `RefMap::end()`. -/
def RefMap.end_ {K V : Type} (m : RefMap K V) : Iterator K V := Iterator.end_ m.HashSize

/-- The key given to an `Insert` call, `none` for `Clear()`. -/
def MapOp.key? {K V : Type} : MapOp K V → Option K
  | MapOp.insertKey key => some key
  | MapOp.insert key _ => some key
  | MapOp.clear => none

/-- The keys a chained map holds after one more call, given those it held:
an `Insert` of a new key puts it last, `Clear()` drops them all. -/
def keysStep {K V : Type} [DecidableEq K] (acc : List K) (op : MapOp K V) : List K :=
  match op.key? with
  | some key => if key ∈ acc then acc else acc ++ [key]
  | none => []

/-- The keys inserted by a sequence of calls since its last `Clear()`, each
once, in the order of their first insertion (the specification side of the
iteration order). -/
def liveKeys {K V : Type} [DecidableEq K] (ops : List (MapOp K V)) : List K :=
  ops.foldl keysStep []

/-- The keys met by a scan in bucket order: for each bucket in ascending
order, the given keys that hash to it, in the given order. -/
def bucketOrder {K : Type} (hash : K → Nat) (hashSize : Nat) (keys : List K) : List K :=
  (List.range hashSize).flatMap (fun b => keys.filter (fun k => decide (hash k % hashSize = b)))

/-- The state of a bucket array of `hashSize` buckets that holds the keys
`keys`: bucket `b` exists and its chain holds, in order, the keys of `keys`
that hash to `b`. -/
def TableInv {K V : Type} (hash : K → Nat) (hashSize : Nat) (table : List (List (Node K V)))
    (keys : List K) : Prop :=
  table.length = hashSize ∧
  ∀ b, b < hashSize → ∃ chain, table[b]? = some chain ∧
    chain.map (fun e => e.Key) = keys.filter (fun k => decide (hash k % hashSize = b))

/-- The state of a chained map that holds the keys `keys`, each once, with
its 32-bit item counter. -/
def ChainedInv {K V : Type} (hash : K → Nat) (hashSize : Nat) (table : List (List (Node K V)))
    (itemCount : Nat) (keys : List K) : Prop :=
  TableInv hash hashSize table keys ∧ keys.Nodup ∧ itemCount = u32 keys.length

/-! ## The sequence invariant -/

/-- `CompactSet::Remove` as inherited by `Set`. -/
def Set.Remove {T : Type} (s : Set T) (index : Nat) : Option (Set T) :=
  match s.toCompactSet.Remove index with
  | none => none
  | some c => some { s with toCompactSet := c }

/-- `CompactSet::Clear` as inherited by `Set`. -/
def Set.Clear {T : Type} (s : Set T) : Set T := { s with toCompactSet := s.toCompactSet.Clear }

/-- The implicitly defined copy assignment of `Set`: `CompactSet::operator =`
on the base of the two operands, then the member `CapacityIncrementSize`. -/
def Set.assign {T : Type} [Inhabited T] (w : Operands (Set T)) : Option (Operands (Set T)) :=
  match CompactSet.assign (w.map Set.toCompactSet) with
  | none => none
  | some r =>
    let w1 := w.setDst { w.dst with toCompactSet := r.dst }
    some (w1.setDst { w1.dst with CapacityIncrementSize := w1.src.CapacityIncrementSize })

/-- `CompactSet::Remove` as inherited by `PrimitiveSmallSet`. -/
def PrimitiveSmallSet.Remove {T : Type} (s : PrimitiveSmallSet T) (index : Nat) :
    Option (PrimitiveSmallSet T) :=
  match s.toCompactSet.Remove index with
  | none => none
  | some c => some { toCompactSet := c }

/-- `CompactSet::Clear` as inherited by `PrimitiveSmallSet`. -/
def PrimitiveSmallSet.Clear {T : Type} (s : PrimitiveSmallSet T) : PrimitiveSmallSet T :=
  { toCompactSet := s.toCompactSet.Clear }

/-- The implicitly defined copy assignment of `PrimitiveSmallSet`:
`CompactSet::operator =` on the base of the two operands. -/
def PrimitiveSmallSet.assign {T : Type} [Inhabited T] (w : Operands (PrimitiveSmallSet T)) :
    Option (Operands (PrimitiveSmallSet T)) :=
  match CompactSet.assign (w.map PrimitiveSmallSet.toCompactSet) with
  | none => none
  | some r => some (w.setDst { toCompactSet := r.dst })

/-- The invariant of a sequence with buffer `buf`: the buffer has `capacity`
slots, `size <= capacity`, and `capacity` is a `uint32_t`. -/
def SeqInv {T : Type} (buf : List T) (capacity size : Nat) : Prop :=
  buf.length = capacity ∧ size ≤ capacity ∧ capacity < 2 ^ 32

instance {T : Type} (buf : List T) (capacity size : Nat) : Decidable (SeqInv buf capacity size) := by
  unfold SeqInv
  infer_instance

/-- The states of a `Set` reachable from an empty one, with any configured
`CapacityIncrementSize`, through `Add`, `InsertAt` with `index <= Size`,
`Remove`, `Clear`, copy assignment from a reachable `Set` and
self-assignment, each call staying within defined behaviour. -/
inductive Set.Reachable {T : Type} [Inhabited T] : Set T → Prop where
  | empty (capacityIncrementSize : Nat) : Set.Reachable (Set.empty capacityIncrementSize)
  | add {s s1 : Set T} (value : T) :
      Set.Reachable s → s.Add value = some s1 → Set.Reachable s1
  | insertAt {s s1 : Set T} (index : Nat) (value : T) :
      Set.Reachable s → index ≤ s.Size → s.InsertAt index value = some s1 → Set.Reachable s1
  | remove {s s1 : Set T} (index : Nat) :
      Set.Reachable s → s.Remove index = some s1 → Set.Reachable s1
  | clear {s : Set T} : Set.Reachable s → Set.Reachable s.Clear
  | assign {s other : Set T} {w1 : Operands (Set T)} :
      Set.Reachable s → Set.Reachable other →
      Set.assign (Operands.distinct s other) = some w1 → Set.Reachable w1.dst
  | selfAssign {s : Set T} {w1 : Operands (Set T)} :
      Set.Reachable s → Set.assign (Operands.aliased s) = some w1 → Set.Reachable w1.dst

/-- The states of a `PrimitiveSmallSet` reachable from the empty one through
`Add`, `Remove`, `Clear`, copy assignment from a reachable one and
self-assignment, each call staying within defined behaviour. -/
inductive PrimitiveSmallSet.Reachable {T : Type} [Inhabited T] : PrimitiveSmallSet T → Prop where
  | empty : PrimitiveSmallSet.Reachable PrimitiveSmallSet.empty
  | add {s s1 : PrimitiveSmallSet T} (value : T) :
      PrimitiveSmallSet.Reachable s → s.Add value = some s1 → PrimitiveSmallSet.Reachable s1
  | remove {s s1 : PrimitiveSmallSet T} (index : Nat) :
      PrimitiveSmallSet.Reachable s → s.Remove index = some s1 → PrimitiveSmallSet.Reachable s1
  | clear {s : PrimitiveSmallSet T} :
      PrimitiveSmallSet.Reachable s → PrimitiveSmallSet.Reachable s.Clear
  | assign {s other : PrimitiveSmallSet T} {w1 : Operands (PrimitiveSmallSet T)} :
      PrimitiveSmallSet.Reachable s → PrimitiveSmallSet.Reachable other →
      PrimitiveSmallSet.assign (Operands.distinct s other) = some w1 →
      PrimitiveSmallSet.Reachable w1.dst
  | selfAssign {s : PrimitiveSmallSet T} {w1 : Operands (PrimitiveSmallSet T)} :
      PrimitiveSmallSet.Reachable s →
      PrimitiveSmallSet.assign (Operands.aliased s) = some w1 →
      PrimitiveSmallSet.Reachable w1.dst

/-- The states of an `Array` reachable from the empty one through `Add`,
`Remove`, `Clear`, copy assignment (`CopyFrom`) from a reachable one and
self-assignment, each call staying within defined behaviour. -/
inductive Array.Reachable {T : Type} [Inhabited T] : Array T → Prop where
  | empty : Array.Reachable Array.empty
  | add {a a1 : Array T} (value : T) :
      Array.Reachable a → a.Add value = some a1 → Array.Reachable a1
  | remove {a a1 : Array T} (index : Nat) :
      Array.Reachable a → a.Remove index = some a1 → Array.Reachable a1
  | clear {a : Array T} : Array.Reachable a → Array.Reachable a.Clear
  | assign {a other : Array T} {w1 : Operands (Array T)} :
      Array.Reachable a → Array.Reachable other →
      Array.CopyFrom (Operands.distinct a other) = some w1 → Array.Reachable w1.dst
  | selfAssign {a : Array T} {w1 : Operands (Array T)} :
      Array.Reachable a → Array.CopyFrom (Operands.aliased a) = some w1 →
      Array.Reachable w1.dst

/-! ## Lemmas on hash chains and bucket arrays -/

theorem findChain_insert_write {K V : Type} [DecidableEq K] [Inhabited V] (k key : K) (v : V)
    (chain : List (Node K V)) :
    findChain k (writeValue (insertChain key chain).1 (insertChain key chain).2.1 v)
      = if k = key then some v else findChain k chain := by
  induction chain with
  | nil =>
    simp [insertChain, writeValue, findChain]
  | cons item next ih =>
    by_cases h1 : key = item.Key
    · simp only [insertChain, h1, if_true, writeValue, findChain]
      by_cases h2 : k = item.Key
      · simp [h2]
      · simp [h2]
    · simp only [insertChain, h1, if_false, writeValue, findChain, ih]
      by_cases h2 : k = item.Key
      · have h3 : ¬ item.Key = key := fun h => h1 h.symm
        simp [h2, h3]
      · simp [h2]

theorem insert_table_spec {K V : Type} [DecidableEq K] [Inhabited V] (hash : K → Nat)
    (n : Nat) (table : List (List (Node K V))) (hn : 0 < n) (hlen : table.length = n)
    (key : K) (v : V) :
    ∃ t1 fresh pos, insertKeyTable hash n table key = some (t1, fresh, hash key % n, pos) ∧
      (writeSlot t1 (hash key % n) pos v).length = n ∧
      ∀ k, findTable hash n (writeSlot t1 (hash key % n) pos v) k
        = if k = key then some (some v) else findTable hash n table k := by
  have hb : hash key % n < table.length := by rw [hlen]; exact Nat.mod_lt _ hn
  have hn0 : n ≠ 0 := Nat.pos_iff_ne_zero.mp hn
  refine ⟨table.set (hash key % n) (insertChain key table[hash key % n]).1,
    (insertChain key table[hash key % n]).2.2, (insertChain key table[hash key % n]).2.1, ?_, ?_, ?_⟩
  · simp [insertKeyTable, hn0, List.getElem?_eq_getElem hb]
  · simp [writeSlot, List.getElem?_set_self hb, hlen]
  · intro k
    have hk : hash k % n < table.length := by rw [hlen]; exact Nat.mod_lt _ hn
    by_cases hkb : hash k % n = hash key % n
    · simp only [findTable, hn0, if_false, writeSlot, List.getElem?_set_self hb, List.set_set,
        hkb, List.getElem?_eq_getElem hb, findChain_insert_write]
      by_cases h : k = key <;> simp [h]
    · have hne : k ≠ key := fun h => hkb (h ▸ rfl)
      simp only [findTable, hn0, if_false, writeSlot, List.getElem?_set_self hb, List.set_set,
        hne]
      rw [List.getElem?_set_ne (Ne.symm hkb)]

theorem Map_Insert_spec {K V : Type} [DecidableEq K] [Inhabited V] (hash : K → Nat)
    (m : Map K V) (hn : 0 < m.HashSize) (hlen : m.HashTable.length = m.HashSize)
    (key : K) (v : V) :
    ∃ m1, Map.Insert hash m key v = some m1 ∧ m1.HashSize = m.HashSize ∧
      m1.HashTable.length = m.HashSize ∧
      ∀ k, Map.Find hash m1 k = if k = key then some (some v) else Map.Find hash m k := by
  obtain ⟨t1, fresh, pos, h1, h2, h3⟩ := insert_table_spec hash m.HashSize m.HashTable hn hlen key v
  refine ⟨{ HashSize := m.HashSize, HashTable := writeSlot t1 (hash key % m.HashSize) pos v,
            ItemCount := if fresh then u32 (m.ItemCount + 1) else m.ItemCount }, ?_, rfl, h2, ?_⟩
  · simp [Map.Insert, Map.InsertKey, h1]
  · intro k
    exact h3 k

theorem RefMap_Insert_spec {K V : Type} [DecidableEq K] [Inhabited V] (hash : K → Nat)
    (m : RefMap K V) (hn : 0 < m.HashSize) (hlen : m.HashTable.length = m.HashSize)
    (key : K) (v : V) :
    ∃ m1, RefMap.Insert hash m key v = some m1 ∧ m1.HashSize = m.HashSize ∧
      m1.HashTable.length = m.HashSize ∧
      ∀ k, RefMap.Find hash m1 k = if k = key then some (some v) else RefMap.Find hash m k := by
  obtain ⟨t1, fresh, pos, h1, h2, h3⟩ := insert_table_spec hash m.HashSize m.HashTable hn hlen key v
  refine ⟨{ HashSize := m.HashSize, HashTable := writeSlot t1 (hash key % m.HashSize) pos v,
            ItemCount := if fresh then u32 (m.ItemCount + 1) else m.ItemCount }, ?_, rfl, h2, ?_⟩
  · simp [RefMap.Insert, RefMap.InsertKey, h1]
  · intro k
    exact h3 k

theorem Map_InsertAll_spec {K V : Type} [DecidableEq K] [Inhabited V] (hash : K → Nat)
    (ops : List (K × V)) :
    ∀ m : Map K V, 0 < m.HashSize → m.HashTable.length = m.HashSize →
      ∃ m1, Map.InsertAll hash m ops = some m1 ∧ m1.HashSize = m.HashSize ∧
        m1.HashTable.length = m.HashSize ∧
        ∀ k, Map.Find hash m1 k =
          match lastInserted k ops with
          | some w => some (some w)
          | none => Map.Find hash m k := by
  induction ops with
  | nil =>
    intro m _ hlen
    exact ⟨m, rfl, rfl, hlen, fun k => by simp [lastInserted]⟩
  | cons kv rest ih =>
    intro m hn hlen
    obtain ⟨m1, e1, s1, l1, f1⟩ := Map_Insert_spec hash m hn hlen kv.1 kv.2
    obtain ⟨m2, e2, s2, l2, f2⟩ := ih m1 (s1 ▸ hn) (s1 ▸ l1)
    refine ⟨m2, ?_, s2.trans s1, l2.trans s1, ?_⟩
    · simp [Map.InsertAll, e1, e2]
    · intro k
      rw [f2 k, f1 k]
      cases h : lastInserted k rest with
      | some w => simp [lastInserted, h]
      | none =>
        by_cases hk : k = kv.1
        · rw [hk] at h ⊢
          simp [lastInserted, h]
        · simp [lastInserted, h, hk]

theorem RefMap_InsertAll_spec {K V : Type} [DecidableEq K] [Inhabited V] (hash : K → Nat)
    (ops : List (K × V)) :
    ∀ m : RefMap K V, 0 < m.HashSize → m.HashTable.length = m.HashSize →
      ∃ m1, RefMap.InsertAll hash m ops = some m1 ∧ m1.HashSize = m.HashSize ∧
        m1.HashTable.length = m.HashSize ∧
        ∀ k, RefMap.Find hash m1 k =
          match lastInserted k ops with
          | some w => some (some w)
          | none => RefMap.Find hash m k := by
  induction ops with
  | nil =>
    intro m _ hlen
    exact ⟨m, rfl, rfl, hlen, fun k => by simp [lastInserted]⟩
  | cons kv rest ih =>
    intro m hn hlen
    obtain ⟨m1, e1, s1, l1, f1⟩ := RefMap_Insert_spec hash m hn hlen kv.1 kv.2
    obtain ⟨m2, e2, s2, l2, f2⟩ := ih m1 (s1 ▸ hn) (s1 ▸ l1)
    refine ⟨m2, ?_, s2.trans s1, l2.trans s1, ?_⟩
    · simp [RefMap.InsertAll, e1, e2]
    · intro k
      rw [f2 k, f1 k]
      cases h : lastInserted k rest with
      | some w => simp [lastInserted, h]
      | none =>
        by_cases hk : k = kv.1
        · rw [hk] at h ⊢
          simp [lastInserted, h]
        · simp [lastInserted, h, hk]

theorem findTable_replicate {K V : Type} [DecidableEq K] (hash : K → Nat) (n : Nat)
    (hn : 0 < n) (k : K) :
    findTable hash n (List.replicate n ([] : List (Node K V))) k = some none := by
  have hn0 : n ≠ 0 := Nat.pos_iff_ne_zero.mp hn
  have hb : hash k % n < n := Nat.mod_lt _ hn
  simp [findTable, hn0, List.getElem?_replicate, hb, findChain]

theorem clearLoop_spec {K V : Type} (n : Nat) :
    ∀ (i : Nat) (table : List (List (Node K V))), i + n ≤ table.length →
      ∃ t, clearLoop n i table = some t ∧ t.length = table.length ∧
        ∀ j, t[j]? = if i ≤ j ∧ j < i + n then some [] else table[j]? := by
  induction n with
  | zero =>
    intro i table _
    refine ⟨table, rfl, rfl, fun j => ?_⟩
    have : ¬ (i ≤ j ∧ j < i) := by omega
    simp [this]
  | succ n ih =>
    intro i table hi
    have hlt : i < table.length := by omega
    cases hc : table[i] with
    | nil =>
      obtain ⟨t, e, l, g⟩ := ih (i + 1) table (by omega)
      refine ⟨t, ?_, l, fun j => ?_⟩
      · simp [clearLoop, List.getElem?_eq_getElem hlt, hc, e]
      · rw [g j]
        by_cases hj : j = i
        · subst hj
          have h1 : ¬ (j + 1 ≤ j ∧ j < j + 1 + n) := by omega
          have h2 : j ≤ j ∧ j < j + (n + 1) := by omega
          simp [h1, h2, List.getElem?_eq_getElem hlt, hc]
        · by_cases h3 : i + 1 ≤ j ∧ j < i + 1 + n
          · have h4 : i ≤ j ∧ j < i + (n + 1) := by omega
            simp [h3, h4]
          · have h4 : ¬ (i ≤ j ∧ j < i + (n + 1)) := by omega
            simp [h3, h4]
    | cons c cs =>
      obtain ⟨t, e, l, g⟩ := ih (i + 1) (table.set i []) (by simp; omega)
      refine ⟨t, ?_, by simpa using l, fun j => ?_⟩
      · simp [clearLoop, List.getElem?_eq_getElem hlt, hc, e]
      · rw [g j]
        by_cases hj : j = i
        · subst hj
          have h1 : ¬ (j + 1 ≤ j ∧ j < j + 1 + n) := by omega
          have h2 : j ≤ j ∧ j < j + (n + 1) := by omega
          simp [h1, h2, List.getElem?_set_self hlt]
        · have hne : i ≠ j := fun h => hj h.symm
          by_cases h3 : i + 1 ≤ j ∧ j < i + 1 + n
          · have h4 : i ≤ j ∧ j < i + (n + 1) := by omega
            simp [h3, h4]
          · have h4 : ¬ (i ≤ j ∧ j < i + (n + 1)) := by omega
            simp [h3, h4, List.getElem?_set_ne hne]

theorem clearLoop_all {K V : Type} (table : List (List (Node K V))) :
    clearLoop table.length 0 table = some (List.replicate table.length []) := by
  obtain ⟨t, e, l, g⟩ := clearLoop_spec table.length 0 table (by omega)
  rw [e]
  congr 1
  apply List.ext_getElem?
  intro j
  rw [g j]
  by_cases hj : j < table.length
  · simp [hj, List.getElem?_replicate]
  · have h1 : ¬ (0 ≤ j ∧ j < 0 + table.length) := by omega
    simp [h1, hj, List.getElem?_replicate]
    omega

theorem insertKeyTable_wf {K V : Type} [DecidableEq K] [Inhabited V] (hash : K → Nat)
    (n : Nat) (table : List (List (Node K V))) (hn : 0 < n) (hlen : table.length = n)
    (key : K) :
    ∃ r, insertKeyTable hash n table key = some r ∧ r.1.length = n := by
  have hb : hash key % n < table.length := by rw [hlen]; exact Nat.mod_lt _ hn
  have hn0 : n ≠ 0 := Nat.pos_iff_ne_zero.mp hn
  refine ⟨(table.set (hash key % n) (insertChain key table[hash key % n]).1,
    (insertChain key table[hash key % n]).2.2, hash key % n,
    (insertChain key table[hash key % n]).2.1), ?_, ?_⟩
  · simp only [insertKeyTable, hn0, if_false, List.getElem?_eq_getElem hb]
  · simp [hlen]

theorem Map_step_wf {K V : Type} [DecidableEq K] [Inhabited V] (hash : K → Nat)
    (m : Map K V) (hn : 0 < m.HashSize) (hlen : m.HashTable.length = m.HashSize)
    (op : MapOp K V) :
    ∃ m1, Map.step hash m op = some m1 ∧ m1.HashSize = m.HashSize ∧
      m1.HashTable.length = m.HashSize := by
  cases op with
  | insertKey key =>
    obtain ⟨r, e, l⟩ := insertKeyTable_wf hash m.HashSize m.HashTable hn hlen key
    obtain ⟨t, fresh, slot⟩ := r
    exact ⟨{ HashSize := m.HashSize, HashTable := t,
             ItemCount := if fresh then u32 (m.ItemCount + 1) else m.ItemCount },
      by simp only [Map.step, Map.InsertKey, e], rfl, l⟩
  | insert key value =>
    obtain ⟨m1, e, s1, l1, _⟩ := Map_Insert_spec hash m hn hlen key value
    exact ⟨m1, e, s1, l1⟩
  | clear =>
    refine ⟨{ m with ItemCount := 0, HashTable := List.replicate m.HashSize [] }, ?_, rfl, by simp⟩
    have := clearLoop_all m.HashTable
    rw [hlen] at this
    simp [Map.step, Map.Clear, this]

theorem RefMap_step_wf {K V : Type} [DecidableEq K] [Inhabited V] (hash : K → Nat)
    (m : RefMap K V) (hn : 0 < m.HashSize) (hlen : m.HashTable.length = m.HashSize)
    (op : MapOp K V) :
    ∃ m1, RefMap.step hash m op = some m1 ∧ m1.HashSize = m.HashSize ∧
      m1.HashTable.length = m.HashSize := by
  cases op with
  | insertKey key =>
    obtain ⟨r, e, l⟩ := insertKeyTable_wf hash m.HashSize m.HashTable hn hlen key
    obtain ⟨t, fresh, slot⟩ := r
    exact ⟨{ HashSize := m.HashSize, HashTable := t,
             ItemCount := if fresh then u32 (m.ItemCount + 1) else m.ItemCount },
      by simp only [RefMap.step, RefMap.InsertKey, e], rfl, l⟩
  | insert key value =>
    obtain ⟨m1, e, s1, l1, _⟩ := RefMap_Insert_spec hash m hn hlen key value
    exact ⟨m1, e, s1, l1⟩
  | clear =>
    refine ⟨{ m with ItemCount := 0, HashTable := List.replicate m.HashSize [] }, ?_, rfl, by simp⟩
    have := clearLoop_all m.HashTable
    rw [hlen] at this
    simp [RefMap.step, RefMap.Clear, this]

theorem Map_run_wf {K V : Type} [DecidableEq K] [Inhabited V] (hash : K → Nat)
    (ops : List (MapOp K V)) :
    ∀ m : Map K V, 0 < m.HashSize → m.HashTable.length = m.HashSize →
      ∃ m1, Map.run hash m ops = some m1 ∧ m1.HashSize = m.HashSize ∧
        m1.HashTable.length = m.HashSize := by
  induction ops with
  | nil => exact fun m _ hlen => ⟨m, rfl, rfl, hlen⟩
  | cons op rest ih =>
    intro m hn hlen
    obtain ⟨m1, e1, s1, l1⟩ := Map_step_wf hash m hn hlen op
    obtain ⟨m2, e2, s2, l2⟩ := ih m1 (s1 ▸ hn) (s1 ▸ l1)
    exact ⟨m2, by simp [Map.run, e1, e2], s2.trans s1, l2.trans s1⟩

theorem RefMap_run_wf {K V : Type} [DecidableEq K] [Inhabited V] (hash : K → Nat)
    (ops : List (MapOp K V)) :
    ∀ m : RefMap K V, 0 < m.HashSize → m.HashTable.length = m.HashSize →
      ∃ m1, RefMap.run hash m ops = some m1 ∧ m1.HashSize = m.HashSize ∧
        m1.HashTable.length = m.HashSize := by
  induction ops with
  | nil => exact fun m _ hlen => ⟨m, rfl, rfl, hlen⟩
  | cons op rest ih =>
    intro m hn hlen
    obtain ⟨m1, e1, s1, l1⟩ := RefMap_step_wf hash m hn hlen op
    obtain ⟨m2, e2, s2, l2⟩ := ih m1 (s1 ▸ hn) (s1 ▸ l1)
    exact ⟨m2, by simp [RefMap.run, e1, e2], s2.trans s1, l2.trans s1⟩

/-! ## Lemmas on buffers and their loops -/

theorem copyLoop_spec {T : Type} (src : List T) (n : Nat) :
    ∀ (i : Nat) (dst : List T), i + n ≤ src.length → i + n ≤ dst.length →
      ∃ r, copyLoop src n i dst = some r ∧ r.length = dst.length ∧
        ∀ j, r[j]? = if i ≤ j ∧ j < i + n then src[j]? else dst[j]? := by
  induction n with
  | zero =>
    intro i dst _ _
    refine ⟨dst, rfl, rfl, fun j => ?_⟩
    have : ¬ (i ≤ j ∧ j < i) := by omega
    simp [this]
  | succ n ih =>
    intro i dst hs hd
    have hi : i < src.length := by omega
    have hi2 : i < dst.length := by omega
    obtain ⟨r, e, l, g⟩ := ih (i + 1) (dst.set i src[i]) (by omega) (by simp; omega)
    refine ⟨r, ?_, by simpa using l, fun j => ?_⟩
    · simp [copyLoop, List.getElem?_eq_getElem hi, writeAt, hi2, e]
    · rw [g j]
      by_cases hj : j = i
      · subst hj
        have h1 : ¬ (j + 1 ≤ j ∧ j < j + 1 + n) := by omega
        have h2 : j ≤ j ∧ j < j + (n + 1) := by omega
        simp [h1, h2, List.getElem?_set_self hi2, List.getElem?_eq_getElem hi]
      · have hne : i ≠ j := fun h => hj h.symm
        by_cases h3 : i + 1 ≤ j ∧ j < i + 1 + n
        · have h4 : i ≤ j ∧ j < i + (n + 1) := by omega
          simp [h3, h4]
        · have h4 : ¬ (i ≤ j ∧ j < i + (n + 1)) := by omega
          simp [h3, h4, List.getElem?_set_ne hne]

theorem shiftDownLoop_spec {T : Type} (n : Nat) :
    ∀ (i : Nat) (buf : List T), i + n + 1 ≤ buf.length →
      ∃ r, shiftDownLoop n i buf = some r ∧ r.length = buf.length ∧
        ∀ j, r[j]? = if i ≤ j ∧ j < i + n then buf[j + 1]? else buf[j]? := by
  induction n with
  | zero =>
    intro i buf _
    refine ⟨buf, rfl, rfl, fun j => ?_⟩
    have : ¬ (i ≤ j ∧ j < i) := by omega
    simp [this]
  | succ n ih =>
    intro i buf hb
    have hi1 : i + 1 < buf.length := by omega
    have hi : i < buf.length := by omega
    obtain ⟨r, e, l, g⟩ := ih (i + 1) (buf.set i buf[i + 1]) (by simp; omega)
    refine ⟨r, ?_, by simpa using l, fun j => ?_⟩
    · simp [shiftDownLoop, List.getElem?_eq_getElem hi1, writeAt, hi, e]
    · rw [g j]
      by_cases hj : j = i
      · subst hj
        have h1 : ¬ (j + 1 ≤ j ∧ j < j + 1 + n) := by omega
        have h2 : j ≤ j ∧ j < j + (n + 1) := by omega
        simp [h1, h2, List.getElem?_set_self hi, List.getElem?_eq_getElem hi1]
      · have hne : i ≠ j := fun h => hj h.symm
        by_cases h3 : i + 1 ≤ j ∧ j < i + 1 + n
        · have h4 : i ≤ j ∧ j < i + (n + 1) := by omega
          have hne2 : i ≠ j + 1 := by omega
          simp [h3, h4, List.getElem?_set_ne hne2]
        · have h4 : ¬ (i ≤ j ∧ j < i + (n + 1)) := by omega
          simp [h3, h4, List.getElem?_set_ne hne]

theorem shiftDownLoop_remove {T : Type} (buf : List T) (size index : Nat)
    (hsize : size ≤ buf.length) (hindex : index < size) :
    ∃ r, shiftDownLoop (size - 1 - index) index buf = some r ∧ r.length = buf.length ∧
      r.take (size - 1) = (buf.take size).eraseIdx index := by
  obtain ⟨r, e, l, g⟩ := shiftDownLoop_spec (size - 1 - index) index buf (by omega)
  refine ⟨r, e, l, ?_⟩
  apply List.ext_getElem?
  intro j
  rw [List.getElem?_take, List.getElem?_eraseIdx, g j, List.getElem?_take, List.getElem?_take]
  by_cases h1 : j < size - 1
  · by_cases h2 : j < index
    · have h3 : ¬ (index ≤ j ∧ j < index + (size - 1 - index)) := by omega
      have h4 : j < size := by omega
      simp [h1, h2, h3, h4]
    · have h3 : index ≤ j ∧ j < index + (size - 1 - index) := by omega
      have h4 : j + 1 < size := by omega
      simp [h1, h2, h3, h4]
  · by_cases h2 : j < index
    · omega
    · have h4 : ¬ (j + 1 < size) := by omega
      simp [h1, h2, h4]

theorem writeAt_append {T : Type} (buf : List T) (size : Nat) (v : T) (h : size < buf.length) :
    writeAt buf size v = some (buf.set size v) ∧ (buf.set size v).length = buf.length ∧
      (buf.set size v).take (size + 1) = buf.take size ++ [v] := by
  refine ⟨by simp [writeAt, h], by simp, ?_⟩
  apply List.ext_getElem?
  intro j
  rw [List.getElem?_take, List.getElem?_append, List.getElem?_set, List.getElem?_take]
  have hl : (List.take size buf).length = size := by simp; omega
  rw [hl]
  by_cases h1 : j < size
  · have h2 : j < size + 1 := by omega
    have h3 : size ≠ j := by omega
    simp [h1, h2, h3]
  · by_cases h2 : j = size
    · subst h2
      simp [h]
    · have h3 : ¬ j < size + 1 := by omega
      have h4 : j - size ≠ 0 := by omega
      have h5 : ([v] : List T)[j - size]? = none := by
        apply List.getElem?_eq_none
        simp
        omega
      simp [h1, h3, h5]

theorem realloc_copy {T : Type} [Inhabited T] (buf : List T) (size newCap : Nat)
    (hsize : size ≤ buf.length) :
    ∃ r, copyLoop buf (min size newCap) 0 (List.replicate newCap default) = some r ∧
      r.length = newCap ∧ r.take (min size newCap) = buf.take (min size newCap) := by
  obtain ⟨r, e, l, g⟩ := copyLoop_spec buf (min size newCap) 0 (List.replicate newCap default)
    (by omega) (by simp)
  refine ⟨r, e, by simpa using l, ?_⟩
  apply List.ext_getElem?
  intro j
  rw [List.getElem?_take, List.getElem?_take, g j]
  by_cases h1 : j < min size newCap
  · have h2 : 0 ≤ j ∧ j < 0 + min size newCap := by omega
    simp only [h1, h2, and_self, if_true]
  · simp only [h1, if_false]

theorem add_buf_grow {T : Type} [Inhabited T] (buf : List T) (size newCap : Nat) (v : T)
    (hsize : size ≤ buf.length) (hnew : size < newCap) :
    ∃ r, copyLoop buf (min size newCap) 0 (List.replicate newCap default) = some r ∧
      r.length = newCap ∧ writeAt r size v = some (r.set size v) ∧
      (r.set size v).take (size + 1) = buf.take size ++ [v] := by
  obtain ⟨r, e, l, t⟩ := realloc_copy buf size newCap hsize
  have hmin : min size newCap = size := by omega
  rw [hmin] at t
  obtain ⟨w1, _, w3⟩ := writeAt_append r size v (by omega)
  exact ⟨r, e, l, w1, by rw [w3, t]⟩

theorem u32_of_lt {n : Nat} (h : n < 2 ^ 32) : u32 n = n := Nat.mod_eq_of_lt h

theorem Array_Add_spec {T : Type} [Inhabited T] (a : Array T) (v : T)
    (hlen : a.Buf.length = a.Capacity) (hsz : a.Size ≤ a.Capacity) (hlt : a.Size + 1 < 2 ^ 32)
    (hgrow : a.Capacity ≤ a.Size → a.Size < a.CapacityIncrement) :
    ∃ a1, a.Add v = some a1 ∧ a1.Buf.length = a1.Capacity ∧ a1.Size ≤ a1.Capacity ∧
      a1.Size = a.Size + 1 ∧ a1.Buf.take a1.Size = a.Buf.take a.Size ++ [v] ∧
      (a1.Capacity = a.Capacity ∨ a1.Capacity = a.CapacityIncrement) := by
  by_cases hg : a.Capacity ≤ a.Size
  · obtain ⟨r, e, l, w, t⟩ := add_buf_grow a.Buf a.Size a.CapacityIncrement v (by omega) (hgrow hg)
    refine ⟨{ a with Buf := r.set a.Size v, Capacity := a.CapacityIncrement,
                     Size := a.Size + 1 }, ?_, ?_, ?_, rfl, t, Or.inr rfl⟩
    · simp [Array.Add, hg, Array.Reallocate, e, w, u32_of_lt hlt]
    · simp [l]
    · have := hgrow hg
      show a.Size + 1 ≤ a.CapacityIncrement
      omega
  · obtain ⟨w1, w2, w3⟩ := writeAt_append a.Buf a.Size v (by omega)
    refine ⟨{ a with Buf := a.Buf.set a.Size v, Size := a.Size + 1 }, ?_, ?_, ?_, rfl, w3,
      Or.inl rfl⟩
    · simp [Array.Add, hg, w1, u32_of_lt hlt]
    · simp [hlen]
    · show a.Size + 1 ≤ a.Capacity
      omega

theorem PrimitiveSmallSet_Add_spec {T : Type} [Inhabited T] (a : PrimitiveSmallSet T) (v : T)
    (hlen : a.Buf.length = a.Capacity) (hsz : a.Size ≤ a.Capacity) (hlt : a.Size + 1 < 2 ^ 32)
    (hgrow : a.Capacity ≤ a.Size → a.Size < a.CapacityIncrement) :
    ∃ a1, a.Add v = some a1 ∧ a1.Buf.length = a1.Capacity ∧ a1.Size ≤ a1.Capacity ∧
      a1.Size = a.Size + 1 ∧ a1.Buf.take a1.Size = a.Buf.take a.Size ++ [v] ∧
      (a1.Capacity = a.Capacity ∨ a1.Capacity = a.CapacityIncrement) := by
  by_cases hg : a.Capacity ≤ a.Size
  · obtain ⟨r, e, l, w, t⟩ := add_buf_grow a.Buf a.Size a.CapacityIncrement v (by omega) (hgrow hg)
    have hpos : a.CapacityIncrement > 0 := by have := hgrow hg; omega
    refine ⟨{ toCompactSet := { Buf := r.set a.Size v, Capacity := a.CapacityIncrement,
                                Size := a.Size + 1 } }, ?_, ?_, ?_, rfl, t, Or.inr rfl⟩
    · simp [PrimitiveSmallSet.Add, hg, CompactSet.Reallocate, CompactSet.RawReallocate, hpos, e, w,
        u32_of_lt hlt]
    · simp [l]
    · have := hgrow hg
      show a.Size + 1 ≤ a.CapacityIncrement
      omega
  · obtain ⟨w1, w2, w3⟩ := writeAt_append a.Buf a.Size v (by omega)
    refine ⟨{ toCompactSet := { Buf := a.Buf.set a.Size v, Capacity := a.Capacity,
                                Size := a.Size + 1 } }, ?_, ?_, ?_, rfl, w3, Or.inl rfl⟩
    · simp [PrimitiveSmallSet.Add, hg, w1, u32_of_lt hlt]
    · simp [hlen]
    · show a.Size + 1 ≤ a.Capacity
      omega

theorem Set_Add_spec {T : Type} [Inhabited T] (a : Set T) (v : T)
    (hlen : a.Buf.length = a.Capacity) (hsz : a.Size ≤ a.Capacity) (hlt : a.Size + 1 < 2 ^ 32)
    (hgrow : a.Capacity ≤ a.Size → a.Size < a.CapacityIncrement) :
    ∃ a1, a.Add v = some a1 ∧ a1.Buf.length = a1.Capacity ∧ a1.Size ≤ a1.Capacity ∧
      a1.Size = a.Size + 1 ∧ a1.Buf.take a1.Size = a.Buf.take a.Size ++ [v] ∧
      a1.CapacityIncrementSize = a.CapacityIncrementSize ∧
      (a1.Capacity = a.Capacity ∨ a1.Capacity = a.CapacityIncrement) := by
  by_cases hg : a.Capacity ≤ a.Size
  · obtain ⟨r, e, l, w, t⟩ := add_buf_grow a.Buf a.Size a.CapacityIncrement v (by omega) (hgrow hg)
    have hpos : a.CapacityIncrement > 0 := by have := hgrow hg; omega
    refine ⟨{ toCompactSet := { Buf := r.set a.Size v, Capacity := a.CapacityIncrement,
                                Size := a.Size + 1 },
              CapacityIncrementSize := a.CapacityIncrementSize }, ?_, ?_, ?_, rfl, t, rfl,
      Or.inr rfl⟩
    · simp [Set.Add, hg, Set.Grow, CompactSet.Reallocate, CompactSet.RawReallocate, hpos, e, w,
        u32_of_lt hlt]
    · simp [l]
    · have := hgrow hg
      show a.Size + 1 ≤ a.CapacityIncrement
      omega
  · obtain ⟨w1, w2, w3⟩ := writeAt_append a.Buf a.Size v (by omega)
    refine ⟨{ toCompactSet := { Buf := a.Buf.set a.Size v, Capacity := a.Capacity,
                                Size := a.Size + 1 },
              CapacityIncrementSize := a.CapacityIncrementSize }, ?_, ?_, ?_, rfl, w3, rfl,
      Or.inl rfl⟩
    · simp [Set.Add, hg, w1, u32_of_lt hlt]
    · simp [hlen]
    · show a.Size + 1 ≤ a.Capacity
      omega

theorem doubling_grows {size cap : Nat} (hle : cap ≤ size) (hsz : size ≤ cap)
    (hlt : size < 2 ^ 31) : size < (if cap > 0 then u32 (2 * cap) else 1) := by
  by_cases h : cap > 0
  · have h2 : 2 * cap < 2 ^ 32 := by omega
    simp only [h, if_true, u32_of_lt h2]
    omega
  · simp only [h, if_false]
    omega

theorem Array_AddAll_spec {T : Type} [Inhabited T] (vs : List T) :
    ∀ a : Array T, a.Buf.length = a.Capacity → a.Size ≤ a.Capacity →
      a.Size + vs.length ≤ 2 ^ 31 →
      ∃ a1, Array.AddAll a vs = some a1 ∧ a1.Buf.length = a1.Capacity ∧
        a1.Size ≤ a1.Capacity ∧ a1.Size = a.Size + vs.length ∧
        a1.Buf.take a1.Size = a.Buf.take a.Size ++ vs := by
  induction vs with
  | nil =>
    intro a hlen hsz _
    exact ⟨a, rfl, hlen, hsz, rfl, by simp⟩
  | cons v rest ih =>
    intro a hlen hsz hb
    simp only [List.length_cons] at hb
    obtain ⟨a1, e1, l1, z1, n1, t1, _⟩ := Array_Add_spec a v hlen hsz (by omega)
      (fun hle => doubling_grows hle hsz (by omega))
    obtain ⟨a2, e2, l2, z2, n2, t2⟩ := ih a1 l1 z1 (by omega)
    refine ⟨a2, by simp [Array.AddAll, e1, e2], l2, z2, ?_, ?_⟩
    · simp only [List.length_cons]
      omega
    · rw [t2, t1]
      simp

theorem PrimitiveSmallSet_AddAll_spec {T : Type} [Inhabited T] (vs : List T) :
    ∀ a : PrimitiveSmallSet T, a.Buf.length = a.Capacity → a.Size ≤ a.Capacity →
      a.Size + vs.length ≤ 2 ^ 31 →
      ∃ a1, PrimitiveSmallSet.AddAll a vs = some a1 ∧ a1.Buf.length = a1.Capacity ∧
        a1.Size ≤ a1.Capacity ∧ a1.Size = a.Size + vs.length ∧
        a1.Buf.take a1.Size = a.Buf.take a.Size ++ vs := by
  induction vs with
  | nil =>
    intro a hlen hsz _
    exact ⟨a, rfl, hlen, hsz, rfl, by simp⟩
  | cons v rest ih =>
    intro a hlen hsz hb
    simp only [List.length_cons] at hb
    obtain ⟨a1, e1, l1, z1, n1, t1, _⟩ := PrimitiveSmallSet_Add_spec a v hlen hsz (by omega)
      (fun hle => doubling_grows hle hsz (by omega))
    obtain ⟨a2, e2, l2, z2, n2, t2⟩ := ih a1 l1 z1 (by omega)
    refine ⟨a2, by simp [PrimitiveSmallSet.AddAll, e1, e2], l2, z2, ?_, ?_⟩
    · simp only [List.length_cons]
      omega
    · rw [t2, t1]
      simp

theorem ceil_bound (c k n : Nat) (hk : 0 < k) (hd : k ∣ c) (hc : c + 1 ≤ n) :
    c + k ≤ ((n + k - 1) / k) * k := by
  obtain ⟨q, rfl⟩ := hd
  have h1 : (q + 1) * k ≤ n + k - 1 := by
    have : (q + 1) * k = k * q + k := by ring
    omega
  have h2 : q + 1 ≤ (n + k - 1) / k := (Nat.le_div_iff_mul_le hk).mpr h1
  calc k * q + k = (q + 1) * k := by ring
    _ ≤ ((n + k - 1) / k) * k := Nat.mul_le_mul_right k h2

theorem Set_AddAll_spec {T : Type} [Inhabited T] (n : Nat) (hn : n ≤ 2 ^ 31) (vs : List T) :
    ∀ a : Set T, a.Buf.length = a.Capacity → a.Size ≤ a.Capacity →
      a.Size + vs.length ≤ n → incrementFits a.CapacityIncrementSize n →
      (a.CapacityIncrementSize ≠ 0 → a.CapacityIncrementSize % 2 ^ 32 ∣ a.Capacity) →
      ∃ a1, Set.AddAll a vs = some a1 ∧ a1.Buf.length = a1.Capacity ∧
        a1.Size ≤ a1.Capacity ∧ a1.Size = a.Size + vs.length ∧
        a1.Buf.take a1.Size = a.Buf.take a.Size ++ vs ∧
        a1.CapacityIncrementSize = a.CapacityIncrementSize := by
  induction vs with
  | nil =>
    intro a hlen hsz _ _ _
    exact ⟨a, rfl, hlen, hsz, rfl, by simp, rfl⟩
  | cons v rest ih =>
    intro a hlen hsz hb hfit hdiv
    simp only [List.length_cons] at hb
    have hgrow : a.Capacity ≤ a.Size → a.Size < a.CapacityIncrement := by
      intro hle
      by_cases hc : a.CapacityIncrementSize = 0
      · simp only [Set.CapacityIncrement, hc, ne_eq, not_true_eq_false, if_false]
        exact doubling_grows hle hsz (by omega)
      · rcases hfit with h0 | ⟨hk, hfit⟩
        · exact absurd h0 hc
        · have hkpos : 0 < a.CapacityIncrementSize % 2 ^ 32 := Nat.pos_of_ne_zero hk
          have hcb := ceil_bound a.Capacity (a.CapacityIncrementSize % 2 ^ 32) n hkpos (hdiv hc)
            (by omega)
          have hlt : a.Capacity + a.CapacityIncrementSize % 2 ^ 32 < 2 ^ 32 := by omega
          simp only [Set.CapacityIncrement, hc, ne_eq, not_false_eq_true, if_true, u32,
            Nat.mod_eq_of_lt hlt]
          omega
    obtain ⟨a1, e1, l1, z1, n1, t1, c1, g1⟩ := Set_Add_spec a v hlen hsz (by omega) hgrow
    have hdiv1 : a1.CapacityIncrementSize ≠ 0 → a1.CapacityIncrementSize % 2 ^ 32 ∣ a1.Capacity := by
      rw [c1]
      intro hc
      rcases g1 with g1 | g1
      · rw [g1]
        exact hdiv hc
      · rcases hfit with h0 | ⟨hk, hfit⟩
        · exact absurd h0 hc
        · have hkpos : 0 < a.CapacityIncrementSize % 2 ^ 32 := Nat.pos_of_ne_zero hk
          by_cases hle : a.Capacity ≤ a.Size
          · have hcb := ceil_bound a.Capacity (a.CapacityIncrementSize % 2 ^ 32) n hkpos
              (hdiv hc) (by omega)
            have hlt : a.Capacity + a.CapacityIncrementSize % 2 ^ 32 < 2 ^ 32 := by omega
            rw [g1]
            simp only [Set.CapacityIncrement, hc, ne_eq, not_false_eq_true, if_true, u32,
              Nat.mod_eq_of_lt hlt]
            exact Nat.dvd_add (hdiv hc) (Nat.dvd_refl _)
          · have hcap : a1.Capacity = a.Capacity := by
              have hs : a.Add v = some a1 := e1
              simp only [Set.Add, hle, if_false] at hs
              cases hw : writeAt a.Buf a.Size v with
              | none => simp [hw] at hs
              | some buf =>
                simp only [hw, Option.some.injEq] at hs
                rw [← hs]
            rw [hcap]
            exact hdiv hc
    obtain ⟨a2, e2, l2, z2, n2, t2, c2⟩ := ih a1 l1 z1 (by omega) (c1 ▸ hfit) hdiv1
    refine ⟨a2, by simp [Set.AddAll, e1, e2], l2, z2, ?_, ?_, c2.trans c1⟩
    · simp only [List.length_cons]
      omega
    · rw [t2, t1]
      simp

theorem Set_Grow_spec {T : Type} [Inhabited T] (s : Set T)
    (hsz : s.Size ≤ s.Buf.length) :
    ∃ s1, Set.Grow s = some s1 ∧ s1.Capacity = s.CapacityIncrement ∧
      s1.Buf.length = s1.Capacity ∧ s1.Size = s.Size ∧
      s1.CapacityIncrementSize = s.CapacityIncrementSize := by
  obtain ⟨r, e, l, _⟩ := realloc_copy s.Buf s.Size s.CapacityIncrement hsz
  refine ⟨{ toCompactSet := { Buf := r, Capacity := s.CapacityIncrement, Size := s.Size },
            CapacityIncrementSize := s.CapacityIncrementSize }, ?_, rfl, l, rfl, rfl⟩
  by_cases hpos : s.CapacityIncrement > 0
  · simp [Set.Grow, CompactSet.Reallocate, CompactSet.RawReallocate, hpos, e]
  · have h0 : s.CapacityIncrement = 0 := by omega
    rw [h0] at e
    have e1 : copyLoop s.Buf 0 0 ([] : List T) = some r := by simpa using e
    simp [Set.Grow, CompactSet.Reallocate, CompactSet.RawReallocate, h0, e1]

theorem Set_CapacityIncrement_eq_step {T : Type} (s : Set T) :
    s.CapacityIncrement = capacityStep s.CapacityIncrementSize s.Capacity := rfl

theorem Set_GrowTimes_spec {T : Type} [Inhabited T] (j : Nat) :
    ∀ s : Set T, s.Size = 0 →
      ∃ s1, Set.GrowTimes j s = some s1 ∧ s1.Size = 0 ∧
        s1.CapacityIncrementSize = s.CapacityIncrementSize ∧
        s1.Capacity = (capacityStep s.CapacityIncrementSize)^[j] s.Capacity := by
  induction j with
  | zero =>
    intro s hs
    exact ⟨s, rfl, hs, rfl, rfl⟩
  | succ j ih =>
    intro s hs
    obtain ⟨s1, e1, c1, _, z1, i1⟩ := Set_Grow_spec s (by omega)
    obtain ⟨s2, e2, z2, i2, c2⟩ := ih s1 (z1.trans hs)
    refine ⟨s2, by simp [Set.GrowTimes, e1, e2], z2, i2.trans i1, ?_⟩
    rw [c2, i1, c1, Set_CapacityIncrement_eq_step, Function.iterate_succ_apply]

theorem doubling_iterate (j : Nat) (hj : j < 32) :
    (capacityStep 0)^[j + 1] 0 = 2 ^ j := by
  induction j with
  | zero => decide
  | succ j ih =>
    rw [Function.iterate_succ_apply', ih (by omega)]
    have hpos : 2 ^ j > 0 := Nat.two_pow_pos j
    have hlt : 2 * 2 ^ j < 2 ^ 32 := by
      have : 2 ^ (j + 1) ≤ 2 ^ 31 := Nat.pow_le_pow_right (by decide) (by omega)
      rw [Nat.pow_succ] at this
      omega
    simp only [capacityStep, Set.CapacityIncrement, ne_eq, not_true_eq_false, if_false,
      hpos, if_true, u32_of_lt hlt]
    rw [Nat.pow_succ]
    omega

theorem CompactSet_Reallocate_spec {T : Type} [Inhabited T] (s : CompactSet T) (newCapacity : Nat)
    (hsz : s.Size ≤ s.Buf.length) :
    ∃ r, s.Reallocate newCapacity = some { Buf := r, Capacity := newCapacity, Size := s.Size } ∧
      r.length = newCapacity := by
  obtain ⟨r, e, l, _⟩ := realloc_copy s.Buf s.Size newCapacity hsz
  refine ⟨r, ?_, l⟩
  by_cases hpos : newCapacity > 0
  · simp [CompactSet.Reallocate, CompactSet.RawReallocate, hpos, e]
  · have h0 : newCapacity = 0 := by omega
    subst h0
    have e1 : copyLoop s.Buf 0 0 ([] : List T) = some r := by simpa using e
    simp [CompactSet.Reallocate, CompactSet.RawReallocate, e1]

theorem copyLoop_prefix {T : Type} (src dst : List T) (n : Nat) (hs : n ≤ src.length)
    (hd : n ≤ dst.length) :
    ∃ r, copyLoop src n 0 dst = some r ∧ r.length = dst.length ∧
      ∀ i, i < n → r[i]? = src[i]? := by
  obtain ⟨r, e, l, g⟩ := copyLoop_spec src n 0 dst (by omega) (by omega)
  refine ⟨r, e, l, fun i hi => ?_⟩
  have h : 0 ≤ i ∧ i < 0 + n := by omega
  rw [g i]
  simp only [h, and_self, if_true]

theorem copyElements_distinct {T : Type} (src : List T) (n : Nat) :
    ∀ (i : Nat) (dst : List T),
      copyElements n i (Operands.distinct dst src) =
        (copyLoop src n i dst).map (fun b => Operands.distinct b src) := by
  induction n with
  | zero =>
    intro i dst
    rfl
  | succ n ih =>
    intro i dst
    cases hs : src[i]? with
    | none => simp only [copyElements, copyLoop, Operands.src, hs, Option.map]
    | some v =>
      cases hw : writeAt dst i v with
      | none => simp only [copyElements, copyLoop, Operands.src, Operands.dst, hs, hw, Option.map]
      | some b =>
        simp only [copyElements, copyLoop, Operands.src, Operands.dst, hs, hw, Operands.setDst]
        exact ih (i + 1) b

theorem set_same {T : Type} (buf : List T) (i : Nat) (v : T) (h : buf[i]? = some v) :
    buf.set i v = buf := by
  apply List.ext_getElem?
  intro j
  by_cases hij : i = j
  · subst hij
    have hi : i < buf.length := by
      by_contra hc
      rw [List.getElem?_eq_none (by omega)] at h
      exact Option.noConfusion h
    rw [List.getElem?_set_self hi, h]
  · rw [List.getElem?_set_ne hij]

theorem copyElements_aliased {T : Type} (buf : List T) (n : Nat) :
    ∀ i, i + n ≤ buf.length →
      copyElements n i (Operands.aliased buf) = some (Operands.aliased buf) := by
  induction n with
  | zero =>
    intro i _
    rfl
  | succ n ih =>
    intro i h
    have hi : i < buf.length := by omega
    have hs : buf[i]? = some buf[i] := List.getElem?_eq_getElem hi
    simp only [copyElements, Operands.src, Operands.dst, hs, writeAt, hi, if_true,
      Operands.setDst, set_same buf i buf[i] hs]
    exact ih (i + 1) (by omega)

theorem CompactSet_Reallocate_take {T : Type} [Inhabited T] (s : CompactSet T)
    (newCapacity : Nat) (hsz : s.Size ≤ s.Buf.length) :
    ∃ r, s.Reallocate newCapacity = some { Buf := r, Capacity := newCapacity, Size := s.Size } ∧
      r.length = newCapacity ∧
      r.take (min s.Size newCapacity) = s.Buf.take (min s.Size newCapacity) := by
  obtain ⟨r, e, l, t⟩ := realloc_copy s.Buf s.Size newCapacity hsz
  refine ⟨r, ?_, l, t⟩
  by_cases hpos : newCapacity > 0
  · simp [CompactSet.Reallocate, CompactSet.RawReallocate, hpos, e]
  · have h0 : newCapacity = 0 := by omega
    subst h0
    have e1 : copyLoop s.Buf 0 0 ([] : List T) = some r := by simpa using e
    simp [CompactSet.Reallocate, CompactSet.RawReallocate, e1]

theorem CompactSet_assign_distinct {T : Type} [Inhabited T] (d s : CompactSet T)
    (hd : d.Size ≤ d.Buf.length) (hs : s.Size ≤ s.Buf.length) :
    ∃ r, CompactSet.assign (Operands.distinct d s) =
        some (Operands.distinct { Buf := r, Capacity := s.Size, Size := s.Size } s) ∧
      r.length = s.Size ∧ ∀ i, i < s.Size → r[i]? = s.Buf[i]? := by
  obtain ⟨r, e, l⟩ := CompactSet_Reallocate_spec d s.Size hd
  obtain ⟨r2, e2, l2, g2⟩ := copyLoop_prefix s.Buf r s.Size hs (by omega)
  refine ⟨r2, ?_, by omega, g2⟩
  simp [CompactSet.assign, Operands.dst, Operands.src, Operands.setDst, Operands.map,
    copyElements_distinct, e, e2]

theorem CompactSet_assign_self {T : Type} [Inhabited T] (s : CompactSet T)
    (hs : s.Size ≤ s.Buf.length) :
    CompactSet.assign (Operands.aliased s) =
      some (Operands.aliased { Buf := s.Buf.take s.Size, Capacity := s.Size, Size := s.Size }) := by
  obtain ⟨r, e, l, t⟩ := CompactSet_Reallocate_take s s.Size hs
  have hr : r = s.Buf.take s.Size := by
    rw [Nat.min_self] at t
    rw [← t, ← l, List.take_length]
  subst hr
  have hc := copyElements_aliased (s.Buf.take s.Size) s.Size 0 (by omega)
  simp [CompactSet.assign, Operands.dst, Operands.src, Operands.setDst, Operands.map, e, hc]

theorem Array_CopyFrom_distinct {T : Type} [Inhabited T] (d a : Array T)
    (ha : a.Size ≤ a.Buf.length) (hpos : a.Size > 0) :
    ∃ r, Array.CopyFrom (Operands.distinct d a) =
        some (Operands.distinct { Buf := r, Capacity := a.Size, Unknown := a.Unknown,
                                  Size := a.Size, Unknown2 := a.Unknown2 } a) ∧
      r.length = a.Size ∧ ∀ i, i < a.Size → r[i]? = a.Buf[i]? := by
  obtain ⟨r, e, l, _⟩ := realloc_copy d.Buf 0 a.Size (Nat.zero_le _)
  have e0 : copyLoop d.Buf 0 0 (List.replicate a.Size (default : T)) = some r := by
    simpa using e
  obtain ⟨r2, e2, l2, g2⟩ := copyLoop_prefix a.Buf r a.Size ha (by omega)
  refine ⟨r2, ?_, by omega, g2⟩
  simp [Array.CopyFrom, Operands.dst, Operands.src, Operands.setDst, Operands.map, hpos,
    Array.Clear, Array.Reallocate, copyElements_distinct, e0, e2]

theorem Array_CopyFrom_empty {T : Type} [Inhabited T] (d a : Array T) (h0 : a.Size = 0) :
    Array.CopyFrom (Operands.distinct d a) =
      some (Operands.distinct { d with Unknown := a.Unknown, Unknown2 := a.Unknown2, Size := 0 }
        a) := by
  simp [Array.CopyFrom, Operands.dst, Operands.src, Operands.setDst, h0, Array.Clear]

theorem Array_CopyFrom_self {T : Type} [Inhabited T] (a : Array T) :
    Array.CopyFrom (Operands.aliased a) = some (Operands.aliased a.Clear) := by
  simp [Array.CopyFrom, Operands.dst, Operands.src, Operands.setDst, Array.Clear]

theorem mask_eq (index : Nat) : ∃ k, k ≤ 31 ∧ BitArray.mask index = 2 ^ k := by
  refine ⟨(index - 1) &&& 0x1f, Nat.and_le_right, ?_⟩
  have hk : (index - 1) &&& 0x1f ≤ 31 := Nat.and_le_right
  have hlt : 2 ^ ((index - 1) &&& 0x1f) < 2 ^ 32 :=
    Nat.pow_lt_pow_right (by decide) (by omega)
  rw [BitArray.mask, Nat.one_shiftLeft, u32_of_lt hlt]

theorem lor_land_mask (x m : Nat) : (x ||| m) &&& m = m := by
  apply Nat.eq_of_testBit_eq
  intro i
  rw [Nat.testBit_and, Nat.testBit_or]
  cases x.testBit i <;> cases m.testBit i <;> rfl

theorem word_index_lt {w i : Nat} (h1 : 1 ≤ i) (h2 : i ≤ 32 * w) : (i - 1) >>> 5 < w := by
  rw [Nat.shiftRight_eq_div_pow]
  have : (i - 1) / 2 ^ 5 < w := by
    apply (Nat.div_lt_iff_lt_mul (by decide)).mpr
    omega
  exact this

theorem outOfRange_of_invalid {w index : Nat} (h : index = 0 ∨ index > 32 * w) :
    BitArray.outOfRange w index = true := by
  have hle : u32 (w * 32) ≤ w * 32 := Nat.mod_le _ _
  rcases h with h | h
  · simp [BitArray.outOfRange, h]
  · have h2 : index > u32 (w * 32) := by omega
    simp [BitArray.outOfRange, h2]

theorem word_index_of_inRange {w index : Nat} (h : BitArray.outOfRange w index = false) :
    (index - 1) >>> 5 < w := by
  have hle : u32 (w * 32) ≤ w * 32 := Nat.mod_le _ _
  simp only [BitArray.outOfRange, Bool.or_eq_false_iff, decide_eq_false_iff_not] at h
  exact word_index_lt (by omega) (by omega)

theorem land_notMask_land_mask (x index : Nat) :
    (x &&& BitArray.notMask index) &&& BitArray.mask index = 0 := by
  obtain ⟨k, hk, hm⟩ := mask_eq index
  have hlt : 2 ^ k < 2 ^ 32 := Nat.pow_lt_pow_right (by decide) (by omega)
  have hn : BitArray.notMask index = 2 ^ 32 - (2 ^ k + 1) := by
    rw [BitArray.notMask, hm]
    omega
  apply Nat.eq_of_testBit_eq
  intro i
  rw [Nat.testBit_and, Nat.testBit_and, hn, Nat.testBit_two_pow_sub_succ hlt, hm,
    Nat.zero_testBit]
  cases x.testBit i <;> cases (2 ^ k).testBit i <;> simp

theorem mask_eq_pow (index : Nat) : BitArray.mask index = 2 ^ ((index - 1) &&& 0x1f) := by
  have hk : (index - 1) &&& 0x1f ≤ 31 := Nat.and_le_right
  have hlt : 2 ^ ((index - 1) &&& 0x1f) < 2 ^ 32 :=
    Nat.pow_lt_pow_right (by decide) (by omega)
  rw [BitArray.mask, Nat.one_shiftLeft, u32_of_lt hlt]

theorem testBit_lor_mask (x index p : Nat) (hp : p ≠ (index - 1) &&& 0x1f) :
    (x ||| BitArray.mask index).testBit p = x.testBit p := by
  have h : ¬ ((index - 1) &&& 0x1f = p) := fun e => hp e.symm
  rw [mask_eq_pow, Nat.testBit_or, Nat.testBit_two_pow]
  simp [h]

theorem testBit_land_notMask (x index p : Nat) (h32 : p < 32)
    (hp : p ≠ (index - 1) &&& 0x1f) :
    (x &&& BitArray.notMask index).testBit p = x.testBit p := by
  have hk : (index - 1) &&& 0x1f ≤ 31 := Nat.and_le_right
  have hlt : 2 ^ ((index - 1) &&& 0x1f) < 2 ^ 32 :=
    Nat.pow_lt_pow_right (by decide) (by omega)
  have hn : BitArray.notMask index = 2 ^ 32 - (2 ^ ((index - 1) &&& 0x1f) + 1) := by
    rw [BitArray.notMask, mask_eq_pow]
    omega
  have h : ¬ ((index - 1) &&& 0x1f = p) := fun e => hp e.symm
  rw [Nat.testBit_and, hn, Nat.testBit_two_pow_sub_succ hlt, Nat.testBit_two_pow]
  simp [h, h32]

theorem land_mask_eq (x index : Nat) :
    x &&& BitArray.mask index =
      if x.testBit ((index - 1) &&& 0x1f) then 2 ^ ((index - 1) &&& 0x1f) else 0 := by
  rw [mask_eq_pow]
  apply Nat.eq_of_testBit_eq
  intro p
  rw [Nat.testBit_and, Nat.testBit_two_pow]
  by_cases hp : (index - 1) &&& 0x1f = p
  · subst hp
    cases hx : x.testBit ((index - 1) &&& 0x1f) <;> simp [Nat.testBit_two_pow]
  · cases hx : x.testBit ((index - 1) &&& 0x1f) <;> simp [hp, Nat.testBit_two_pow]

theorem isSet_bit (x index : Nat) :
    decide (x &&& BitArray.mask index ≠ 0) = x.testBit ((index - 1) &&& 0x1f) := by
  rw [land_mask_eq]
  cases hx : x.testBit ((index - 1) &&& 0x1f)
  · simp
  · have : 2 ^ ((index - 1) &&& 0x1f) ≠ 0 := Nat.pos_iff_ne_zero.mp (Nat.two_pow_pos _)
    simp [this]

theorem bit_position_ne {i j : Nat} (hi : i ≠ 0) (hj : j ≠ 0) (hij : j ≠ i)
    (hw : (j - 1) >>> 5 = (i - 1) >>> 5) : (j - 1) &&& 0x1f ≠ (i - 1) &&& 0x1f := by
  intro hb
  have e : ∀ x : Nat, x &&& 0x1f = x % 32 := fun x => Nat.and_pow_two_sub_one_eq_mod x 5
  rw [e, e] at hb
  rw [Nat.shiftRight_eq_div_pow, Nat.shiftRight_eq_div_pow] at hw
  have hw2 : (j - 1) / 32 = (i - 1) / 32 := hw
  omega

theorem lor_mask_lt (x index : Nat) (hx : x < 2 ^ 32) : x ||| BitArray.mask index < 2 ^ 32 := by
  obtain ⟨k, hk, hm⟩ := mask_eq index
  rw [hm]
  exact Nat.or_lt_two_pow hx (Nat.pow_lt_pow_right (by decide) (by omega))

theorem land_notMask_lt (x index : Nat) : x &&& BitArray.notMask index < 2 ^ 32 := by
  have h1 : x &&& BitArray.notMask index ≤ BitArray.notMask index := Nat.and_le_right
  have h2 : BitArray.notMask index < 2 ^ 32 := by
    unfold BitArray.notMask
    omega
  omega

/-! ## Lemmas on `MultiHashMap` -/

theorem slotChain_length {K V : Type} (m : MultiHashMap K V) (fuel : Nat) :
    ∀ (start : Int) (slots : List Nat),
      MultiHashMap.slotChain m fuel start = some slots → slots.length ≤ fuel := by
  induction fuel with
  | zero =>
    intro start slots h
    by_cases h1 : start = -1
    · simp [MultiHashMap.slotChain, h1] at h
      simp [h]
    · simp [MultiHashMap.slotChain, h1] at h
  | succ fuel ih =>
    intro start slots h
    by_cases h1 : start = -1
    · simp [MultiHashMap.slotChain, h1] at h
      simp [h]
    · by_cases h2 : 0 ≤ start
      · simp only [MultiHashMap.slotChain, h1, if_false, h2, if_true] at h
        cases hn : m.NextIds.get start.toNat with
        | none => simp [hn] at h
        | some next =>
          cases hr : MultiHashMap.slotChain m fuel next with
          | none => simp [hn, hr] at h
          | some rest =>
            simp only [hn, hr, Option.some.injEq] at h
            have := ih next rest hr
            rw [← h]
            simp
            omega
      · simp [MultiHashMap.slotChain, h1, h2] at h

theorem findIndexLoop_of_chain {K V : Type} [DecidableEq K] (m : MultiHashMap K V) (key : K)
    (chainFuel : Nat) :
    ∀ (start : Int) (slots : List Nat),
      MultiHashMap.slotChain m chainFuel start = some slots →
      (∀ s ∈ slots, ∃ k, m.Keys.get s = some k) →
      ∀ fuel, slots.length ≤ fuel →
        MultiHashMap.findIndexLoop m key fuel start =
          some (match MultiHashMap.firstSlotWithKey m key slots with
                | some s => (s : Int)
                | none => -1) := by
  induction chainFuel with
  | zero =>
    intro start slots h _ fuel _
    by_cases h1 : start = -1
    · simp [MultiHashMap.slotChain, h1] at h
      subst h1
      subst h
      cases fuel <;> simp [MultiHashMap.findIndexLoop, MultiHashMap.firstSlotWithKey]
    · simp [MultiHashMap.slotChain, h1] at h
  | succ chainFuel ih =>
    intro start slots h hkeys fuel hfuel
    by_cases h1 : start = -1
    · simp [MultiHashMap.slotChain, h1] at h
      subst h1
      subst h
      cases fuel <;> simp [MultiHashMap.findIndexLoop, MultiHashMap.firstSlotWithKey]
    · by_cases h2 : 0 ≤ start
      · simp only [MultiHashMap.slotChain, h1, if_false, h2, if_true] at h
        cases hn : m.NextIds.get start.toNat with
        | none => simp [hn] at h
        | some next =>
          cases hr : MultiHashMap.slotChain m chainFuel next with
          | none => simp [hn, hr] at h
          | some rest =>
            simp only [hn, hr, Option.some.injEq] at h
            subst h
            obtain ⟨k, hk⟩ := hkeys start.toNat (by simp)
            cases fuel with
            | zero => simp at hfuel
            | succ fuel =>
              have hge : start ≥ 0 := h2
              by_cases hkey : k = key
              · simp [MultiHashMap.findIndexLoop, hge, hk, hkey, MultiHashMap.firstSlotWithKey,
                  Int.toNat_of_nonneg h2]
              · have hne : ¬ (some k = some key) := fun h => hkey (Option.some.inj h)
                have ih1 := ih next rest hr (fun s hs => hkeys s (by simp [hs])) fuel
                  (by simp at hfuel; omega)
                simp only [MultiHashMap.findIndexLoop, hge, if_true, hk, hkey, if_false, hn, ih1]
                simp [MultiHashMap.firstSlotWithKey, List.find?, hk, hne]
      · simp [MultiHashMap.slotChain, h1, h2] at h

theorem bucket_chain_of_invariant {K V : Type} (hash : K → Nat) (m : MultiHashMap K V)
    (hinv : MultiHashMap.LayoutInvariant hash m) (b : Nat) (hb : b < m.NumHashKeys.toNat) :
    ∃ start slots, m.HashKeys[b]? = some start ∧
      MultiHashMap.slotChain m m.Keys.Size start = some slots ∧
      (∀ s ∈ slots, s < m.Keys.Size ∧ MultiHashMap.keyHashesTo hash m s b = true) ∧
      (∀ s, s < m.Keys.Size → MultiHashMap.keyHashesTo hash m s b = true → s ∈ slots) := by
  obtain ⟨_, _, _, _, _, _, _, _, _, hcover⟩ := hinv
  have hc := hcover b hb
  unfold MultiHashMap.chainCovers at hc
  cases hs : m.HashKeys[b]? with
  | none => simp [hs] at hc
  | some start =>
    cases hch : MultiHashMap.slotChain m m.Keys.Size start with
    | none => simp [hs, hch] at hc
    | some slots =>
      simp only [hs, hch, Bool.and_eq_true, List.all_eq_true, decide_eq_true_eq,
        Bool.or_eq_true, Bool.not_eq_true', List.mem_range] at hc
      refine ⟨start, slots, rfl, hch, hc.1, fun s hs1 hk => ?_⟩
      rcases hc.2 s hs1 with h | h
      · rw [hk] at h
        exact absurd h (by decide)
      · exact h

/-! ## Lemmas on scans and iterators -/

theorem visitChain_eq_map {K V : Type} (chain : List (Node K V)) :
    visitChain chain = chain.map (fun e => (e.Key, e.Value)) := by
  induction chain with
  | nil => rfl
  | cons e es ih => simp [visitChain, ih]

theorem drop_take_succ {α : Type} (table : List α) (i n : Nat) (hi : i < table.length) :
    (table.drop i).take (n + 1) = table[i] :: (table.drop (i + 1)).take n := by
  rw [List.drop_eq_getElem_cons hi, List.take_succ_cons]

theorem iterateLoop_spec {K V : Type} (n : Nat) :
    ∀ (i : Nat) (table : List (List (Node K V))), i + n ≤ table.length →
      iterateLoop n i table =
        some (((table.drop i).take n).flatten.map (fun e => (e.Key, e.Value))) := by
  induction n with
  | zero =>
    intro i table _
    simp [iterateLoop]
  | succ n ih =>
    intro i table h
    have hi : i < table.length := by omega
    rw [drop_take_succ table i n hi]
    simp [iterateLoop, List.getElem?_eq_getElem hi, ih (i + 1) table (by omega),
      visitChain_eq_map]

theorem iterateLoop_all {K V : Type} (table : List (List (Node K V))) :
    iterateLoop table.length 0 table
      = some ((entries table).map (fun e => (e.Key, e.Value))) := by
  rw [iterateLoop_spec table.length 0 table (by omega)]
  simp [entries]

theorem findValueChain_eq_find {K V : Type} [DecidableEq V] (value : V)
    (chain : List (Node K V)) :
    findValueChain value chain
      = (chain.find? (fun e => decide (value = e.Value))).map (fun e => e.Key) := by
  induction chain with
  | nil => rfl
  | cons e es ih =>
    by_cases h : value = e.Value
    · simp [findValueChain, h]
    · simp [findValueChain, h, ih, List.find?]

theorem findByValueLoop_spec {K V : Type} [DecidableEq V] (value : V) (n : Nat) :
    ∀ (i : Nat) (table : List (List (Node K V))), i + n ≤ table.length →
      findByValueLoop value n i table =
        some ((((table.drop i).take n).flatten.find? (fun e => decide (value = e.Value))).map
          (fun e => e.Key)) := by
  induction n with
  | zero =>
    intro i table _
    simp [findByValueLoop]
  | succ n ih =>
    intro i table h
    have hi : i < table.length := by omega
    rw [drop_take_succ table i n hi]
    simp only [findByValueLoop, List.getElem?_eq_getElem hi, findValueChain_eq_find,
      List.flatten_cons, List.find?_append]
    cases hf : table[i].find? (fun e => decide (value = e.Value)) with
    | none =>
      simp only [Option.map_none', Option.none_or]
      exact ih (i + 1) table (by omega)
    | some e => simp

theorem findByValueLoop_all {K V : Type} [DecidableEq V] (value : V)
    (table : List (List (Node K V))) :
    findByValueLoop value table.length 0 table =
      some (((entries table).find? (fun e => decide (value = e.Value))).map (fun e => e.Key)) := by
  rw [findByValueLoop_spec value table.length 0 table (by omega)]
  simp [entries]

theorem skipNullLoop_spec {K V : Type} (table : List (List (Node K V))) (k : Nat) :
    ∀ node, node + k = table.length →
      ∃ node1, Iterator.skipNullLoop table k node = some node1 ∧ node ≤ node1 ∧
        node1 ≤ table.length ∧ (table.drop node).flatten = (table.drop node1).flatten ∧
        (node1 < table.length → ∃ e es, table[node1]? = some (e :: es)) := by
  induction k with
  | zero =>
    intro node h
    exact ⟨node, rfl, Nat.le_refl _, by omega, rfl, fun hlt => by omega⟩
  | succ k ih =>
    intro node h
    have hlt : node < table.length := by omega
    cases hc : table[node] with
    | nil =>
      obtain ⟨node1, e1, l1, l2, f1, g1⟩ := ih (node + 1) (by omega)
      refine ⟨node1, ?_, by omega, l2, ?_, g1⟩
      · simp [Iterator.skipNullLoop, List.getElem?_eq_getElem hlt, hc, e1]
      · rw [List.drop_eq_getElem_cons hlt, hc, ← f1]
        simp
    | cons e es =>
      refine ⟨node, ?_, Nat.le_refl _, by omega, rfl, fun _ => ⟨e, es, ?_⟩⟩
      · simp [Iterator.skipNullLoop, List.getElem?_eq_getElem hlt, hc]
      · simp [List.getElem?_eq_getElem hlt, hc]

theorem traverse_end {K V : Type} (table : List (List (Node K V))) (n fuel : Nat) :
    Iterator.traverse table n fuel (Iterator.end_ n) = some [] := by
  cases fuel <;> simp [Iterator.traverse, Iterator.eq]

theorem skip_then_load {K V : Type} (table : List (List (Node K V))) (node : Nat)
    (hnode : node ≤ table.length) :
    (∃ node1 e es, node1 < table.length ∧
        Iterator.skipNullLoop table (table.length - node) node = some node1 ∧
        Iterator.loadElement table ⟨node1, table.length, []⟩
          = some ⟨node1, table.length, e :: es⟩ ∧
        (table.drop node).flatten = (e :: es) ++ (table.drop (node1 + 1)).flatten) ∨
    (Iterator.skipNullLoop table (table.length - node) node = some table.length ∧
        Iterator.loadElement table ⟨table.length, table.length, []⟩
          = some (Iterator.end_ table.length) ∧
        (table.drop node).flatten = []) := by
  obtain ⟨node1, e1, _, l2, f1, g1⟩ := skipNullLoop_spec table (table.length - node) node
    (by omega)
  by_cases hlt : node1 < table.length
  · obtain ⟨e, es, he⟩ := g1 hlt
    refine Or.inl ⟨node1, e, es, hlt, e1, ?_, ?_⟩
    · simp [Iterator.loadElement, hlt, he]
    · rw [f1, List.drop_eq_getElem_cons hlt]
      have : table[node1] = e :: es := by
        rw [List.getElem?_eq_getElem hlt] at he
        exact Option.some.inj he
      simp [this]
  · have heq : node1 = table.length := by omega
    subst heq
    refine Or.inr ⟨e1, ?_, ?_⟩
    · simp [Iterator.loadElement, Iterator.end_]
    · rw [f1]
      simp

theorem traverse_spec {K V : Type} (table : List (List (Node K V))) (fuel : Nat) :
    ∀ (node : Nat) (e : Node K V) (es : List (Node K V)), node < table.length →
      (e :: es).length + (table.drop (node + 1)).flatten.length ≤ fuel →
      Iterator.traverse table table.length fuel ⟨node, table.length, e :: es⟩ =
        some (((e :: es) ++ (table.drop (node + 1)).flatten).map
          (fun x => (x.Key, x.Value))) := by
  induction fuel with
  | zero =>
    intro node e es _ h
    simp at h
  | succ fuel ih =>
    intro node e es hnode hfuel
    have hne : Iterator.eq (⟨node, table.length, e :: es⟩ : Iterator K V)
        (Iterator.end_ table.length) = false := by
      have : node ≠ table.length := by omega
      simp [Iterator.eq, Iterator.end_, this]
    cases es with
    | cons e1 es1 =>
      have hn : Iterator.next table ⟨node, table.length, e :: e1 :: es1⟩
          = some ⟨node, table.length, e1 :: es1⟩ := by
        simp [Iterator.next]
      have ih1 := ih node e1 es1 hnode (by simp at hfuel ⊢; omega)
      simp only [Iterator.traverse, hne, hn, ih1]
      simp
    | nil =>
      rcases skip_then_load table (node + 1) (by omega) with
        ⟨node1, e1, es1, hlt1, hs, hl, hf⟩ | ⟨hs, hl, hf⟩
      · have hn : Iterator.next table ⟨node, table.length, [e]⟩
            = some ⟨node1, table.length, e1 :: es1⟩ := by
          simp [Iterator.next, hs, hl]
        have ih1 := ih node1 e1 es1 hlt1 (by
          rw [hf] at hfuel
          simp at hfuel ⊢
          omega)
        simp only [Iterator.traverse, hne, hn, ih1, hf]
        simp
      · have hn : Iterator.next table ⟨node, table.length, [e]⟩
            = some (Iterator.end_ table.length) := by
          simp [Iterator.next, hs, hl]
        simp only [Iterator.traverse, hne, hn, traverse_end, hf]
        simp

theorem begin_traverse {K V : Type} (table : List (List (Node K V))) :
    ∃ it0, Iterator.begin table table.length = some it0 ∧
      (∀ fuel, (entries table).length ≤ fuel →
        Iterator.traverse table table.length fuel it0
          = some ((entries table).map (fun x => (x.Key, x.Value)))) ∧
      (entries table = [] → it0 = Iterator.end_ table.length) := by
  rcases skip_then_load table 0 (by omega) with
    ⟨node1, e1, es1, hlt1, hs, hl, hf⟩ | ⟨hs, hl, hf⟩
  · simp only [Nat.sub_zero, List.drop_zero] at hs hf
    refine ⟨⟨node1, table.length, e1 :: es1⟩, ?_, fun fuel hfuel => ?_, fun hempty => ?_⟩
    · simp [Iterator.begin, hs, hl]
    · rw [traverse_spec table fuel node1 e1 es1 hlt1 (by
        simp only [entries, hf] at hfuel
        simp at hfuel ⊢
        omega)]
      simp [entries, hf]
    · simp [entries, hf] at hempty
  · simp only [Nat.sub_zero, List.drop_zero] at hs hf
    refine ⟨Iterator.end_ table.length, ?_, fun fuel _ => ?_, fun _ => rfl⟩
    · simp [Iterator.begin, hs, hl]
    · rw [traverse_end]
      simp [entries, hf]

/-! ## Lemmas on the invariant of the chained maps -/

theorem insertChain_keys {K V : Type} [DecidableEq K] [Inhabited V] (key : K)
    (chain : List (Node K V)) :
    (insertChain key chain).1.map (fun e => e.Key) =
        (if key ∈ chain.map (fun e => e.Key) then chain.map (fun e => e.Key)
         else chain.map (fun e => e.Key) ++ [key]) ∧
    ((insertChain key chain).2.2 = true ↔ key ∉ chain.map (fun e => e.Key)) := by
  induction chain with
  | nil => simp [insertChain]
  | cons item next ih =>
    by_cases h1 : key = item.Key
    · simp [insertChain, h1]
    · have h2 : ¬ item.Key = key := fun h => h1 h.symm
      obtain ⟨ih1, ih2⟩ := ih
      constructor
      · simp only [insertChain, h1, if_false, List.map_cons, ih1, List.mem_cons, false_or]
        by_cases h3 : key ∈ next.map (fun e => e.Key)
        · simp [h3]
        · simp [h3]
      · simp only [insertChain, h1, if_false, ih2, List.map_cons, List.mem_cons, false_or]

theorem writeValue_keys {K V : Type} (chain : List (Node K V)) (pos : Nat) (v : V) :
    (writeValue chain pos v).map (fun e => e.Key) = chain.map (fun e => e.Key) := by
  induction chain generalizing pos with
  | nil => simp [writeValue]
  | cons item next ih =>
    cases pos with
    | zero => simp [writeValue]
    | succ pos => simp [writeValue, ih]

theorem TableInv_replicate {K V : Type} (hash : K → Nat) (n : Nat) :
    TableInv hash n (List.replicate n ([] : List (Node K V))) [] := by
  refine ⟨by simp, fun b hb => ⟨[], ?_, by simp⟩⟩
  simp [List.getElem?_replicate, hb]

theorem TableInv_writeSlot {K V : Type} (hash : K → Nat) (n : Nat)
    (table : List (List (Node K V))) (keys : List K) (bucket pos : Nat) (v : V)
    (h : TableInv hash n table keys) :
    TableInv hash n (writeSlot table bucket pos v) keys := by
  obtain ⟨hlen, hb⟩ := h
  unfold writeSlot
  cases hc : table[bucket]? with
  | none => exact ⟨hlen, hb⟩
  | some chain =>
    refine ⟨by simp [hlen], fun b hlt => ?_⟩
    obtain ⟨c, hc1, hc2⟩ := hb b hlt
    by_cases hbb : bucket = b
    · subst hbb
      have hlt2 : bucket < table.length := by omega
      rw [hc] at hc1
      refine ⟨writeValue chain pos v, ?_, ?_⟩
      · simp [List.getElem?_set_self hlt2]
      · rw [writeValue_keys, Option.some.inj hc1, hc2]
    · refine ⟨c, ?_, hc2⟩
      simp only
      rw [List.getElem?_set_ne hbb, hc1]

theorem TableInv_insertKey {K V : Type} [DecidableEq K] [Inhabited V] (hash : K → Nat)
    (n : Nat) (hn : 0 < n) (table : List (List (Node K V))) (keys : List K) (key : K)
    (h : TableInv hash n table keys) :
    ∃ t1 fresh pos, insertKeyTable hash n table key = some (t1, fresh, hash key % n, pos) ∧
      TableInv hash n t1 (if key ∈ keys then keys else keys ++ [key]) ∧
      (fresh = true ↔ key ∉ keys) := by
  obtain ⟨hlen, hb⟩ := h
  have hn0 : n ≠ 0 := Nat.pos_iff_ne_zero.mp hn
  have hb0 : hash key % n < n := Nat.mod_lt _ hn
  have hlt : hash key % n < table.length := by omega
  obtain ⟨chain, hc1, hc2⟩ := hb (hash key % n) hb0
  have hmem : key ∈ chain.map (fun e => e.Key) ↔ key ∈ keys := by
    rw [hc2]
    simp
  obtain ⟨hk1, hk2⟩ := insertChain_keys key chain
  refine ⟨table.set (hash key % n) (insertChain key chain).1, (insertChain key chain).2.2,
    (insertChain key chain).2.1, ?_, ⟨by simp [hlen], fun b hlt2 => ?_⟩, ?_⟩
  · simp [insertKeyTable, hn0, hc1]
  · by_cases hbb : hash key % n = b
    · subst hbb
      refine ⟨(insertChain key chain).1, ?_, ?_⟩
      · simp [List.getElem?_set_self hlt]
      · rw [hk1]
        by_cases hin : key ∈ keys
        · rw [if_pos (hmem.mpr hin), if_pos hin]
          exact hc2
        · have hnot : key ∉ chain.map (fun e => e.Key) := fun hx => hin (hmem.mp hx)
          rw [if_neg hnot, if_neg hin, List.filter_append, hc2]
          simp
    · obtain ⟨c, hc3, hc4⟩ := hb b hlt2
      refine ⟨c, ?_, ?_⟩
      · rw [List.getElem?_set_ne hbb, hc3]
      · rw [hc4]
        by_cases hin : key ∈ keys
        · simp only [hin, if_true]
        · simp only [hin, if_false, List.filter_append]
          simp [hbb]
  · rw [hk2]
    exact not_congr hmem

theorem keysStep_nodup {K V : Type} [DecidableEq K] (acc : List K) (op : MapOp K V)
    (h : acc.Nodup) : (keysStep acc op).Nodup := by
  unfold keysStep
  cases op.key? with
  | none => simp
  | some key =>
    by_cases hin : key ∈ acc
    · simp only [hin, if_true]
      exact h
    · simp only [hin, if_false]
      exact List.nodup_append.mpr ⟨h, by simp, by simpa using hin⟩

theorem u32_succ (n : Nat) : u32 (u32 n + 1) = u32 (n + 1) := by
  simp [u32, Nat.add_mod]

theorem ChainedInv_insertKey {K V : Type} [DecidableEq K] [Inhabited V] (hash : K → Nat)
    (n : Nat) (hn : 0 < n) (table : List (List (Node K V))) (count : Nat) (keys : List K)
    (key : K) (h : ChainedInv hash n table count keys) :
    ∃ t1 fresh pos, insertKeyTable hash n table key = some (t1, fresh, hash key % n, pos) ∧
      (fresh = true ↔ key ∉ keys) ∧
      ∀ v, ChainedInv hash n t1 (if fresh then u32 (count + 1) else count)
          (if key ∈ keys then keys else keys ++ [key]) ∧
        ChainedInv hash n (writeSlot t1 (hash key % n) pos v)
          (if fresh then u32 (count + 1) else count)
          (if key ∈ keys then keys else keys ++ [key]) := by
  obtain ⟨ht, hnd, hcount⟩ := h
  obtain ⟨t1, fresh, pos, e, ht1, hfresh⟩ := TableInv_insertKey hash n hn table keys key ht
  have hnd1 : (if key ∈ keys then keys else keys ++ [key]).Nodup := by
    by_cases hin : key ∈ keys
    · simp only [hin, if_true]
      exact hnd
    · simp only [hin, if_false]
      exact List.nodup_append.mpr ⟨hnd, by simp, by simpa using hin⟩
  have hc1 : (if fresh then u32 (count + 1) else count)
      = u32 (if key ∈ keys then keys else keys ++ [key]).length := by
    by_cases hin : key ∈ keys
    · have hf : fresh = false := by
        cases fresh with
        | false => rfl
        | true => exact absurd hin (hfresh.mp rfl)
      simp [hf, hin, hcount]
    · have hf : fresh = true := hfresh.mpr hin
      simp only [hf, if_true, hin, if_false, List.length_append, List.length_singleton, hcount]
      exact u32_succ keys.length
  exact ⟨t1, fresh, pos, e, hfresh, fun v =>
    ⟨⟨ht1, hnd1, hc1⟩, ⟨TableInv_writeSlot hash n t1 _ _ pos v ht1, hnd1, hc1⟩⟩⟩

theorem TableInv_keys {K V : Type} (hash : K → Nat) (n : Nat)
    (table : List (List (Node K V))) (keys : List K) (h : TableInv hash n table keys) :
    (entries table).map (fun e => e.Key) = bucketOrder hash n keys := by
  obtain ⟨hlen, hb⟩ := h
  have hmap : table.map (fun chain => chain.map (fun e => e.Key))
      = (List.range n).map (fun b => keys.filter (fun k => decide (hash k % n = b))) := by
    apply List.ext_getElem?
    intro b
    by_cases hlt : b < n
    · obtain ⟨chain, hc1, hc2⟩ := hb b hlt
      simp [List.getElem?_map, hc1, hc2, List.getElem?_range hlt]
    · have h1 : table.length ≤ b := by omega
      rw [List.getElem?_eq_none (by simpa using h1), List.getElem?_eq_none (by simpa using hlt)]
  rw [entries, List.map_flatten, hmap, bucketOrder, List.flatMap_def]

theorem TableInv_bucket {K V : Type} (hash : K → Nat) (n : Nat)
    (table : List (List (Node K V))) (keys : List K) (h : TableInv hash n table keys)
    (b : Nat) (chain : List (Node K V)) (hc : table[b]? = some chain) :
    chain.map (fun e => e.Key) = keys.filter (fun k => decide (hash k % n = b)) ∧
    ∀ e ∈ chain, hash e.Key % n = b := by
  obtain ⟨hlen, hb⟩ := h
  have hlt : b < n := by
    by_contra hge
    rw [List.getElem?_eq_none (by omega)] at hc
    exact Option.noConfusion hc
  obtain ⟨c, hc1, hc2⟩ := hb b hlt
  rw [hc] at hc1
  have hcc : chain = c := Option.some.inj hc1
  subst hcc
  refine ⟨hc2, fun e he => ?_⟩
  have : e.Key ∈ chain.map (fun e => e.Key) := List.mem_map_of_mem _ he
  rw [hc2] at this
  simpa using (List.mem_filter.mp this).2

theorem bucketOrder_nodup {K : Type} (hash : K → Nat) (n : Nat) (keys : List K)
    (h : keys.Nodup) : (bucketOrder hash n keys).Nodup := by
  rw [bucketOrder, List.nodup_flatMap]
  refine ⟨fun b _ => h.filter _, ?_⟩
  apply (List.pairwise_lt_range n).imp
  intro a b hab
  simp only [Function.onFun]
  rw [List.disjoint_left]
  intro x hxa hxb
  have h1 := (List.mem_filter.mp hxa).2
  have h2 := (List.mem_filter.mp hxb).2
  simp only [decide_eq_true_eq] at h1 h2
  omega

theorem mem_bucketOrder {K : Type} (hash : K → Nat) (n : Nat) (hn : 0 < n) (keys : List K)
    (k : K) : k ∈ bucketOrder hash n keys ↔ k ∈ keys := by
  simp only [bucketOrder, List.mem_flatMap, List.mem_range, List.mem_filter, decide_eq_true_eq]
  constructor
  · rintro ⟨b, _, hk, _⟩
    exact hk
  · intro hk
    exact ⟨hash k % n, Nat.mod_lt _ hn, hk, rfl⟩

theorem bucketOrder_length {K : Type} (hash : K → Nat) (n : Nat) (hn : 0 < n) (keys : List K)
    (h : keys.Nodup) : (bucketOrder hash n keys).length = keys.length := by
  apply List.Perm.length_eq
  rw [List.perm_ext_iff_of_nodup (bucketOrder_nodup hash n keys h) h]
  intro k
  exact mem_bucketOrder hash n hn keys k

theorem ChainedInv_facts {K V : Type} (hash : K → Nat) (n : Nat) (hn : 0 < n)
    (table : List (List (Node K V))) (count : Nat) (keys : List K)
    (h : ChainedInv hash n table count keys) :
    (entries table).map (fun e => e.Key) = bucketOrder hash n keys ∧
    (∀ b chain, table[b]? = some chain → ∀ e ∈ chain, hash e.Key % n = b) ∧
    ((entries table).map (fun e => e.Key)).Nodup ∧
    (entries table).length = keys.length ∧
    count = u32 (entries table).length := by
  obtain ⟨ht, hnd, hcount⟩ := h
  have hk := TableInv_keys hash n table keys ht
  have hlen : (entries table).length = keys.length := by
    have := congrArg List.length hk
    rw [List.length_map, bucketOrder_length hash n hn keys hnd] at this
    exact this
  refine ⟨hk, fun b chain hc => (TableInv_bucket hash n table keys ht b chain hc).2, ?_, hlen, ?_⟩
  · rw [hk]
    exact bucketOrder_nodup hash n keys hnd
  · rw [hlen]
    exact hcount

theorem findChain_of_mem {K V : Type} [DecidableEq K] (chain : List (Node K V))
    (hnd : (chain.map (fun e => e.Key)).Nodup) (e : Node K V) (he : e ∈ chain) :
    findChain e.Key chain = some e.Value := by
  induction chain with
  | nil => simp at he
  | cons item next ih =>
    rw [List.map_cons, List.nodup_cons] at hnd
    rcases List.mem_cons.mp he with h | h
    · subst h
      simp [findChain]
    · have hne : ¬ e.Key = item.Key := by
        intro heq
        apply hnd.1
        rw [← heq]
        exact List.mem_map_of_mem _ h
      simp [findChain, hne, ih hnd.2 h]

theorem findChain_some {K V : Type} [DecidableEq K] (k : K) (v : V) (chain : List (Node K V))
    (h : findChain k chain = some v) : ∃ e ∈ chain, e.Key = k ∧ e.Value = v := by
  induction chain with
  | nil => simp [findChain] at h
  | cons item next ih =>
    by_cases hk : k = item.Key
    · simp only [findChain, hk, if_true, Option.some.injEq] at h
      exact ⟨item, by simp, hk.symm, h⟩
    · simp only [findChain, hk, if_false] at h
      obtain ⟨e, he, h1, h2⟩ := ih h
      exact ⟨e, by simp [he], h1, h2⟩

theorem visits_iff_find {K V : Type} [DecidableEq K] (hash : K → Nat) (n : Nat) (hn : 0 < n)
    (table : List (List (Node K V))) (count : Nat) (keys : List K)
    (h : ChainedInv hash n table count keys) (k : K) (v : V) :
    (k, v) ∈ (entries table).map (fun e => (e.Key, e.Value)) ↔
      findTable hash n table k = some (some v) := by
  obtain ⟨ht, hnd, _⟩ := h
  have hn0 : n ≠ 0 := Nat.pos_iff_ne_zero.mp hn
  obtain ⟨chainK, hcK, _⟩ := ht.2 (hash k % n) (Nat.mod_lt _ hn)
  have hkeysK := (TableInv_bucket hash n table keys ht _ chainK hcK).1
  have hndK : (chainK.map (fun e => e.Key)).Nodup := by
    rw [hkeysK]
    exact hnd.filter _
  have hfind : findTable hash n table k = some (findChain k chainK) := by
    simp [findTable, hn0, hcK]
  rw [hfind]
  constructor
  · intro hmem
    obtain ⟨e, he, hpair⟩ := List.mem_map.mp hmem
    have hek : e.Key = k := (Prod.mk.inj hpair).1
    have hev : e.Value = v := (Prod.mk.inj hpair).2
    obtain ⟨chain, hchain, hec⟩ := List.mem_flatten.mp he
    obtain ⟨b, hb⟩ := List.getElem?_of_mem hchain
    have hbk := (TableInv_bucket hash n table keys ht b chain hb).2 e hec
    rw [hek] at hbk
    rw [← hbk, hcK] at hb
    have hcc : chainK = chain := Option.some.inj hb
    subst hcc
    rw [← hek, ← hev, findChain_of_mem chainK hndK e hec]
  · intro hf
    obtain ⟨e, he, hek, hev⟩ := findChain_some k v chainK (Option.some.inj hf)
    apply List.mem_map.mpr
    refine ⟨e, ?_, by rw [hek, hev]⟩
    exact List.mem_flatten.mpr ⟨chainK, List.getElem?_mem hcK, he⟩

/-! ## The invariant along call sequences -/

theorem Map_step_inv {K V : Type} [DecidableEq K] [Inhabited V] (hash : K → Nat)
    (m : Map K V) (keys : List K) (op : MapOp K V) (hn : 0 < m.HashSize)
    (h : ChainedInv hash m.HashSize m.HashTable m.ItemCount keys) :
    ∃ m1, Map.step hash m op = some m1 ∧ m1.HashSize = m.HashSize ∧
      ChainedInv hash m.HashSize m1.HashTable m1.ItemCount (keysStep keys op) := by
  cases op with
  | insertKey key =>
    obtain ⟨t1, fresh, pos, e, _, hall⟩ :=
      ChainedInv_insertKey hash m.HashSize hn m.HashTable m.ItemCount keys key h
    refine ⟨{ HashSize := m.HashSize, HashTable := t1,
              ItemCount := if fresh then u32 (m.ItemCount + 1) else m.ItemCount }, ?_, rfl, ?_⟩
    · simp only [Map.step, Map.InsertKey, e]
    · exact (hall default).1
  | insert key value =>
    obtain ⟨t1, fresh, pos, e, _, hall⟩ :=
      ChainedInv_insertKey hash m.HashSize hn m.HashTable m.ItemCount keys key h
    refine ⟨{ HashSize := m.HashSize,
              HashTable := writeSlot t1 (hash key % m.HashSize) pos value,
              ItemCount := if fresh then u32 (m.ItemCount + 1) else m.ItemCount }, ?_, rfl, ?_⟩
    · simp only [Map.step, Map.Insert, Map.InsertKey, e]
    · exact (hall value).2
  | clear =>
    refine ⟨{ m with ItemCount := 0, HashTable := List.replicate m.HashSize [] }, ?_, rfl, ?_⟩
    · have := clearLoop_all m.HashTable
      rw [h.1.1] at this
      simp [Map.step, Map.Clear, this]
    · exact ⟨TableInv_replicate hash m.HashSize, by simp [keysStep, MapOp.key?],
        by simp [keysStep, MapOp.key?, u32]⟩

theorem Map_run_inv {K V : Type} [DecidableEq K] [Inhabited V] (hash : K → Nat)
    (ops : List (MapOp K V)) :
    ∀ (m : Map K V) (keys : List K), 0 < m.HashSize →
      ChainedInv hash m.HashSize m.HashTable m.ItemCount keys →
      ∃ m1, Map.run hash m ops = some m1 ∧ m1.HashSize = m.HashSize ∧
        ChainedInv hash m.HashSize m1.HashTable m1.ItemCount (ops.foldl keysStep keys) := by
  induction ops with
  | nil => exact fun m keys _ h => ⟨m, rfl, rfl, h⟩
  | cons op rest ih =>
    intro m keys hn h
    obtain ⟨m1, e1, s1, h1⟩ := Map_step_inv hash m keys op hn h
    obtain ⟨m2, e2, s2, h2⟩ := ih m1 (keysStep keys op) (s1 ▸ hn) (s1 ▸ h1)
    refine ⟨m2, by simp [Map.run, e1, e2], s2.trans s1, ?_⟩
    rw [s1] at h2
    exact h2

theorem Map_run_Init_inv {K V : Type} [DecidableEq K] [Inhabited V] (hash : K → Nat)
    (hashSize : Nat) (h : 0 < hashSize) (ops : List (MapOp K V)) :
    ∃ m, Map.run hash (Map.Init hashSize) ops = some m ∧ m.HashSize = hashSize ∧
      ChainedInv hash hashSize m.HashTable m.ItemCount (liveKeys ops) := by
  obtain ⟨m, e, s, hinv⟩ := Map_run_inv hash ops (Map.Init hashSize) [] h
    ⟨TableInv_replicate hash hashSize, List.nodup_nil, rfl⟩
  exact ⟨m, e, s, hinv⟩

theorem Map_Insert_present {K V : Type} [DecidableEq K] [Inhabited V] (hash : K → Nat)
    (m : Map K V) (keys : List K) (key : K) (hn : 0 < m.HashSize)
    (h : ChainedInv hash m.HashSize m.HashTable m.ItemCount keys) (hkey : key ∈ keys) :
    (∃ r, Map.InsertKey hash m key = some r ∧ r.1.ItemCount = m.ItemCount) ∧
    (∀ v, ∃ m1, Map.Insert hash m key v = some m1 ∧ m1.ItemCount = m.ItemCount) := by
  obtain ⟨t1, fresh, pos, e, hfresh, _⟩ :=
    ChainedInv_insertKey hash m.HashSize hn m.HashTable m.ItemCount keys key h
  have hf : fresh = false := by
    cases fresh with
    | false => rfl
    | true => exact absurd hkey (hfresh.mp rfl)
  subst hf
  constructor
  · simp only [Map.InsertKey, e]
    exact ⟨_, rfl, by simp⟩
  · intro v
    simp only [Map.Insert, Map.InsertKey, e]
    exact ⟨_, rfl, by simp⟩

theorem RefMap_step_inv {K V : Type} [DecidableEq K] [Inhabited V] (hash : K → Nat)
    (m : RefMap K V) (keys : List K) (op : MapOp K V) (hn : 0 < m.HashSize)
    (h : ChainedInv hash m.HashSize m.HashTable m.ItemCount keys) :
    ∃ m1, RefMap.step hash m op = some m1 ∧ m1.HashSize = m.HashSize ∧
      ChainedInv hash m.HashSize m1.HashTable m1.ItemCount (keysStep keys op) := by
  cases op with
  | insertKey key =>
    obtain ⟨t1, fresh, pos, e, _, hall⟩ :=
      ChainedInv_insertKey hash m.HashSize hn m.HashTable m.ItemCount keys key h
    refine ⟨{ HashSize := m.HashSize, HashTable := t1,
              ItemCount := if fresh then u32 (m.ItemCount + 1) else m.ItemCount }, ?_, rfl, ?_⟩
    · simp only [RefMap.step, RefMap.InsertKey, e]
    · exact (hall default).1
  | insert key value =>
    obtain ⟨t1, fresh, pos, e, _, hall⟩ :=
      ChainedInv_insertKey hash m.HashSize hn m.HashTable m.ItemCount keys key h
    refine ⟨{ HashSize := m.HashSize,
              HashTable := writeSlot t1 (hash key % m.HashSize) pos value,
              ItemCount := if fresh then u32 (m.ItemCount + 1) else m.ItemCount }, ?_, rfl, ?_⟩
    · simp only [RefMap.step, RefMap.Insert, RefMap.InsertKey, e]
    · exact (hall value).2
  | clear =>
    refine ⟨{ m with ItemCount := 0, HashTable := List.replicate m.HashSize [] }, ?_, rfl, ?_⟩
    · have := clearLoop_all m.HashTable
      rw [h.1.1] at this
      simp [RefMap.step, RefMap.Clear, this]
    · exact ⟨TableInv_replicate hash m.HashSize, by simp [keysStep, MapOp.key?],
        by simp [keysStep, MapOp.key?, u32]⟩

theorem RefMap_run_inv {K V : Type} [DecidableEq K] [Inhabited V] (hash : K → Nat)
    (ops : List (MapOp K V)) :
    ∀ (m : RefMap K V) (keys : List K), 0 < m.HashSize →
      ChainedInv hash m.HashSize m.HashTable m.ItemCount keys →
      ∃ m1, RefMap.run hash m ops = some m1 ∧ m1.HashSize = m.HashSize ∧
        ChainedInv hash m.HashSize m1.HashTable m1.ItemCount (ops.foldl keysStep keys) := by
  induction ops with
  | nil => exact fun m keys _ h => ⟨m, rfl, rfl, h⟩
  | cons op rest ih =>
    intro m keys hn h
    obtain ⟨m1, e1, s1, h1⟩ := RefMap_step_inv hash m keys op hn h
    obtain ⟨m2, e2, s2, h2⟩ := ih m1 (keysStep keys op) (s1 ▸ hn) (s1 ▸ h1)
    refine ⟨m2, by simp [RefMap.run, e1, e2], s2.trans s1, ?_⟩
    rw [s1] at h2
    exact h2

theorem RefMap_run_Init_inv {K V : Type} [DecidableEq K] [Inhabited V] (hash : K → Nat)
    (hashSize : Nat) (h : 0 < hashSize) (ops : List (MapOp K V)) :
    ∃ m, RefMap.run hash (RefMap.Init hashSize) ops = some m ∧ m.HashSize = hashSize ∧
      ChainedInv hash hashSize m.HashTable m.ItemCount (liveKeys ops) := by
  obtain ⟨m, e, s, hinv⟩ := RefMap_run_inv hash ops (RefMap.Init hashSize) [] h
    ⟨TableInv_replicate hash hashSize, List.nodup_nil, rfl⟩
  exact ⟨m, e, s, hinv⟩

theorem RefMap_Insert_present {K V : Type} [DecidableEq K] [Inhabited V] (hash : K → Nat)
    (m : RefMap K V) (keys : List K) (key : K) (hn : 0 < m.HashSize)
    (h : ChainedInv hash m.HashSize m.HashTable m.ItemCount keys) (hkey : key ∈ keys) :
    (∃ r, RefMap.InsertKey hash m key = some r ∧ r.1.ItemCount = m.ItemCount) ∧
    (∀ v, ∃ m1, RefMap.Insert hash m key v = some m1 ∧ m1.ItemCount = m.ItemCount) := by
  obtain ⟨t1, fresh, pos, e, hfresh, _⟩ :=
    ChainedInv_insertKey hash m.HashSize hn m.HashTable m.ItemCount keys key h
  have hf : fresh = false := by
    cases fresh with
    | false => rfl
    | true => exact absurd hkey (hfresh.mp rfl)
  subst hf
  constructor
  · simp only [RefMap.InsertKey, e]
    exact ⟨_, rfl, by simp⟩
  · intro v
    simp only [RefMap.Insert, RefMap.InsertKey, e]
    exact ⟨_, rfl, by simp⟩

theorem foldl_keysStep_distinct {K V : Type} [DecidableEq K] (ks : List K) :
    ∀ acc : List K, (acc ++ ks).Nodup →
      (ks.map (MapOp.insertKey : K → MapOp K V)).foldl keysStep acc = acc ++ ks := by
  induction ks with
  | nil =>
    intro acc _
    simp
  | cons k rest ih =>
    intro acc hnd
    have hk : k ∉ acc := by
      intro hin
      have := (List.nodup_append.mp hnd).2.2
      exact this hin (by simp)
    have hstep : keysStep acc (MapOp.insertKey k : MapOp K V) = acc ++ [k] := by
      simp [keysStep, MapOp.key?, hk]
    rw [List.map_cons, List.foldl_cons, hstep, ih (acc ++ [k]) (by simpa using hnd)]
    simp

/-! ## Lemmas on `InsertAt` and on the sequence invariant -/

theorem shiftUpLoop_spec {T : Type} (n : Nat) :
    ∀ (i : Nat) (buf : List T), n ≤ i → i < buf.length →
      ∃ r, shiftUpLoop n i buf = some r ∧ r.length = buf.length ∧
        ∀ j, r[j]? = if i - n < j ∧ j ≤ i then buf[j - 1]? else buf[j]? := by
  induction n with
  | zero =>
    intro i buf _ _
    refine ⟨buf, rfl, rfl, fun j => ?_⟩
    have : ¬ (i - 0 < j ∧ j ≤ i) := by omega
    simp only [this, if_false]
  | succ n ih =>
    intro i buf hn hi
    have hi1 : i - 1 < buf.length := by omega
    obtain ⟨r, e, l, g⟩ := ih (i - 1) (buf.set i buf[i - 1]) (by omega) (by simp; omega)
    refine ⟨r, ?_, by simpa using l, fun j => ?_⟩
    · simp [shiftUpLoop, List.getElem?_eq_getElem hi1, writeAt, hi, e]
    · rw [g j]
      by_cases hj : j = i
      · subst hj
        have h1 : ¬ (j - 1 - n < j ∧ j ≤ j - 1) := by omega
        have h2 : j - (n + 1) < j ∧ j ≤ j := by omega
        simp only [h1, h2, and_self, if_true, if_false, List.getElem?_set_self hi,
          List.getElem?_eq_getElem hi1]
      · have hne : i ≠ j := fun h => hj h.symm
        by_cases h3 : i - 1 - n < j ∧ j ≤ i - 1
        · have h4 : i - (n + 1) < j ∧ j ≤ i := by omega
          have hne2 : i ≠ j - 1 := by omega
          simp only [h3, h4, and_self, if_true, List.getElem?_set_ne hne2]
        · have h4 : ¬ (i - (n + 1) < j ∧ j ≤ i) := by omega
          simp only [h3, h4, if_false, List.getElem?_set_ne hne]

theorem insert_shape {T : Type} (b1 r : List T) (size index : Nat) (v : T)
    (hidx : index ≤ size) (hlen : size < b1.length) (hr : r.length = b1.length)
    (hg : ∀ j, r[j]? = if index < j ∧ j ≤ size then b1[j - 1]? else b1[j]?) :
    (r.set index v).take (size + 1)
      = (b1.take size).take index ++ v :: (b1.take size).drop index := by
  apply List.ext_getElem?
  intro j
  have hl1 : ((b1.take size).take index).length = index := by
    simp
    omega
  rw [List.getElem?_take, List.getElem?_set, List.getElem?_append, hl1, hg j]
  by_cases h1 : j < index
  · have h2 : j < size + 1 := by omega
    have h3 : ¬ index = j := by omega
    have h4 : ¬ (index < j ∧ j ≤ size) := by omega
    have h5 : j < size := by omega
    simp only [h1, h2, h3, h4, if_true, if_false, List.getElem?_take, h5]
  · by_cases h2 : j = index
    · subst h2
      have h3 : j < size + 1 := by omega
      have h4 : j < r.length := by omega
      simp [h3, h4]
    · have h3 : ¬ index = j := fun h => h2 h.symm
      have h6 : j - index = (j - index - 1) + 1 := by omega
      rw [h6, List.getElem?_cons_succ, List.getElem?_drop, List.getElem?_take]
      have h7 : index + (j - index - 1) = j - 1 := by omega
      rw [h7]
      by_cases h4 : j < size + 1
      · have h5 : index < j ∧ j ≤ size := by omega
        have h8 : j - 1 < size := by omega
        simp only [h1, h3, h4, h5, h8, and_self, if_true, if_false]
        rw [List.getElem?_take_of_lt h8]
      · have h8 : size ≤ j - 1 := by omega
        simp only [h1, h4, if_false]
        rw [List.getElem?_take_eq_none h8]

theorem Set_Grow_keeps {T : Type} [Inhabited T] (s : Set T) (hsz : s.Size ≤ s.Buf.length)
    (hnew : s.Size ≤ s.CapacityIncrement) :
    ∃ s1, Set.Grow s = some s1 ∧ s1.Capacity = s.CapacityIncrement ∧
      s1.Buf.length = s1.Capacity ∧ s1.Size = s.Size ∧
      s1.CapacityIncrementSize = s.CapacityIncrementSize ∧
      s1.Buf.take s.Size = s.Buf.take s.Size := by
  obtain ⟨r, e, l, t⟩ := realloc_copy s.Buf s.Size s.CapacityIncrement hsz
  have hmin : min s.Size s.CapacityIncrement = s.Size := by omega
  rw [hmin] at t
  refine ⟨{ toCompactSet := { Buf := r, Capacity := s.CapacityIncrement, Size := s.Size },
            CapacityIncrementSize := s.CapacityIncrementSize }, ?_, rfl, l, rfl, rfl, t⟩
  by_cases hpos : s.CapacityIncrement > 0
  · simp [Set.Grow, CompactSet.Reallocate, CompactSet.RawReallocate, hpos, e]
  · have h0 : s.CapacityIncrement = 0 := by omega
    rw [h0] at e
    have e1 : copyLoop s.Buf 0 0 ([] : List T) = some r := by simpa using e
    simp [Set.Grow, CompactSet.Reallocate, CompactSet.RawReallocate, h0, e1]

theorem Set_increment_grows {T : Type} (s : Set T) (hsz : s.Size ≤ s.Capacity)
    (hle : s.Capacity ≤ s.Size) (hn : s.Size < 2 ^ 31)
    (hinc : s.CapacityIncrementSize < 2 ^ 31) : s.Size < s.CapacityIncrement := by
  by_cases hc : s.CapacityIncrementSize = 0
  · simp only [Set.CapacityIncrement, hc, ne_eq, not_true_eq_false, if_false]
    exact doubling_grows hle hsz hn
  · have h1 : u32 s.CapacityIncrementSize = s.CapacityIncrementSize := u32_of_lt (by omega)
    have h2 : s.Capacity + s.CapacityIncrementSize < 2 ^ 32 := by omega
    simp only [Set.CapacityIncrement, hc, ne_eq, not_false_eq_true, if_true, h1, u32_of_lt h2]
    omega

theorem Set_InsertAt_spec {T : Type} [Inhabited T] (s : Set T) (index : Nat) (v : T)
    (hlen : s.Buf.length = s.Capacity) (hsz : s.Size ≤ s.Capacity) (hlt : s.Size + 1 < 2 ^ 32)
    (hgrow : s.Capacity ≤ s.Size → s.Size < s.CapacityIncrement) (hidx : index ≤ s.Size) :
    ∃ s1, s.InsertAt index v = some s1 ∧ s1.Size = s.Size + 1 ∧
      s1.Buf.length = s1.Capacity ∧ s1.Size ≤ s1.Capacity ∧
      s1.CapacityIncrementSize = s.CapacityIncrementSize ∧
      s1.Buf.take s1.Size
        = (s.Buf.take s.Size).take index ++ v :: (s.Buf.take s.Size).drop index ∧
      (s.Capacity ≤ s.Size → s1.Capacity = s.CapacityIncrement) ∧
      (¬ s.Capacity ≤ s.Size → s1.Capacity = s.Capacity) := by
  have key : ∀ g : Set T, g.Size = s.Size → g.Buf.length = g.Capacity → s.Size < g.Capacity →
      g.Buf.take s.Size = s.Buf.take s.Size →
      ∃ buf2, (match shiftUpLoop (g.Size - index) g.Size g.Buf with
          | none => none
          | some buf =>
            match writeAt buf index v with
            | none => none
            | some buf2 => some ({ g with Buf := buf2, Size := u32 (g.Size + 1) } : Set T))
          = some { g with Buf := buf2, Size := s.Size + 1 } ∧
        buf2.length = g.Capacity ∧
        buf2.take (s.Size + 1)
          = (s.Buf.take s.Size).take index ++ v :: (s.Buf.take s.Size).drop index := by
    intro g hgs hgl hgc hgt
    obtain ⟨r, e, l, hg⟩ := shiftUpLoop_spec (s.Size - index) s.Size g.Buf (by omega) (by omega)
    have hsub : s.Size - (s.Size - index) = index := by omega
    rw [hsub] at hg
    have hw : writeAt r index v = some (r.set index v) := by
      have : index < r.length := by omega
      simp [writeAt, this]
    refine ⟨r.set index v, ?_, by simp [l, hgl], ?_⟩
    · rw [hgs, e]
      simp only [hw, u32_of_lt hlt]
    · rw [insert_shape g.Buf r s.Size index v hidx (by omega) l hg, hgt]
  by_cases hg : s.Capacity ≤ s.Size
  · obtain ⟨g, eg, cg, lg, zg, ig, tg⟩ := Set_Grow_keeps s (by omega) (by have := hgrow hg; omega)
    obtain ⟨buf2, e2, l2, t2⟩ := key g zg lg (by rw [cg]; exact hgrow hg) tg
    refine ⟨{ g with Buf := buf2, Size := s.Size + 1 }, ?_, rfl, l2, ?_, ig, t2,
      fun _ => cg, fun hn => absurd hg hn⟩
    · simp only [Set.InsertAt, hg, if_true, eg]
      exact e2
    · have := hgrow hg
      show s.Size + 1 ≤ g.Capacity
      omega
  · obtain ⟨buf2, e2, l2, t2⟩ := key s rfl hlen (by omega) rfl
    refine ⟨{ s with Buf := buf2, Size := s.Size + 1 }, ?_, rfl, l2, ?_, rfl, t2,
      fun h => absurd h hg, fun _ => rfl⟩
    · simp only [Set.InsertAt, hg, if_false]
      exact e2
    · show s.Size + 1 ≤ s.Capacity
      omega

theorem writeAt_none {T : Type} (buf : List T) (i : Nat) (v : T) (h : buf.length ≤ i) :
    writeAt buf i v = none := by
  have : ¬ i < buf.length := by omega
  simp [writeAt, this]

theorem Array_Reallocate_spec {T : Type} [Inhabited T] (a : Array T) (newCapacity : Nat)
    (hsz : a.Size ≤ a.Buf.length) :
    ∃ r, a.Reallocate newCapacity = some { a with Buf := r, Capacity := newCapacity } ∧
      r.length = newCapacity := by
  obtain ⟨r, e, l, _⟩ := realloc_copy a.Buf a.Size newCapacity hsz
  exact ⟨r, by simp [Array.Reallocate, e], l⟩

theorem Set_CapacityIncrement_lt {T : Type} (s : Set T) : s.CapacityIncrement < 2 ^ 32 := by
  unfold Set.CapacityIncrement
  split
  · exact Nat.mod_lt _ (by decide)
  · split
    · exact Nat.mod_lt _ (by decide)
    · decide

theorem PrimitiveSmallSet_CapacityIncrement_lt {T : Type} (s : PrimitiveSmallSet T) :
    s.CapacityIncrement < 2 ^ 32 := by
  unfold PrimitiveSmallSet.CapacityIncrement
  split
  · exact Nat.mod_lt _ (by decide)
  · decide

theorem Array_CapacityIncrement_lt {T : Type} (a : Array T) : a.CapacityIncrement < 2 ^ 32 := by
  unfold Array.CapacityIncrement
  split
  · exact Nat.mod_lt _ (by decide)
  · decide

theorem Set_Add_total {T : Type} [Inhabited T] (s : Set T) (v : T)
    (h : SeqInv s.Buf s.Capacity s.Size)
    (hgrow : s.Capacity ≤ s.Size → s.Size < s.CapacityIncrement) :
    ∃ s1, s.Add v = some s1 ∧ SeqInv s1.Buf s1.Capacity s1.Size ∧ s1.Size = s.Size + 1 := by
  obtain ⟨hlen, hsz, hcap⟩ := h
  have hinc := Set_CapacityIncrement_lt s
  have hlt : s.Size + 1 < 2 ^ 32 := by
    by_cases hle : s.Capacity ≤ s.Size
    · have := hgrow hle
      omega
    · omega
  obtain ⟨s1, e, l, z, n, _, _, g⟩ := Set_Add_spec s v hlen hsz hlt hgrow
  refine ⟨s1, e, ⟨l, z, ?_⟩, n⟩
  rcases g with g | g <;> rw [g] <;> assumption

theorem Set_Add_none {T : Type} [Inhabited T] (s : Set T) (v : T)
    (h : SeqInv s.Buf s.Capacity s.Size) (hle : s.Capacity ≤ s.Size)
    (hno : s.CapacityIncrement ≤ s.Size) : s.Add v = none := by
  obtain ⟨g, eg, cg, lg, zg, _⟩ := Set_Grow_spec s (by rw [h.1]; exact h.2.1)
  have hw : writeAt g.Buf g.Size v = none := writeAt_none g.Buf g.Size v (by omega)
  simp only [Set.Add, hle, if_true, eg, hw]

theorem Set_Add_partial {T : Type} [Inhabited T] (s s1 : Set T) (v : T)
    (h : SeqInv s.Buf s.Capacity s.Size) (e : s.Add v = some s1) :
    SeqInv s1.Buf s1.Capacity s1.Size := by
  by_cases hgrow : s.Capacity ≤ s.Size → s.Size < s.CapacityIncrement
  · obtain ⟨s2, e2, hinv, _⟩ := Set_Add_total s v h hgrow
    rw [e] at e2
    rw [Option.some.inj e2]
    exact hinv
  · have hle : s.Capacity ≤ s.Size := by
      by_contra hc
      exact hgrow (fun h => absurd h hc)
    have hno : s.CapacityIncrement ≤ s.Size := by
      by_contra hc
      exact hgrow (fun _ => by omega)
    rw [Set_Add_none s v h hle hno] at e
    exact Option.noConfusion e

theorem PrimitiveSmallSet_Add_total {T : Type} [Inhabited T] (s : PrimitiveSmallSet T) (v : T)
    (h : SeqInv s.Buf s.Capacity s.Size)
    (hgrow : s.Capacity ≤ s.Size → s.Size < s.CapacityIncrement) :
    ∃ s1, s.Add v = some s1 ∧ SeqInv s1.Buf s1.Capacity s1.Size ∧ s1.Size = s.Size + 1 := by
  obtain ⟨hlen, hsz, hcap⟩ := h
  have hinc := PrimitiveSmallSet_CapacityIncrement_lt s
  have hlt : s.Size + 1 < 2 ^ 32 := by
    by_cases hle : s.Capacity ≤ s.Size
    · have := hgrow hle
      omega
    · omega
  obtain ⟨s1, e, l, z, n, _, g⟩ := PrimitiveSmallSet_Add_spec s v hlen hsz hlt hgrow
  refine ⟨s1, e, ⟨l, z, ?_⟩, n⟩
  rcases g with g | g <;> rw [g] <;> assumption

theorem PrimitiveSmallSet_Add_none {T : Type} [Inhabited T] (s : PrimitiveSmallSet T) (v : T)
    (h : SeqInv s.Buf s.Capacity s.Size) (hle : s.Capacity ≤ s.Size)
    (hno : s.CapacityIncrement ≤ s.Size) : s.Add v = none := by
  obtain ⟨r, er, lr⟩ := CompactSet_Reallocate_spec s.toCompactSet s.CapacityIncrement
    (by rw [h.1]; exact h.2.1)
  have hw : writeAt r s.Size v = none := writeAt_none r s.Size v (by omega)
  simp only [PrimitiveSmallSet.Add, hle, if_true, er, hw]

theorem PrimitiveSmallSet_Add_partial {T : Type} [Inhabited T] (s s1 : PrimitiveSmallSet T)
    (v : T) (h : SeqInv s.Buf s.Capacity s.Size) (e : s.Add v = some s1) :
    SeqInv s1.Buf s1.Capacity s1.Size := by
  by_cases hgrow : s.Capacity ≤ s.Size → s.Size < s.CapacityIncrement
  · obtain ⟨s2, e2, hinv, _⟩ := PrimitiveSmallSet_Add_total s v h hgrow
    rw [e] at e2
    rw [Option.some.inj e2]
    exact hinv
  · have hle : s.Capacity ≤ s.Size := by
      by_contra hc
      exact hgrow (fun h => absurd h hc)
    have hno : s.CapacityIncrement ≤ s.Size := by
      by_contra hc
      exact hgrow (fun _ => by omega)
    rw [PrimitiveSmallSet_Add_none s v h hle hno] at e
    exact Option.noConfusion e

theorem Array_Add_total {T : Type} [Inhabited T] (a : Array T) (v : T)
    (h : SeqInv a.Buf a.Capacity a.Size)
    (hgrow : a.Capacity ≤ a.Size → a.Size < a.CapacityIncrement) :
    ∃ a1, a.Add v = some a1 ∧ SeqInv a1.Buf a1.Capacity a1.Size ∧ a1.Size = a.Size + 1 := by
  obtain ⟨hlen, hsz, hcap⟩ := h
  have hinc := Array_CapacityIncrement_lt a
  have hlt : a.Size + 1 < 2 ^ 32 := by
    by_cases hle : a.Capacity ≤ a.Size
    · have := hgrow hle
      omega
    · omega
  obtain ⟨a1, e, l, z, n, _, g⟩ := Array_Add_spec a v hlen hsz hlt hgrow
  refine ⟨a1, e, ⟨l, z, ?_⟩, n⟩
  rcases g with g | g <;> rw [g] <;> assumption

theorem Array_Add_none {T : Type} [Inhabited T] (a : Array T) (v : T)
    (h : SeqInv a.Buf a.Capacity a.Size) (hle : a.Capacity ≤ a.Size)
    (hno : a.CapacityIncrement ≤ a.Size) : a.Add v = none := by
  obtain ⟨r, er, lr⟩ := Array_Reallocate_spec a a.CapacityIncrement (by rw [h.1]; exact h.2.1)
  have hw : writeAt r a.Size v = none := writeAt_none r a.Size v (by omega)
  simp only [Array.Add, hle, if_true, er, hw]

theorem Array_Add_partial {T : Type} [Inhabited T] (a a1 : Array T) (v : T)
    (h : SeqInv a.Buf a.Capacity a.Size) (e : a.Add v = some a1) :
    SeqInv a1.Buf a1.Capacity a1.Size := by
  by_cases hgrow : a.Capacity ≤ a.Size → a.Size < a.CapacityIncrement
  · obtain ⟨a2, e2, hinv, _⟩ := Array_Add_total a v h hgrow
    rw [e] at e2
    rw [Option.some.inj e2]
    exact hinv
  · have hle : a.Capacity ≤ a.Size := by
      by_contra hc
      exact hgrow (fun h => absurd h hc)
    have hno : a.CapacityIncrement ≤ a.Size := by
      by_contra hc
      exact hgrow (fun _ => by omega)
    rw [Array_Add_none a v h hle hno] at e
    exact Option.noConfusion e

theorem shiftUpLoop_none {T : Type} (n i : Nat) (buf : List T) (h : buf.length ≤ i) :
    shiftUpLoop (n + 1) i buf = none := by
  cases hr : buf[i - 1]? with
  | none => simp [shiftUpLoop, hr]
  | some v => simp [shiftUpLoop, hr, writeAt_none buf i v h]

theorem Set_InsertAt_total {T : Type} [Inhabited T] (s : Set T) (index : Nat) (v : T)
    (h : SeqInv s.Buf s.Capacity s.Size)
    (hgrow : s.Capacity ≤ s.Size → s.Size < s.CapacityIncrement) (hidx : index ≤ s.Size) :
    ∃ s1, s.InsertAt index v = some s1 ∧ SeqInv s1.Buf s1.Capacity s1.Size ∧
      s1.Size = s.Size + 1 := by
  obtain ⟨hlen, hsz, hcap⟩ := h
  have hinc := Set_CapacityIncrement_lt s
  have hlt : s.Size + 1 < 2 ^ 32 := by
    by_cases hle : s.Capacity ≤ s.Size
    · have := hgrow hle
      omega
    · omega
  obtain ⟨s1, e, n, l, z, _, _, g1, g2⟩ := Set_InsertAt_spec s index v hlen hsz hlt hgrow hidx
  refine ⟨s1, e, ⟨l, z, ?_⟩, n⟩
  by_cases hle : s.Capacity ≤ s.Size
  · rw [g1 hle]
    exact hinc
  · rw [g2 hle]
    exact hcap

theorem Set_InsertAt_none {T : Type} [Inhabited T] (s : Set T) (index : Nat) (v : T)
    (h : SeqInv s.Buf s.Capacity s.Size) (hle : s.Capacity ≤ s.Size)
    (hno : s.CapacityIncrement ≤ s.Size) (hidx : index ≤ s.Size) :
    s.InsertAt index v = none := by
  obtain ⟨g, eg, cg, lg, zg, _⟩ := Set_Grow_spec s (by rw [h.1]; exact h.2.1)
  have hlen : g.Buf.length ≤ g.Size := by omega
  simp only [Set.InsertAt, hle, if_true, eg]
  by_cases hlt : index < g.Size
  · obtain ⟨n, hn⟩ : ∃ n, g.Size - index = n + 1 := ⟨g.Size - index - 1, by omega⟩
    rw [hn, shiftUpLoop_none n g.Size g.Buf hlen]
  · have h0 : g.Size - index = 0 := by omega
    have hw : writeAt g.Buf index v = none := writeAt_none g.Buf index v (by omega)
    rw [h0]
    simp only [shiftUpLoop, hw]

theorem Set_InsertAt_partial {T : Type} [Inhabited T] (s s1 : Set T) (index : Nat) (v : T)
    (h : SeqInv s.Buf s.Capacity s.Size) (hidx : index ≤ s.Size)
    (e : s.InsertAt index v = some s1) : SeqInv s1.Buf s1.Capacity s1.Size := by
  by_cases hgrow : s.Capacity ≤ s.Size → s.Size < s.CapacityIncrement
  · obtain ⟨s2, e2, hinv, _⟩ := Set_InsertAt_total s index v h hgrow hidx
    rw [e] at e2
    rw [Option.some.inj e2]
    exact hinv
  · have hle : s.Capacity ≤ s.Size := by
      by_contra hc
      exact hgrow (fun h => absurd h hc)
    have hno : s.CapacityIncrement ≤ s.Size := by
      by_contra hc
      exact hgrow (fun _ => by omega)
    rw [Set_InsertAt_none s index v h hle hno hidx] at e
    exact Option.noConfusion e

theorem CompactSet_Remove_inv {T : Type} (c : CompactSet T) (index : Nat)
    (h : SeqInv c.Buf c.Capacity c.Size) :
    ∃ c1, c.Remove index = some c1 ∧ SeqInv c1.Buf c1.Capacity c1.Size := by
  obtain ⟨hlen, hsz, hcap⟩ := h
  by_cases hge : index ≥ c.Size
  · exact ⟨c, by simp [CompactSet.Remove, hge], hlen, hsz, hcap⟩
  · obtain ⟨r, e, l, _⟩ := shiftDownLoop_spec (c.Size - 1 - index) index c.Buf (by omega)
    refine ⟨{ c with Buf := r, Size := c.Size - 1 }, by simp [CompactSet.Remove, hge, e],
      by simp [l, hlen], ?_, hcap⟩
    show c.Size - 1 ≤ c.Capacity
    omega

theorem Array_Remove_inv {T : Type} (a : Array T) (index : Nat)
    (h : SeqInv a.Buf a.Capacity a.Size) :
    ∃ a1, a.Remove index = some a1 ∧ SeqInv a1.Buf a1.Capacity a1.Size := by
  obtain ⟨hlen, hsz, hcap⟩ := h
  by_cases hge : index ≥ a.Size
  · exact ⟨a, by simp [Array.Remove, hge], hlen, hsz, hcap⟩
  · obtain ⟨r, e, l, _⟩ := shiftDownLoop_spec (a.Size - 1 - index) index a.Buf (by omega)
    refine ⟨{ a with Buf := r, Size := a.Size - 1 }, by simp [Array.Remove, hge, e],
      by simp [l, hlen], ?_, hcap⟩
    show a.Size - 1 ≤ a.Capacity
    omega

theorem CompactSet_assign_inv {T : Type} [Inhabited T] (d s : CompactSet T)
    (hd : SeqInv d.Buf d.Capacity d.Size) (hs : SeqInv s.Buf s.Capacity s.Size) :
    ∃ d1, CompactSet.assign (Operands.distinct d s) = some (Operands.distinct d1 s) ∧
      SeqInv d1.Buf d1.Capacity d1.Size ∧ d1.Size = s.Size := by
  obtain ⟨r, e, l, _⟩ := CompactSet_assign_distinct d s (by rw [hd.1]; exact hd.2.1)
    (by rw [hs.1]; exact hs.2.1)
  refine ⟨{ Buf := r, Capacity := s.Size, Size := s.Size }, e, ⟨l, Nat.le_refl _, ?_⟩, rfl⟩
  have := hs.2.1
  have := hs.2.2
  show s.Size < 2 ^ 32
  omega

theorem CompactSet_assign_self_inv {T : Type} [Inhabited T] (s : CompactSet T)
    (hs : SeqInv s.Buf s.Capacity s.Size) :
    ∃ s1, CompactSet.assign (Operands.aliased s) = some (Operands.aliased s1) ∧
      SeqInv s1.Buf s1.Capacity s1.Size ∧ s1.Size = s.Size := by
  have hsz : s.Size ≤ s.Buf.length := by rw [hs.1]; exact hs.2.1
  refine ⟨{ Buf := s.Buf.take s.Size, Capacity := s.Size, Size := s.Size },
    CompactSet_assign_self s hsz, ⟨?_, Nat.le_refl _, ?_⟩, rfl⟩
  · show (s.Buf.take s.Size).length = s.Size
    rw [List.length_take]
    omega
  · have := hs.2.1
    have := hs.2.2
    show s.Size < 2 ^ 32
    omega

theorem Set_assign_inv {T : Type} [Inhabited T] (s other : Set T)
    (hs : SeqInv s.Buf s.Capacity s.Size) (ho : SeqInv other.Buf other.Capacity other.Size) :
    ∃ s1, Set.assign (Operands.distinct s other) = some (Operands.distinct s1 other) ∧
      SeqInv s1.Buf s1.Capacity s1.Size ∧ s1.Size = other.Size ∧
      s1.CapacityIncrementSize = other.CapacityIncrementSize := by
  obtain ⟨d1, e1, hinv, hsize⟩ := CompactSet_assign_inv s.toCompactSet other.toCompactSet hs ho
  refine ⟨{ toCompactSet := d1, CapacityIncrementSize := other.CapacityIncrementSize }, ?_,
    hinv, hsize, rfl⟩
  simp [Set.assign, Operands.map, Operands.dst, Operands.src, Operands.setDst, e1]

theorem Set_assign_self_inv {T : Type} [Inhabited T] (s : Set T)
    (hs : SeqInv s.Buf s.Capacity s.Size) :
    ∃ s1, Set.assign (Operands.aliased s) = some (Operands.aliased s1) ∧
      SeqInv s1.Buf s1.Capacity s1.Size ∧ s1.Size = s.Size ∧
      s1.CapacityIncrementSize = s.CapacityIncrementSize := by
  obtain ⟨d1, e1, hinv, hsize⟩ := CompactSet_assign_self_inv s.toCompactSet hs
  refine ⟨{ toCompactSet := d1, CapacityIncrementSize := s.CapacityIncrementSize }, ?_,
    hinv, hsize, rfl⟩
  simp [Set.assign, Operands.map, Operands.dst, Operands.src, Operands.setDst, e1]

theorem PrimitiveSmallSet_assign_inv {T : Type} [Inhabited T] (s other : PrimitiveSmallSet T)
    (hs : SeqInv s.Buf s.Capacity s.Size) (ho : SeqInv other.Buf other.Capacity other.Size) :
    ∃ s1, PrimitiveSmallSet.assign (Operands.distinct s other) =
        some (Operands.distinct s1 other) ∧
      SeqInv s1.Buf s1.Capacity s1.Size ∧ s1.Size = other.Size := by
  obtain ⟨d1, e1, hinv, hsize⟩ := CompactSet_assign_inv s.toCompactSet other.toCompactSet hs ho
  refine ⟨{ toCompactSet := d1 }, ?_, hinv, hsize⟩
  simp [PrimitiveSmallSet.assign, Operands.map, Operands.dst, Operands.setDst, e1]

theorem PrimitiveSmallSet_assign_self_inv {T : Type} [Inhabited T] (s : PrimitiveSmallSet T)
    (hs : SeqInv s.Buf s.Capacity s.Size) :
    ∃ s1, PrimitiveSmallSet.assign (Operands.aliased s) = some (Operands.aliased s1) ∧
      SeqInv s1.Buf s1.Capacity s1.Size ∧ s1.Size = s.Size := by
  obtain ⟨d1, e1, hinv, hsize⟩ := CompactSet_assign_self_inv s.toCompactSet hs
  refine ⟨{ toCompactSet := d1 }, ?_, hinv, hsize⟩
  simp [PrimitiveSmallSet.assign, Operands.map, Operands.dst, Operands.setDst, e1]

theorem Array_CopyFrom_inv {T : Type} [Inhabited T] (d a : Array T)
    (hd : SeqInv d.Buf d.Capacity d.Size) (ha : SeqInv a.Buf a.Capacity a.Size) :
    ∃ d1, Array.CopyFrom (Operands.distinct d a) = some (Operands.distinct d1 a) ∧
      SeqInv d1.Buf d1.Capacity d1.Size ∧ d1.Size = a.Size := by
  by_cases hpos : a.Size > 0
  · obtain ⟨r, e, l, _⟩ := Array_CopyFrom_distinct d a (by rw [ha.1]; exact ha.2.1) hpos
    refine ⟨{ Buf := r, Capacity := a.Size, Unknown := a.Unknown, Size := a.Size,
              Unknown2 := a.Unknown2 }, e, ⟨l, Nat.le_refl _, ?_⟩, rfl⟩
    have := ha.2.1
    have := ha.2.2
    show a.Size < 2 ^ 32
    omega
  · have h0 : a.Size = 0 := by omega
    exact ⟨{ d with Unknown := a.Unknown, Unknown2 := a.Unknown2, Size := 0 },
      Array_CopyFrom_empty d a h0, ⟨hd.1, Nat.zero_le _, hd.2.2⟩, h0.symm⟩

theorem Set_Reachable_inv {T : Type} [Inhabited T] (s : Set T) (h : Set.Reachable s) :
    SeqInv s.Buf s.Capacity s.Size := by
  induction h with
  | empty cis => exact ⟨rfl, Nat.le_refl _, Nat.two_pow_pos 32⟩
  | add value _ e ih => exact Set_Add_partial _ _ value ih e
  | insertAt index value _ hidx e ih => exact Set_InsertAt_partial _ _ index value ih hidx e
  | @remove s s1 index _ e ih =>
    obtain ⟨c1, e1, hinv⟩ := CompactSet_Remove_inv s.toCompactSet index ih
    simp only [Set.Remove, e1, Option.some.injEq] at e
    rw [← e]
    exact hinv
  | clear _ ih => exact ⟨ih.1, Nat.zero_le _, ih.2.2⟩
  | @assign s other w1 _ _ e ih1 ih2 =>
    obtain ⟨d1, e1, hinv, _⟩ := Set_assign_inv s other ih1 ih2
    rw [e] at e1
    rw [Option.some.inj e1]
    exact hinv
  | @selfAssign s w1 _ e ih =>
    obtain ⟨d1, e1, hinv, _⟩ := Set_assign_self_inv s ih
    rw [e] at e1
    rw [Option.some.inj e1]
    exact hinv

theorem PrimitiveSmallSet_Reachable_inv {T : Type} [Inhabited T] (s : PrimitiveSmallSet T)
    (h : PrimitiveSmallSet.Reachable s) : SeqInv s.Buf s.Capacity s.Size := by
  induction h with
  | empty => exact ⟨rfl, Nat.le_refl _, Nat.two_pow_pos 32⟩
  | add value _ e ih => exact PrimitiveSmallSet_Add_partial _ _ value ih e
  | @remove s s1 index _ e ih =>
    obtain ⟨c1, e1, hinv⟩ := CompactSet_Remove_inv s.toCompactSet index ih
    simp only [PrimitiveSmallSet.Remove, e1, Option.some.injEq] at e
    rw [← e]
    exact hinv
  | clear _ ih => exact ⟨ih.1, Nat.zero_le _, ih.2.2⟩
  | @assign s other w1 _ _ e ih1 ih2 =>
    obtain ⟨d1, e1, hinv, _⟩ := PrimitiveSmallSet_assign_inv s other ih1 ih2
    rw [e] at e1
    rw [Option.some.inj e1]
    exact hinv
  | @selfAssign s w1 _ e ih =>
    obtain ⟨d1, e1, hinv, _⟩ := PrimitiveSmallSet_assign_self_inv s ih
    rw [e] at e1
    rw [Option.some.inj e1]
    exact hinv

theorem Array_Reachable_inv {T : Type} [Inhabited T] (a : Array T) (h : Array.Reachable a) :
    SeqInv a.Buf a.Capacity a.Size := by
  induction h with
  | empty => exact ⟨rfl, Nat.le_refl _, Nat.two_pow_pos 32⟩
  | add value _ e ih => exact Array_Add_partial _ _ value ih e
  | @remove a a1 index _ e ih =>
    obtain ⟨c1, e1, hinv⟩ := Array_Remove_inv a index ih
    rw [e] at e1
    rw [Option.some.inj e1]
    exact hinv
  | clear _ ih => exact ⟨ih.1, Nat.zero_le _, ih.2.2⟩
  | @assign a other w1 _ _ e ih1 ih2 =>
    obtain ⟨d1, e1, hinv, _⟩ := Array_CopyFrom_inv a other ih1 ih2
    rw [e] at e1
    rw [Option.some.inj e1]
    exact hinv
  | @selfAssign a w1 _ e ih =>
    rw [Array_CopyFrom_self a] at e
    rw [← Option.some.inj e]
    exact ⟨ih.1, Nat.zero_le _, ih.2.2⟩

theorem Array_CapacityIncrement_eq {T : Type} (a : Array T) (h : a.Capacity < 2 ^ 32) :
    a.CapacityIncrement =
      if a.Capacity = 0 then 1
      else if 2 * a.Capacity < 2 ^ 32 then 2 * a.Capacity else 2 * a.Capacity - 2 ^ 32 := by
  unfold Array.CapacityIncrement u32
  by_cases h0 : a.Capacity = 0
  · simp [h0]
  · have hpos : a.Capacity > 0 := Nat.pos_of_ne_zero h0
    simp only [hpos, h0, if_true, if_false]
    split <;> omega

/-! ## The claims -/

/-- C1: on a `Map` and on a `RefMap` initialised with a bucket count > 0,
every sequence of `Insert(key, value)` calls runs without leaving defined
behaviour, and `Find(k)` afterwards points at the value of the last
`Insert(k, .)` of the sequence, or is null when `k` was never inserted.  The
insertion order of distinct keys therefore does not matter. -/
theorem Map_Find_after_Inserts {K V : Type} [DecidableEq K] [Inhabited V] (hash : K → Nat)
    (hashSize : Nat) (h : 0 < hashSize) (ops : List (K × V)) (k : K) :
    (∃ m, Map.InsertAll hash (Map.Init hashSize) ops = some m ∧
        Map.Find hash m k = some (lastInserted k ops)) ∧
    (∃ m, RefMap.InsertAll hash (RefMap.Init hashSize) ops = some m ∧
        RefMap.Find hash m k = some (lastInserted k ops)) := by
  constructor
  · obtain ⟨m, e, _, _, f⟩ := Map_InsertAll_spec hash ops (Map.Init hashSize) h
      (by simp [Map.Init])
    refine ⟨m, e, ?_⟩
    rw [f k]
    cases lastInserted k ops with
    | some w => rfl
    | none => exact findTable_replicate hash hashSize h k
  · obtain ⟨m, e, _, _, f⟩ := RefMap_InsertAll_spec hash ops (RefMap.Init hashSize) h
      (by simp [RefMap.Init])
    refine ⟨m, e, ?_⟩
    rw [f k]
    cases lastInserted k ops with
    | some w => rfl
    | none => exact findTable_replicate hash hashSize h k

/-- Witness of C1: three inserts into four buckets, two keys colliding and one
key inserted twice. -/
theorem Map_Find_after_Inserts_witness :
    (0 < 4) ∧
    ((∃ m, Map.InsertAll (fun k : Nat => k) (Map.Init 4) [(1, 10), (5, 50), (1, 11)] = some m ∧
        Map.Find (fun k : Nat => k) m 5 = some (lastInserted 5 [(1, 10), (5, 50), (1, 11)])) ∧
    (∃ m, RefMap.InsertAll (fun k : Nat => k) (RefMap.Init 4) [(1, 10), (5, 50), (1, 11)] = some m ∧
        RefMap.Find (fun k : Nat => k) m 5 = some (lastInserted 5 [(1, 10), (5, 50), (1, 11)]))) :=
  ⟨by decide, Map_Find_after_Inserts (fun k : Nat => k) 4 (by decide) [(1, 10), (5, 50), (1, 11)] 5⟩

/-- C2: on a `Map` and on a `RefMap` initialised with a bucket count > 0 and
brought to any state by a sequence of `Insert(key)` and `Insert(key, value)`
calls (earlier `Clear()` calls allowed as well), `Clear()` runs and
afterwards `Find(k)` is null for every key `k`, `Count()` is 0, the bucket
count is the one before the call and every bucket is empty. -/
theorem Map_Clear_after_Inserts {K V : Type} [DecidableEq K] [Inhabited V] (hash : K → Nat)
    (hashSize : Nat) (h : 0 < hashSize) (ops : List (MapOp K V)) :
    (∃ m m1, Map.run hash (Map.Init hashSize) ops = some m ∧ Map.Clear m = some m1 ∧
        (∀ k, Map.Find hash m1 k = some none) ∧ Map.Count m1 = 0 ∧
        m1.HashSize = m.HashSize ∧ m1.HashSize = hashSize ∧
        m1.HashTable = List.replicate hashSize []) ∧
    (∃ m m1, RefMap.run hash (RefMap.Init hashSize) ops = some m ∧ RefMap.Clear m = some m1 ∧
        (∀ k, RefMap.Find hash m1 k = some none) ∧ RefMap.Count m1 = 0 ∧
        m1.HashSize = m.HashSize ∧ m1.HashSize = hashSize ∧
        m1.HashTable = List.replicate hashSize []) := by
  constructor
  · obtain ⟨m, e, s1, l1⟩ := Map_run_wf hash ops (Map.Init hashSize) h (by simp [Map.Init])
    have hs : m.HashSize = hashSize := s1
    have hl : m.HashTable.length = hashSize := l1
    have hc := clearLoop_all m.HashTable
    rw [hl] at hc
    refine ⟨m, { m with ItemCount := 0, HashTable := List.replicate hashSize [] }, e, ?_,
      fun k => ?_, rfl, rfl, hs, rfl⟩
    · simp [Map.Clear, hs, hc]
    · simp only [Map.Find, hs]
      exact findTable_replicate hash hashSize h k
  · obtain ⟨m, e, s1, l1⟩ := RefMap_run_wf hash ops (RefMap.Init hashSize) h
      (by simp [RefMap.Init])
    have hs : m.HashSize = hashSize := s1
    have hl : m.HashTable.length = hashSize := l1
    have hc := clearLoop_all m.HashTable
    rw [hl] at hc
    refine ⟨m, { m with ItemCount := 0, HashTable := List.replicate hashSize [] }, e, ?_,
      fun k => ?_, rfl, rfl, hs, rfl⟩
    · simp [RefMap.Clear, hs, hc]
    · simp only [RefMap.Find, hs]
      exact findTable_replicate hash hashSize h k

/-- Witness of C2: a map of four buckets holding two colliding keys. -/
theorem Map_Clear_after_Inserts_witness :
    (0 < 4) ∧
    ((∃ m m1, Map.run (fun k : Nat => k) (Map.Init 4)
          [MapOp.insert 1 10, MapOp.insertKey 5] = some m ∧ Map.Clear m = some m1 ∧
        (∀ k, Map.Find (fun k : Nat => k) m1 k = some none) ∧ Map.Count m1 = 0 ∧
        m1.HashSize = m.HashSize ∧ m1.HashSize = 4 ∧
        m1.HashTable = List.replicate 4 []) ∧
    (∃ m m1, RefMap.run (fun k : Nat => k) (RefMap.Init 4)
          [MapOp.insert 1 10, MapOp.insertKey 5] = some m ∧ RefMap.Clear m = some m1 ∧
        (∀ k, RefMap.Find (fun k : Nat => k) m1 k = some none) ∧ RefMap.Count m1 = 0 ∧
        m1.HashSize = m.HashSize ∧ m1.HashSize = 4 ∧
        m1.HashTable = List.replicate 4 [])) :=
  ⟨by decide, Map_Clear_after_Inserts (fun k : Nat => k) 4 (by decide)
    [MapOp.insert 1 10, MapOp.insertKey 5]⟩

/-- C3 fails as stated: with `CapacityIncrementSize = 2 ^ 32`, a nonzero 64-bit
value whose low 32 bits are zero, `CapacityIncrement()` of the empty `Set` is
0, the reallocation yields no slot, and the first `Add` stores outside the
allocation: no state with `Size == 1` and `Capacity >= 1` results. -/
theorem Set_Add_truncated_increment :
    (2 ^ 32 ≠ 0) ∧ (Set.empty (2 ^ 32) : Set Nat).CapacityIncrement = 0 ∧
    Set.AddAll (Set.empty (2 ^ 32)) [(7 : Nat)] = none ∧
    ¬ ∃ s, Set.AddAll (Set.empty (2 ^ 32)) [(7 : Nat)] = some s ∧ s.Size = 1 ∧
        s.Capacity ≥ 1 ∧ s.toCompactSet.get 0 = some 7 := by
  have h : Set.AddAll (Set.empty (2 ^ 32)) [(7 : Nat)] = none := by decide
  refine ⟨by decide, by decide, h, ?_⟩
  rintro ⟨s, hs, _⟩
  rw [h] at hs
  exact Option.noConfusion hs

/-- C3 as amended: for a `Set` that starts empty, with `CapacityIncrementSize`
zero, or with low 32 bits `k` nonzero and `k * ceil(n / k) < 2 ^ 32`, and for
a list of `n < 2 ^ 31` values, the successive `Add` calls all run, and
afterwards `Size == n`, `Capacity >= n` (the buffer having `Capacity` slots)
and the element at every index `i < n` is the `i`-th added value. -/
theorem Set_Add_all {T : Type} [Inhabited T] (capacityIncrementSize : Nat) (vs : List T)
    (hn : vs.length < 2 ^ 31) (hfit : incrementFits capacityIncrementSize vs.length) :
    ∃ s, Set.AddAll (Set.empty capacityIncrementSize) vs = some s ∧ s.Size = vs.length ∧
      s.Capacity ≥ vs.length ∧ s.Buf.length = s.Capacity ∧
      ∀ i, i < vs.length → s.toCompactSet.get i = vs[i]? := by
  obtain ⟨s, e, l, z, n, t, _⟩ := Set_AddAll_spec vs.length (by omega) vs
    (Set.empty capacityIncrementSize) rfl (Nat.le_refl _)
    (by simp [Set.empty, CompactSet.empty]) hfit
    (fun _ => by simp [Set.empty, CompactSet.empty])
  have hsize : s.Size = vs.length := by
    rw [n]
    simp [Set.empty, CompactSet.empty]
  refine ⟨s, e, hsize, by omega, l, fun i hi => ?_⟩
  have ht : s.Buf.take vs.length = vs := by
    rw [← hsize, t]
    simp [Set.empty, CompactSet.empty]
  show s.Buf[i]? = vs[i]?
  rw [← List.getElem?_take_of_lt hi, ht]

/-- Witness of C3 as amended: three values added with an explicit increment
of 2. -/
theorem Set_Add_all_witness :
    ∃ s, Set.AddAll (Set.empty 2) [(5 : Nat), 6, 7] = some s ∧
      s.Size = [(5 : Nat), 6, 7].length ∧
      s.Capacity ≥ [(5 : Nat), 6, 7].length ∧ s.Buf.length = s.Capacity ∧
      ∀ i, i < [(5 : Nat), 6, 7].length → s.toCompactSet.get i = [(5 : Nat), 6, 7][i]? :=
  Set_Add_all 2 [(5 : Nat), 6, 7] (by decide) (by decide)

/-- C4: for an `Array` (whatever its two reserved fields hold) and a
`PrimitiveSmallSet` that start empty (`Size = Capacity = 0`, no buffer) and a
list of `n <= 2 ^ 31` values, the successive `Add` calls all run, and
afterwards `Size == n`, `Capacity >= n` (the buffer having `Capacity` slots)
and the element at every index `i < n` is the `i`-th added value. -/
theorem Array_Add_all {T : Type} [Inhabited T] (vs : List T) (hn : vs.length ≤ 2 ^ 31) :
    (∀ a0 : Array T, a0.Buf = [] → a0.Capacity = 0 → a0.Size = 0 →
      ∃ a, Array.AddAll a0 vs = some a ∧ a.Size = vs.length ∧
        a.Capacity ≥ vs.length ∧ a.Buf.length = a.Capacity ∧
        ∀ i, i < vs.length → a.get i = vs[i]?) ∧
    (∃ s, PrimitiveSmallSet.AddAll PrimitiveSmallSet.empty vs = some s ∧ s.Size = vs.length ∧
      s.Capacity ≥ vs.length ∧ s.Buf.length = s.Capacity ∧
      ∀ i, i < vs.length → s.toCompactSet.get i = vs[i]?) := by
  constructor
  · intro a0 hb hc hs
    obtain ⟨a, e, l, z, n, t⟩ := Array_AddAll_spec vs a0 (by rw [hb, hc]; rfl) (by omega)
      (by omega)
    have hsize : a.Size = vs.length := by
      rw [n, hs]
      omega
    refine ⟨a, e, hsize, by omega, l, fun i hi => ?_⟩
    have ht : a.Buf.take vs.length = vs := by
      rw [← hsize, t, hb]
      simp
    show a.Buf[i]? = vs[i]?
    rw [← List.getElem?_take_of_lt hi, ht]
  · obtain ⟨a, e, l, z, n, t⟩ := PrimitiveSmallSet_AddAll_spec vs PrimitiveSmallSet.empty rfl
      (Nat.le_refl _) (by simp [PrimitiveSmallSet.empty, CompactSet.empty]; omega)
    have hsize : a.Size = vs.length := by
      rw [n]
      simp [PrimitiveSmallSet.empty, CompactSet.empty]
    refine ⟨a, e, hsize, by omega, l, fun i hi => ?_⟩
    have ht : a.Buf.take vs.length = vs := by
      rw [← hsize, t]
      simp [PrimitiveSmallSet.empty, CompactSet.empty]
    show a.Buf[i]? = vs[i]?
    rw [← List.getElem?_take_of_lt hi, ht]

/-- Witness of C4: three values, which force the growths 1, 2 and 4. -/
theorem Array_Add_all_witness :
    (∃ a, Array.AddAll (Array.mk [] 0 8 0 9) [(5 : Nat), 6, 7] = some a ∧
      a.Size = [(5 : Nat), 6, 7].length ∧
      a.Capacity ≥ [(5 : Nat), 6, 7].length ∧ a.Buf.length = a.Capacity ∧
      ∀ i, i < [(5 : Nat), 6, 7].length → a.get i = [(5 : Nat), 6, 7][i]?) ∧
    (∃ s, PrimitiveSmallSet.AddAll PrimitiveSmallSet.empty [(5 : Nat), 6, 7] = some s ∧
      s.Size = [(5 : Nat), 6, 7].length ∧
      s.Capacity ≥ [(5 : Nat), 6, 7].length ∧ s.Buf.length = s.Capacity ∧
      ∀ i, i < [(5 : Nat), 6, 7].length → s.toCompactSet.get i = [(5 : Nat), 6, 7][i]?) :=
  ⟨(Array_Add_all [(5 : Nat), 6, 7] (by decide)).1 (Array.mk [] 0 8 0 9) rfl rfl rfl,
   (Array_Add_all [(5 : Nat), 6, 7] (by decide)).2⟩

/-- C5 fails as stated, in both of its parts: from capacity 0 and with no
explicit increment the 33rd forced growth gives capacity 0, not `2 ^ 32`
(the product `2 * Capacity` is 32-bit); and with the explicit increment
`2 ^ 32` a growth of the empty `Set` gives capacity 0, not `0 + 2 ^ 32` (the
increment is cast to `uint32_t`). -/
theorem Set_CapacityIncrement_wraps :
    (∃ s, Set.GrowTimes 33 (Set.empty 0 : Set Nat) = some s ∧ s.Capacity = 0 ∧
      s.Capacity ≠ 2 ^ (33 - 1)) ∧
    (∃ s, Set.Grow (Set.empty (2 ^ 32) : Set Nat) = some s ∧ s.Capacity = 0 ∧
      s.Capacity ≠ (Set.empty (2 ^ 32) : Set Nat).Capacity + 2 ^ 32) := by
  constructor
  · obtain ⟨s, e, _, _, c⟩ := Set_GrowTimes_spec 33 (Set.empty 0 : Set Nat) rfl
    have h0 : s.Capacity = 0 := by
      have hc : s.Capacity = (capacityStep 0)^[32 + 1] 0 := c
      rw [hc, Function.iterate_succ_apply', doubling_iterate 31 (by decide)]
      decide
    exact ⟨s, e, h0, by rw [h0]; decide⟩
  · exact ⟨{ toCompactSet := { Buf := [], Capacity := 0, Size := 0 },
             CapacityIncrementSize := 2 ^ 32 }, by decide, rfl, by decide⟩

/-- C5 as amended: from the empty `Set` with no explicit increment, the
`j`-th successive forced growth gives capacity `2 ^ (j - 1)` for
`1 <= j <= 32`; with an explicit nonzero increment `k`, a growth of a `Set`
whose contents fit its buffer gives the capacity
`(Capacity + k mod 2 ^ 32) mod 2 ^ 32`, which is `Capacity + k` whenever
`Capacity + k < 2 ^ 32`. -/
theorem Set_CapacityIncrement_policy {T : Type} [Inhabited T] :
    (∀ j, 1 ≤ j → j ≤ 32 →
      ∃ s, Set.GrowTimes j (Set.empty 0 : Set T) = some s ∧ s.Capacity = 2 ^ (j - 1)) ∧
    (∀ s : Set T, s.Size ≤ s.Buf.length → s.CapacityIncrementSize ≠ 0 →
      ∃ s1, Set.Grow s = some s1 ∧
        s1.Capacity = (s.Capacity + s.CapacityIncrementSize % 2 ^ 32) % 2 ^ 32 ∧
        (s.Capacity + s.CapacityIncrementSize < 2 ^ 32 →
          s1.Capacity = s.Capacity + s.CapacityIncrementSize)) := by
  constructor
  · intro j h1 h32
    obtain ⟨s, e, _, _, c⟩ := Set_GrowTimes_spec j (Set.empty 0 : Set T) rfl
    refine ⟨s, e, ?_⟩
    obtain ⟨i, rfl⟩ : ∃ i, j = i + 1 := ⟨j - 1, by omega⟩
    rw [c]
    exact doubling_iterate i (by omega)
  · intro s hsz hk
    obtain ⟨s1, e, c, _⟩ := Set_Grow_spec s hsz
    have hc : s1.Capacity = (s.Capacity + s.CapacityIncrementSize % 2 ^ 32) % 2 ^ 32 := by
      rw [c]
      simp [Set.CapacityIncrement, hk, u32]
    refine ⟨s1, e, hc, fun hlt => ?_⟩
    have h1 : s.CapacityIncrementSize < 2 ^ 32 := by omega
    rw [hc, Nat.mod_eq_of_lt h1, Nat.mod_eq_of_lt hlt]

/-- Witness of C5 as amended: the third doubling growth, and a growth by the
explicit increment 3 of a `Set` holding two elements. -/
theorem Set_CapacityIncrement_policy_witness :
    (∃ s, Set.GrowTimes 3 (Set.empty 0 : Set Nat) = some s ∧ s.Capacity = 2 ^ (3 - 1)) ∧
    (∃ s1, Set.Grow (Set.mk (CompactSet.mk [5, 6] 2 2) 3) = some s1 ∧
      s1.Capacity = ((Set.mk (CompactSet.mk [5, 6] 2 2) 3).Capacity +
        (Set.mk (CompactSet.mk [5, 6] 2 2) 3).CapacityIncrementSize % 2 ^ 32) % 2 ^ 32 ∧
      ((Set.mk (CompactSet.mk [5, 6] 2 2) 3).Capacity +
          (Set.mk (CompactSet.mk [5, 6] 2 2) 3).CapacityIncrementSize < 2 ^ 32 →
        s1.Capacity = (Set.mk (CompactSet.mk [5, 6] 2 2) 3).Capacity +
          (Set.mk (CompactSet.mk [5, 6] 2 2) 3).CapacityIncrementSize)) :=
  ⟨(Set_CapacityIncrement_policy (T := Nat)).1 3 (by decide) (by decide),
   (Set_CapacityIncrement_policy (T := Nat)).2 (Set.mk (CompactSet.mk [5, 6] 2 2) 3)
     (by decide) (by decide)⟩

/-- C6: on a `CompactSet` (hence on `Set`, `ObjectSet`, `PrimitiveSet` and
`PrimitiveSmallSet`, which inherit `Remove`) and on an `Array` whose buffer
has `Capacity` slots and whose contents are the first `Size <= Capacity`
slots, `Remove(i)` with `i < Size` runs, leaves `Size - 1` elements, which are
the former contents with the element at position `i` erased (elements before
`i` untouched, later ones one slot down), and leaves `Capacity` unchanged. -/
theorem Remove_erases_index {T : Type} (i : Nat) :
    (∀ s : CompactSet T, s.Buf.length = s.Capacity → s.Size ≤ s.Capacity → i < s.Size →
      ∃ s1, s.Remove i = some s1 ∧ s1.Size = s.Size - 1 ∧ s1.Capacity = s.Capacity ∧
        s1.Buf.length = s1.Capacity ∧
        s1.Buf.take s1.Size = (s.Buf.take s.Size).eraseIdx i ∧
        (∀ j, j < i → s1.get j = s.get j) ∧
        (∀ j, i ≤ j → j < s.Size - 1 → s1.get j = s.get (j + 1))) ∧
    (∀ a : Array T, a.Buf.length = a.Capacity → a.Size ≤ a.Capacity → i < a.Size →
      ∃ a1, a.Remove i = some a1 ∧ a1.Size = a.Size - 1 ∧ a1.Capacity = a.Capacity ∧
        a1.Buf.length = a1.Capacity ∧
        a1.Buf.take a1.Size = (a.Buf.take a.Size).eraseIdx i ∧
        (∀ j, j < i → a1.get j = a.get j) ∧
        (∀ j, i ≤ j → j < a.Size - 1 → a1.get j = a.get (j + 1))) := by
  constructor
  · intro s hlen hsz hi
    obtain ⟨r, e, l, g⟩ := shiftDownLoop_spec (s.Size - 1 - i) i s.Buf (by omega)
    obtain ⟨r2, e2, _, t2⟩ := shiftDownLoop_remove s.Buf s.Size i (by omega) hi
    have hr : r2 = r := by rw [e] at e2; exact (Option.some.inj e2).symm
    subst hr
    have hge : ¬ i ≥ s.Size := by omega
    refine ⟨{ s with Buf := r2, Size := s.Size - 1 }, ?_, rfl, rfl, ?_, t2, ?_, ?_⟩
    · simp [CompactSet.Remove, hge, e]
    · simp [l, hlen]
    · intro j hj
      have h3 : ¬ (i ≤ j ∧ j < i + (s.Size - 1 - i)) := by omega
      simp [CompactSet.get, g j, h3]
    · intro j hj1 hj2
      have h3 : i ≤ j ∧ j < i + (s.Size - 1 - i) := by omega
      simp [CompactSet.get, g j, h3]
  · intro a hlen hsz hi
    obtain ⟨r, e, l, g⟩ := shiftDownLoop_spec (a.Size - 1 - i) i a.Buf (by omega)
    obtain ⟨r2, e2, _, t2⟩ := shiftDownLoop_remove a.Buf a.Size i (by omega) hi
    have hr : r2 = r := by rw [e] at e2; exact (Option.some.inj e2).symm
    subst hr
    have hge : ¬ i ≥ a.Size := by omega
    refine ⟨{ a with Buf := r2, Size := a.Size - 1 }, ?_, rfl, rfl, ?_, t2, ?_, ?_⟩
    · simp [Array.Remove, hge, e]
    · simp [l, hlen]
    · intro j hj
      have h3 : ¬ (i ≤ j ∧ j < i + (a.Size - 1 - i)) := by omega
      simp [Array.get, g j, h3]
    · intro j hj1 hj2
      have h3 : i ≤ j ∧ j < i + (a.Size - 1 - i) := by omega
      simp [Array.get, g j, h3]

/-- Witness of C6: removing index 1 of `[5, 6, 7]` held in a buffer of four
slots, in a `CompactSet` and in an `Array`. -/
theorem Remove_erases_index_witness :
    (∃ s1, (CompactSet.mk [5, 6, 7, 0] 4 3).Remove 1 = some s1 ∧ s1.Size = 3 - 1 ∧
      s1.Capacity = 4 ∧ s1.Buf.length = s1.Capacity ∧
      s1.Buf.take s1.Size = (([5, 6, 7, 0] : List Nat).take 3).eraseIdx 1 ∧
      (∀ j, j < 1 → s1.get j = (CompactSet.mk [5, 6, 7, 0] 4 3).get j) ∧
      (∀ j, 1 ≤ j → j < 3 - 1 → s1.get j = (CompactSet.mk [5, 6, 7, 0] 4 3).get (j + 1))) ∧
    (∃ a1, (Array.mk [5, 6, 7, 0] 4 0 3 0).Remove 1 = some a1 ∧ a1.Size = 3 - 1 ∧
      a1.Capacity = 4 ∧ a1.Buf.length = a1.Capacity ∧
      a1.Buf.take a1.Size = (([5, 6, 7, 0] : List Nat).take 3).eraseIdx 1 ∧
      (∀ j, j < 1 → a1.get j = (Array.mk [5, 6, 7, 0] 4 0 3 0).get j) ∧
      (∀ j, 1 ≤ j → j < 3 - 1 → a1.get j = (Array.mk [5, 6, 7, 0] 4 0 3 0).get (j + 1))) :=
  ⟨(Remove_erases_index 1).1 (CompactSet.mk [5, 6, 7, 0] 4 3) (by decide) (by decide)
      (by decide),
   (Remove_erases_index 1).2 (Array.mk [5, 6, 7, 0] 4 0 3 0) (by decide) (by decide)
      (by decide)⟩

/-- C7: on a `CompactSet` (and the types that inherit its `Remove`) and on an
`Array`, `Remove(index)` with `index >= Size`, an empty sequence included,
returns the object as it was: `Size`, `Capacity` and every slot of the buffer
are unchanged (the diagnostic it logs is not part of the state). -/
theorem Remove_out_of_range_noop {T : Type} (index : Nat) :
    (∀ s : CompactSet T, index ≥ s.Size → s.Remove index = some s) ∧
    (∀ a : Array T, index ≥ a.Size → a.Remove index = some a) := by
  constructor
  · intro s h
    simp [CompactSet.Remove, h]
  · intro a h
    simp [Array.Remove, h]

/-- Witness of C7: index 3 on a sequence of three elements, and index 0 on an
empty `Array`. -/
theorem Remove_out_of_range_noop_witness :
    (CompactSet.mk [5, 6, 7, 0] 4 3).Remove 3 = some (CompactSet.mk [5, 6, 7, 0] 4 3) ∧
    (Array.empty : Array Nat).Remove 0 = some Array.empty :=
  ⟨(Remove_out_of_range_noop 3).1 (CompactSet.mk [5, 6, 7, 0] 4 3) (by decide),
   (Remove_out_of_range_noop 0).2 Array.empty (by decide)⟩

/-- C9 fails as stated: in the self-assignment `s = s` of a `CompactSet` that
holds three elements in a buffer of capacity 4, `Reallocate(other.Size)`
replaces the buffer of the one object by a buffer of three slots, so the
capacity of the source changes from 4 to 3. -/
theorem CompactSet_self_assign_shrinks :
    SeqInv (CompactSet.mk [5, 6, 7, 0] 4 3).Buf (CompactSet.mk [5, 6, 7, 0] 4 3).Capacity
      (CompactSet.mk [5, 6, 7, 0] 4 3).Size ∧
    ∃ s1, CompactSet.assign (Operands.aliased (CompactSet.mk [5, 6, 7, 0] 4 3)) =
        some (Operands.aliased s1) ∧
      s1.Capacity = 3 ∧ s1.Capacity ≠ (CompactSet.mk [5, 6, 7, 0] 4 3).Capacity ∧
      s1.Buf ≠ (CompactSet.mk [5, 6, 7, 0] 4 3).Buf :=
  ⟨by decide, CompactSet.mk [5, 6, 7] 3 3, by decide, rfl, by decide, by decide⟩

/-- C9 as amended: for a `CompactSet` source `s` whose contents fit its buffer
(`Set`, `ObjectSet` and `PrimitiveSet` copy their `CompactSet` base this way)
and a destination `d` that is another object than `s`, in any prior state
whose contents fit its buffer, copy assignment and copy construction run, and
afterwards `d.Size == s.Size`, `d.Capacity == s.Size`, `d[i] == s[i]` for
every `i < s.Size`, and the source is as it was.  The self-assignment `s = s`
runs and keeps `Size` and the elements `s[i]`, `i < Size`, while the buffer
is replaced by one of `Size` slots: `Capacity` becomes `Size`. -/
theorem CompactSet_copy_assign {T : Type} [Inhabited T] (d s : CompactSet T)
    (hd : d.Size ≤ d.Buf.length) (hlen : s.Buf.length = s.Capacity) (hsz : s.Size ≤ s.Capacity) :
    (∃ d1, CompactSet.assign (Operands.distinct d s) = some (Operands.distinct d1 s) ∧
      d1.Size = s.Size ∧ d1.Capacity = s.Size ∧ d1.Buf.length = d1.Capacity ∧
      (∀ i, i < s.Size → d1.get i = s.get i)) ∧
    (∃ c, CompactSet.copy s = some (Operands.distinct c s) ∧ c.Size = s.Size ∧
      c.Capacity = s.Size ∧ c.Buf.length = c.Capacity ∧
      (∀ i, i < s.Size → c.get i = s.get i)) ∧
    (∃ s1, CompactSet.assign (Operands.aliased s) = some (Operands.aliased s1) ∧
      s1.Size = s.Size ∧ s1.Capacity = s.Size ∧ s1.Buf.length = s1.Capacity ∧
      (∀ i, i < s.Size → s1.get i = s.get i)) := by
  have main : ∀ d : CompactSet T, d.Size ≤ d.Buf.length →
      ∃ d1, CompactSet.assign (Operands.distinct d s) = some (Operands.distinct d1 s) ∧
        d1.Size = s.Size ∧ d1.Capacity = s.Size ∧ d1.Buf.length = d1.Capacity ∧
        (∀ i, i < s.Size → d1.get i = s.get i) := by
    intro d hd
    obtain ⟨r, e, l, g⟩ := CompactSet_assign_distinct d s hd (by omega)
    exact ⟨{ Buf := r, Capacity := s.Size, Size := s.Size }, e, rfl, rfl, l, fun i hi => g i hi⟩
  refine ⟨main d hd, main CompactSet.empty (Nat.le_refl _), ?_⟩
  refine ⟨{ Buf := s.Buf.take s.Size, Capacity := s.Size, Size := s.Size },
    CompactSet_assign_self s (by omega), rfl, rfl, ?_, ?_⟩
  · show (s.Buf.take s.Size).length = s.Size
    rw [List.length_take]
    omega
  · intro i hi
    show (s.Buf.take s.Size)[i]? = s.Buf[i]?
    exact List.getElem?_take_of_lt hi

/-- Witness of C9 as amended: a source of two elements in a buffer of four
slots, copied over a destination holding one element, copied into a new
object, and assigned to itself. -/
theorem CompactSet_copy_assign_witness :
    (∃ d1, CompactSet.assign (Operands.distinct (CompactSet.mk [9] 1 1)
          (CompactSet.mk [5, 6, 0, 0] 4 2)) =
        some (Operands.distinct d1 (CompactSet.mk [5, 6, 0, 0] 4 2)) ∧
      d1.Size = (CompactSet.mk [5, 6, 0, 0] 4 2).Size ∧
      d1.Capacity = (CompactSet.mk [5, 6, 0, 0] 4 2).Size ∧ d1.Buf.length = d1.Capacity ∧
      (∀ i, i < (CompactSet.mk [5, 6, 0, 0] 4 2).Size →
        d1.get i = (CompactSet.mk [5, 6, 0, 0] 4 2).get i)) ∧
    (∃ c, CompactSet.copy (CompactSet.mk [5, 6, 0, 0] 4 2) =
        some (Operands.distinct c (CompactSet.mk [5, 6, 0, 0] 4 2)) ∧
      c.Size = (CompactSet.mk [5, 6, 0, 0] 4 2).Size ∧
      c.Capacity = (CompactSet.mk [5, 6, 0, 0] 4 2).Size ∧ c.Buf.length = c.Capacity ∧
      (∀ i, i < (CompactSet.mk [5, 6, 0, 0] 4 2).Size →
        c.get i = (CompactSet.mk [5, 6, 0, 0] 4 2).get i)) ∧
    (∃ s1, CompactSet.assign (Operands.aliased (CompactSet.mk [5, 6, 0, 0] 4 2)) =
        some (Operands.aliased s1) ∧
      s1.Size = (CompactSet.mk [5, 6, 0, 0] 4 2).Size ∧
      s1.Capacity = (CompactSet.mk [5, 6, 0, 0] 4 2).Size ∧ s1.Buf.length = s1.Capacity ∧
      (∀ i, i < (CompactSet.mk [5, 6, 0, 0] 4 2).Size →
        s1.get i = (CompactSet.mk [5, 6, 0, 0] 4 2).get i)) :=
  CompactSet_copy_assign (CompactSet.mk [9] 1 1) (CompactSet.mk [5, 6, 0, 0] 4 2)
    (by decide) (by decide) (by decide)

/-- C10 fails as stated: in `BitArray<134217728>` (`2 ^ 27` words) the bound
`TDWords * 32` of the index check is `2 ^ 32`, which is 0 as an `unsigned`
product, so `Set(1)` takes the rejecting branch and returns false although
`1 <= 1 <= 32 * w`; the bit stays unset. -/
theorem BitArray_Set_bound_wraps :
    (1 ≤ 1 ∧ 1 ≤ 32 * 2 ^ 27) ∧
    (BitArray.zero (2 ^ 27)).Set 1 = some (false, BitArray.zero (2 ^ 27)) ∧
    (BitArray.zero (2 ^ 27)).IsSet 1 = some false := by
  have h : BitArray.outOfRange (2 ^ 27) 1 = true := by decide
  refine ⟨by decide, ?_, ?_⟩
  · rw [BitArray.Set, if_pos h]
  · rw [BitArray.IsSet, if_pos h]

/-- C10 as amended: for a `BitArray` of `w` words with `32 * w < 2 ^ 32`, in
any state, and every index `i` with `1 <= i <= 32 * w` (those that map to
bit 31 of a word included), `Set(i)` reads and writes inside `Bits`, returns
true, and `IsSet(i)` is true afterwards. -/
theorem BitArray_Set_then_IsSet {w : Nat} (b : BitArray w) (i : Nat) (hw : 32 * w < 2 ^ 32)
    (h1 : 1 ≤ i) (h2 : i ≤ 32 * w) :
    ∃ b1, b.Set i = some (true, b1) ∧ b1.IsSet i = some true := by
  have hr : BitArray.outOfRange w i = false := by
    have hu : u32 (w * 32) = w * 32 := u32_of_lt (by omega)
    have hi0 : i ≠ 0 := by omega
    have hi1 : ¬ i > w * 32 := by omega
    simp [BitArray.outOfRange, hu, hi0, hi1]
  have hidx : (i - 1) >>> 5 < b.Bits.length := by
    rw [b.length_eq]
    exact word_index_lt h1 h2
  obtain ⟨k, _, hk⟩ := mask_eq i
  have hm : BitArray.mask i ≠ 0 := by
    rw [hk]
    exact Nat.pos_iff_ne_zero.mp (Nat.two_pow_pos k)
  refine ⟨{ Bits := b.Bits.set ((i - 1) >>> 5) (b.Bits[(i - 1) >>> 5] ||| BitArray.mask i),
            length_eq := by rw [List.length_set]; exact b.length_eq }, ?_, ?_⟩
  · simp [BitArray.Set, hr, List.getElem?_eq_getElem hidx]
  · simp [BitArray.IsSet, hr, List.getElem?_set_self hidx, lor_land_mask, hm]

/-- Witness of C10 as amended: index 64, bit 31 of the second of two words. -/
theorem BitArray_Set_then_IsSet_witness :
    ∃ b1, (BitArray.zero 2).Set 64 = some (true, b1) ∧ b1.IsSet 64 = some true :=
  BitArray_Set_then_IsSet (BitArray.zero 2) 64 (by decide) (by decide) (by decide)

/-- C11: for a `BitArray` of `w` words in any state and an index that is 0 or
greater than `32 * w`, `Set(index)` and `Clear(index)` return false and leave
`Bits` as it was, and `IsSet(index)` returns false.  Moreover, for every
index whatsoever the three functions stay inside `Bits`: the guard lets
through only indices whose word `(index - 1) >> 5` is below `w`. -/
theorem BitArray_invalid_index_noop {w : Nat} (b : BitArray w) (index : Nat)
    (h : index = 0 ∨ index > 32 * w) :
    (b.Set index = some (false, b) ∧ b.Clear index = some (false, b) ∧
      b.IsSet index = some false) ∧
    (∀ j, (b.Set j).isSome = true ∧ (b.Clear j).isSome = true ∧ (b.IsSet j).isSome = true) := by
  have hr := outOfRange_of_invalid h
  refine ⟨⟨by rw [BitArray.Set, if_pos hr], by rw [BitArray.Clear, if_pos hr],
    by rw [BitArray.IsSet, if_pos hr]⟩, fun j => ?_⟩
  cases hj : BitArray.outOfRange w j with
  | true => simp [BitArray.Set, BitArray.Clear, BitArray.IsSet, hj]
  | false =>
    have hidx : (j - 1) >>> 5 < b.Bits.length := by
      rw [b.length_eq]
      exact word_index_of_inRange hj
    simp [BitArray.Set, BitArray.Clear, BitArray.IsSet, hj, List.getElem?_eq_getElem hidx]

/-- Witness of C11: index 65 on a `BitArray` of two words with one bit set. -/
theorem BitArray_invalid_index_noop_witness :
    ((BitArray.mk [4, 0] rfl : BitArray 2).Set 65 = some (false, BitArray.mk [4, 0] rfl) ∧
      (BitArray.mk [4, 0] rfl : BitArray 2).Clear 65 = some (false, BitArray.mk [4, 0] rfl) ∧
      (BitArray.mk [4, 0] rfl : BitArray 2).IsSet 65 = some false) ∧
    (∀ j, ((BitArray.mk [4, 0] rfl : BitArray 2).Set j).isSome = true ∧
      ((BitArray.mk [4, 0] rfl : BitArray 2).Clear j).isSome = true ∧
      ((BitArray.mk [4, 0] rfl : BitArray 2).IsSet j).isSome = true) :=
  BitArray_invalid_index_noop (BitArray.mk [4, 0] rfl) 65 (Or.inr (by decide))

/-- C12 fails as stated: in `BitArray<134217728>` (`2 ^ 27` words) the bound
`TDWords * 32` of the index check is 0 as an `unsigned` product, so after
`Set(1)` the call `Clear(1)` takes the rejecting branch and returns false
although `1 <= 1 <= 32 * w`. -/
theorem BitArray_Clear_bound_wraps :
    (1 ≤ 1 ∧ 1 ≤ 32 * 2 ^ 27) ∧
    ∃ b1, (BitArray.zero (2 ^ 27)).Set 1 = some (false, b1) ∧
      b1.Clear 1 = some (false, b1) := by
  have h : BitArray.outOfRange (2 ^ 27) 1 = true := by decide
  refine ⟨by decide, BitArray.zero (2 ^ 27), ?_, ?_⟩
  · rw [BitArray.Set, if_pos h]
  · rw [BitArray.Clear, if_pos h]

/-- C12 as amended: for a `BitArray` of `w` words with `32 * w < 2 ^ 32`, in
any state, and every index `i` with `1 <= i <= 32 * w`, `Set(i)` followed by
`Clear(i)` both run inside `Bits`, `Clear(i)` returns true and `IsSet(i)` is
false afterwards. -/
theorem BitArray_Set_Clear_then_IsSet {w : Nat} (b : BitArray w) (i : Nat)
    (hw : 32 * w < 2 ^ 32) (h1 : 1 ≤ i) (h2 : i ≤ 32 * w) :
    ∃ b1 b2, b.Set i = some (true, b1) ∧ b1.Clear i = some (true, b2) ∧
      b2.IsSet i = some false := by
  have hr : BitArray.outOfRange w i = false := by
    have hu : u32 (w * 32) = w * 32 := u32_of_lt (by omega)
    have hi0 : i ≠ 0 := by omega
    have hi1 : ¬ i > w * 32 := by omega
    simp [BitArray.outOfRange, hu, hi0, hi1]
  have hidx : (i - 1) >>> 5 < b.Bits.length := by
    rw [b.length_eq]
    exact word_index_lt h1 h2
  refine ⟨{ Bits := b.Bits.set ((i - 1) >>> 5) (b.Bits[(i - 1) >>> 5] ||| BitArray.mask i),
            length_eq := by rw [List.length_set]; exact b.length_eq },
          { Bits := (b.Bits.set ((i - 1) >>> 5) (b.Bits[(i - 1) >>> 5] ||| BitArray.mask i)).set
              ((i - 1) >>> 5) ((b.Bits[(i - 1) >>> 5] ||| BitArray.mask i) &&& BitArray.notMask i),
            length_eq := by rw [List.length_set, List.length_set]; exact b.length_eq }, ?_, ?_, ?_⟩
  · simp [BitArray.Set, hr, List.getElem?_eq_getElem hidx]
  · simp [BitArray.Clear, hr, List.getElem?_set_self hidx]
  · simp [BitArray.IsSet, hr, List.getElem?_set_self hidx, land_notMask_land_mask]

/-- Witness of C12 as amended: index 64, bit 31 of the second of two words. -/
theorem BitArray_Set_Clear_then_IsSet_witness :
    ∃ b1 b2, (BitArray.zero 2).Set 64 = some (true, b1) ∧ b1.Clear 64 = some (true, b2) ∧
      b2.IsSet 64 = some false :=
  BitArray_Set_Clear_then_IsSet (BitArray.zero 2) 64 (by decide) (by decide) (by decide)

/-- C13: for a `MultiHashMap` that satisfies the layout invariant and every
key, the chain of the key's bucket ends at `-1`, and with fuel for at least
`Keys.Size` loop iterations `FindIndex(key)` ends: when the key is stored it
returns the first slot `i` of that chain with `Keys[i] == key`, and `Find`
holds the pointer `Values + i` into `Values`; when the key is not stored
`FindIndex` returns `-1` and `Find` is empty. -/
theorem MultiHashMap_FindIndex_follows_chain {K V : Type} [DecidableEq K] (hash : K → Nat)
    (m : MultiHashMap K V) (key : K) (hinv : MultiHashMap.LayoutInvariant hash m) :
    ∃ start slots, m.HashKeys[hash key % m.NumHashKeys.toNat]? = some start ∧
      MultiHashMap.slotChain m m.Keys.Size start = some slots ∧
      (MultiHashMap.Stored m key →
        ∃ i, MultiHashMap.firstSlotWithKey m key slots = some i ∧ i < m.Values.length ∧
          m.Keys.get i = some key ∧
          ∀ fuel, m.Keys.Size ≤ fuel →
            MultiHashMap.FindIndex hash fuel m key = some (i : Int) ∧
            MultiHashMap.Find hash fuel m key = some (some (i : Int))) ∧
      (¬ MultiHashMap.Stored m key →
        ∀ fuel, m.Keys.Size ≤ fuel →
          MultiHashMap.FindIndex hash fuel m key = some (-1) ∧
          MultiHashMap.Find hash fuel m key = some none) := by
  have hpos : 0 < m.NumHashKeys := hinv.1
  have hvals : m.Values.length = m.Keys.Size := hinv.2.2.2.2.2.1
  have hn : 0 < m.NumHashKeys.toNat := by omega
  have hb : hash key % m.NumHashKeys.toNat < m.NumHashKeys.toNat := Nat.mod_lt _ hn
  obtain ⟨start, slots, hstart, hchain, hin, hall⟩ :=
    bucket_chain_of_invariant hash m hinv (hash key % m.NumHashKeys.toNat) hb
  have hkeys : ∀ s ∈ slots, ∃ k, m.Keys.get s = some k := by
    intro s hs
    have h := (hin s hs).2
    unfold MultiHashMap.keyHashesTo at h
    cases hk : m.Keys.get s with
    | none => simp [hk] at h
    | some k => exact ⟨k, rfl⟩
  have hlen := slotChain_length m m.Keys.Size start slots hchain
  have hloop := findIndexLoop_of_chain m key m.Keys.Size start slots hchain hkeys
  have hnle : ¬ m.NumHashKeys ≤ 0 := by omega
  refine ⟨start, slots, hstart, hchain, ?_, ?_⟩
  · rintro ⟨s, hs, hk⟩
    have hmem : s ∈ slots := by
      apply hall s hs
      simp [MultiHashMap.keyHashesTo, hk]
    cases hf : MultiHashMap.firstSlotWithKey m key slots with
    | none =>
      have := List.find?_eq_none.mp hf s hmem
      simp [hk] at this
    | some i =>
      have hi : i ∈ slots := List.mem_of_find?_eq_some hf
      have hki : m.Keys.get i = some key := by
        have := List.find?_some hf
        simpa using this
      refine ⟨i, rfl, by rw [hvals]; exact (hin i hi).1, hki, fun fuel hfuel => ?_⟩
      have hl := hloop fuel (by omega)
      rw [hf] at hl
      have hfi : MultiHashMap.FindIndex hash fuel m key = some (i : Int) := by
        simp only [MultiHashMap.FindIndex, hnle, if_false, hstart, hl]
      refine ⟨hfi, ?_⟩
      have hne : ¬ ((i : Int) = -1) := by omega
      simp only [MultiHashMap.Find, hfi, hne, if_false]
  · intro hns fuel hfuel
    have hf : MultiHashMap.firstSlotWithKey m key slots = none := by
      apply List.find?_eq_none.mpr
      intro s hs hk
      exact hns ⟨s, (hin s hs).1, by simpa using hk⟩
    have hl := hloop fuel (by omega)
    rw [hf] at hl
    have hfi : MultiHashMap.FindIndex hash fuel m key = some (-1) := by
      simp only [MultiHashMap.FindIndex, hnle, if_false, hstart, hl]
    exact ⟨hfi, by simp only [MultiHashMap.Find, hfi, if_true]⟩

/-- Witness of C13: the hand-built instance with 4 buckets, where `"b"` and
`"c"` share bucket 1; the theorem is applied at the key `"b"`, the second
slot of its chain, and the lookups of `"a"`, `"b"`, `"c"` and of the absent
`"d"` are evaluated. -/
theorem MultiHashMap_FindIndex_follows_chain_witness :
    MultiHashMap.LayoutInvariant MultiHashMap.handBuiltHash MultiHashMap.handBuilt ∧
    (∃ start slots,
      MultiHashMap.handBuilt.HashKeys[MultiHashMap.handBuiltHash "b" %
        MultiHashMap.handBuilt.NumHashKeys.toNat]? = some start ∧
      MultiHashMap.slotChain MultiHashMap.handBuilt MultiHashMap.handBuilt.Keys.Size start
        = some slots ∧
      (MultiHashMap.Stored MultiHashMap.handBuilt "b" →
        ∃ i, MultiHashMap.firstSlotWithKey MultiHashMap.handBuilt "b" slots = some i ∧
          i < MultiHashMap.handBuilt.Values.length ∧
          MultiHashMap.handBuilt.Keys.get i = some "b" ∧
          ∀ fuel, MultiHashMap.handBuilt.Keys.Size ≤ fuel →
            MultiHashMap.FindIndex MultiHashMap.handBuiltHash fuel MultiHashMap.handBuilt "b"
              = some (i : Int) ∧
            MultiHashMap.Find MultiHashMap.handBuiltHash fuel MultiHashMap.handBuilt "b"
              = some (some (i : Int))) ∧
      (¬ MultiHashMap.Stored MultiHashMap.handBuilt "b" →
        ∀ fuel, MultiHashMap.handBuilt.Keys.Size ≤ fuel →
          MultiHashMap.FindIndex MultiHashMap.handBuiltHash fuel MultiHashMap.handBuilt "b"
            = some (-1) ∧
          MultiHashMap.Find MultiHashMap.handBuiltHash fuel MultiHashMap.handBuilt "b"
            = some none)) ∧
    MultiHashMap.Find MultiHashMap.handBuiltHash 3 MultiHashMap.handBuilt "a" = some (some 1) ∧
    MultiHashMap.Find MultiHashMap.handBuiltHash 3 MultiHashMap.handBuilt "b" = some (some 0) ∧
    MultiHashMap.Find MultiHashMap.handBuiltHash 3 MultiHashMap.handBuilt "c" = some (some 2) ∧
    MultiHashMap.Find MultiHashMap.handBuiltHash 3 MultiHashMap.handBuilt "d" = some none :=
  ⟨by decide,
   MultiHashMap_FindIndex_follows_chain MultiHashMap.handBuiltHash MultiHashMap.handBuilt "b"
     (by decide),
   by decide, by decide, by decide, by decide⟩

/-- C14: for a `MultiHashMap` with `NumHashKeys <= 0`, whatever its arrays
hold (they may be empty), and every key, `FindIndex(key)` returns `-1` before
the modulo and before any array access, even with fuel for no loop iteration
at all, and `Find(key)` is an empty optional. -/
theorem MultiHashMap_no_buckets {K V : Type} [DecidableEq K] (hash : K → Nat)
    (m : MultiHashMap K V) (key : K) (fuel : Nat) (h : m.NumHashKeys ≤ 0) :
    MultiHashMap.FindIndex hash fuel m key = some (-1) ∧
    MultiHashMap.Find hash fuel m key = some none := by
  have hfi : MultiHashMap.FindIndex hash fuel m key = some (-1) := by
    simp only [MultiHashMap.FindIndex, h, if_true]
  exact ⟨hfi, by simp only [MultiHashMap.Find, hfi, if_true]⟩

/-- Witness of C14: no bucket, no array at all and no fuel. -/
theorem MultiHashMap_no_buckets_witness :
    MultiHashMap.FindIndex MultiHashMap.handBuiltHash 0
      (MultiHashMap.mk [] 0 Array.empty Array.empty ([] : List Nat) 0) "a" = some (-1) ∧
    MultiHashMap.Find MultiHashMap.handBuiltHash 0
      (MultiHashMap.mk [] 0 Array.empty Array.empty ([] : List Nat) 0) "a" = some none :=
  MultiHashMap_no_buckets MultiHashMap.handBuiltHash
    (MultiHashMap.mk [] 0 Array.empty Array.empty ([] : List Nat) 0) "a" 0 (by decide)

/-- C15: on a `Map` initialised with a bucket count > 0 and brought to any
state by `Insert` and `Clear` calls, `FindByValue(v)` runs and returns the key
of the first entry, in bucket-then-chain order, whose value equals `v`: null
when no entry holds `v`, and the key of the entry `e` whenever the entries
before `e` in that order all hold other values, even if later entries hold
`v` too. -/
theorem Map_FindByValue_first_match {K V : Type} [DecidableEq K] [DecidableEq V] [Inhabited V]
    (hash : K → Nat) (hashSize : Nat) (h : 0 < hashSize) (ops : List (MapOp K V)) (v : V) :
    ∃ m, Map.run hash (Map.Init hashSize) ops = some m ∧
      Map.FindByValue m v =
        some (((entries m.HashTable).find? (fun e => decide (v = e.Value))).map
          (fun e => e.Key)) ∧
      ((∀ e ∈ entries m.HashTable, e.Value ≠ v) → Map.FindByValue m v = some none) ∧
      (∀ pre e post, entries m.HashTable = pre ++ e :: post → e.Value = v →
        (∀ x ∈ pre, x.Value ≠ v) → Map.FindByValue m v = some (some e.Key)) := by
  obtain ⟨m, e, s1, l1⟩ := Map_run_wf hash ops (Map.Init hashSize) h (by simp [Map.Init])
  have hl : m.HashTable.length = m.HashSize := by rw [l1, s1]
  have hf : Map.FindByValue m v =
      some (((entries m.HashTable).find? (fun e => decide (v = e.Value))).map
        (fun e => e.Key)) := by
    rw [Map.FindByValue, ← hl]
    exact findByValueLoop_all v m.HashTable
  refine ⟨m, e, hf, fun hnone => ?_, fun pre x post hx hv hpre => ?_⟩
  · rw [hf]
    have : (entries m.HashTable).find? (fun e => decide (v = e.Value)) = none := by
      apply List.find?_eq_none.mpr
      intro y hy hyv
      exact hnone y hy (of_decide_eq_true hyv).symm
    rw [this]
    rfl
  · rw [hf, hx, List.find?_append]
    have h1 : pre.find? (fun e => decide (v = e.Value)) = none := by
      apply List.find?_eq_none.mpr
      intro y hy hyv
      exact hpre y hy (of_decide_eq_true hyv).symm
    rw [h1]
    simp [List.find?, hv]

/-- Witness of C15: two entries hold the value 40; the one in the lower
bucket wins. -/
theorem Map_FindByValue_first_match_witness :
    (0 < 3) ∧
    ∃ m, Map.run (fun k : Nat => k) (Map.Init 3)
        [MapOp.insert 2 40, MapOp.insert 4 40, MapOp.insert 1 11] = some m ∧
      Map.FindByValue m 40 =
        some (((entries m.HashTable).find? (fun e => decide (40 = e.Value))).map
          (fun e => e.Key)) ∧
      ((∀ e ∈ entries m.HashTable, e.Value ≠ 40) → Map.FindByValue m 40 = some none) ∧
      (∀ pre e post, entries m.HashTable = pre ++ e :: post → e.Value = 40 →
        (∀ x ∈ pre, x.Value ≠ 40) → Map.FindByValue m 40 = some (some e.Key)) :=
  ⟨by decide, Map_FindByValue_first_match (fun k : Nat => k) 3 (by decide)
    [MapOp.insert 2 40, MapOp.insert 4 40, MapOp.insert 1 11] 40⟩

/-- C16: on a `Map` and on a `RefMap` initialised with a bucket count > 0 and
built by any sequence of `Insert(key)` and `Insert(key, value)` calls (since
the last `Clear()`, if there was one), `Iterate(visitor)` runs and calls the
visitor once for every node of the map and for nothing else: the visited
pairs are exactly the pairs `Find` reports as stored, no key is visited
twice, and the keys come bucket by bucket in ascending bucket index, within
one bucket in the order of their first insertion. -/
theorem Map_Iterate_order {K V : Type} [DecidableEq K] [Inhabited V] (hash : K → Nat)
    (hashSize : Nat) (h : 0 < hashSize) (ops : List (MapOp K V)) :
    (∃ m visits, Map.run hash (Map.Init hashSize) ops = some m ∧
      Map.Iterate m = some visits ∧
      visits = (entries m.HashTable).map (fun e => (e.Key, e.Value)) ∧
      (∀ k v, (k, v) ∈ visits ↔ Map.Find hash m k = some (some v)) ∧
      (visits.map Prod.fst).Nodup ∧
      visits.map Prod.fst = bucketOrder hash hashSize (liveKeys ops)) ∧
    (∃ m visits, RefMap.run hash (RefMap.Init hashSize) ops = some m ∧
      RefMap.Iterate m = some visits ∧
      visits = (entries m.HashTable).map (fun e => (e.Key, e.Value)) ∧
      (∀ k v, (k, v) ∈ visits ↔ RefMap.Find hash m k = some (some v)) ∧
      (visits.map Prod.fst).Nodup ∧
      visits.map Prod.fst = bucketOrder hash hashSize (liveKeys ops)) := by
  constructor
  · obtain ⟨m, e, s, hinv⟩ := Map_run_Init_inv hash hashSize h ops
    obtain ⟨hkeys, _, hnd, _, _⟩ :=
      ChainedInv_facts hash hashSize h m.HashTable m.ItemCount (liveKeys ops) hinv
    have hfst : ((entries m.HashTable).map (fun e => (e.Key, e.Value))).map Prod.fst
        = (entries m.HashTable).map (fun e => e.Key) := by
      rw [List.map_map]
      rfl
    refine ⟨m, (entries m.HashTable).map (fun e => (e.Key, e.Value)), e, ?_, rfl, ?_, ?_, ?_⟩
    · rw [Map.Iterate, s, ← hinv.1.1]
      exact iterateLoop_all m.HashTable
    · intro k v
      rw [Map.Find, s]
      exact visits_iff_find hash hashSize h m.HashTable m.ItemCount (liveKeys ops) hinv k v
    · rw [hfst]
      exact hnd
    · rw [hfst]
      exact hkeys
  · obtain ⟨m, e, s, hinv⟩ := RefMap_run_Init_inv hash hashSize h ops
    obtain ⟨hkeys, _, hnd, _, _⟩ :=
      ChainedInv_facts hash hashSize h m.HashTable m.ItemCount (liveKeys ops) hinv
    have hfst : ((entries m.HashTable).map (fun e => (e.Key, e.Value))).map Prod.fst
        = (entries m.HashTable).map (fun e => e.Key) := by
      rw [List.map_map]
      rfl
    refine ⟨m, (entries m.HashTable).map (fun e => (e.Key, e.Value)), e, ?_, rfl, ?_, ?_, ?_⟩
    · rw [RefMap.Iterate, s, ← hinv.1.1]
      exact iterateLoop_all m.HashTable
    · intro k v
      rw [RefMap.Find, s]
      exact visits_iff_find hash hashSize h m.HashTable m.ItemCount (liveKeys ops) hinv k v
    · rw [hfst]
      exact hnd
    · rw [hfst]
      exact hkeys

/-- Witness of C16: keys 4, 7 and 1 share bucket 1 of three buckets and are
inserted in that order, 4 a second time at the end. -/
theorem Map_Iterate_order_witness :
    (0 < 3) ∧
    ((∃ m visits, Map.run (fun k : Nat => k) (Map.Init 3) [MapOp.insert 4 40, MapOp.insert 2 5, MapOp.insertKey 7, MapOp.insert 1 11,
        MapOp.insert 4 41] = some m ∧
      Map.Iterate m = some visits ∧
      visits = (entries m.HashTable).map (fun e => (e.Key, e.Value)) ∧
      (∀ k v, (k, v) ∈ visits ↔ Map.Find (fun k : Nat => k) m k = some (some v)) ∧
      (visits.map Prod.fst).Nodup ∧
      visits.map Prod.fst = bucketOrder (fun k : Nat => k) 3 (liveKeys [MapOp.insert 4 40, MapOp.insert 2 5, MapOp.insertKey 7, MapOp.insert 1 11,
        MapOp.insert 4 41])) ∧
    (∃ m visits, RefMap.run (fun k : Nat => k) (RefMap.Init 3) [MapOp.insert 4 40, MapOp.insert 2 5, MapOp.insertKey 7, MapOp.insert 1 11,
        MapOp.insert 4 41] = some m ∧
      RefMap.Iterate m = some visits ∧
      visits = (entries m.HashTable).map (fun e => (e.Key, e.Value)) ∧
      (∀ k v, (k, v) ∈ visits ↔ RefMap.Find (fun k : Nat => k) m k = some (some v)) ∧
      (visits.map Prod.fst).Nodup ∧
      visits.map Prod.fst = bucketOrder (fun k : Nat => k) 3 (liveKeys [MapOp.insert 4 40, MapOp.insert 2 5, MapOp.insertKey 7, MapOp.insert 1 11,
        MapOp.insert 4 41]))) :=
  ⟨by decide, Map_Iterate_order (fun k : Nat => k) 3 (by decide)
    [MapOp.insert 4 40, MapOp.insert 2 5, MapOp.insertKey 7, MapOp.insert 1 11,
      MapOp.insert 4 41]⟩

/-- C17: for a `Set` whose buffer has `Capacity` slots and whose contents are
the first `Size = n <= Capacity` slots, with `n < 2 ^ 31` and
`CapacityIncrementSize < 2 ^ 31` (zero, that is no explicit increment,
included), every `index <= n` and every value `v`, `InsertAt(index, v)` runs,
grows the buffer to `CapacityIncrement()` first exactly when
`Capacity <= Size`, and leaves `Size == n + 1` with the contents
`[x_0, ..., x_(index-1), v, x_index, ..., x_(n-1)]`. -/
theorem Set_InsertAt_inserts {T : Type} [Inhabited T] (s : Set T) (index : Nat) (v : T)
    (hlen : s.Buf.length = s.Capacity) (hsz : s.Size ≤ s.Capacity) (hn : s.Size < 2 ^ 31)
    (hinc : s.CapacityIncrementSize < 2 ^ 31) (hidx : index ≤ s.Size) :
    ∃ s1, s.InsertAt index v = some s1 ∧ s1.Size = s.Size + 1 ∧
      s1.Buf.length = s1.Capacity ∧ s1.Size ≤ s1.Capacity ∧
      s1.Buf.take s1.Size
        = (s.Buf.take s.Size).take index ++ v :: (s.Buf.take s.Size).drop index ∧
      (s.Capacity ≤ s.Size → s1.Capacity = s.CapacityIncrement) ∧
      (¬ s.Capacity ≤ s.Size → s1.Capacity = s.Capacity) := by
  obtain ⟨s1, e, z, l, c, _, t, g1, g2⟩ := Set_InsertAt_spec s index v hlen hsz (by omega)
    (fun hle => Set_increment_grows s hsz hle hn hinc) hidx
  exact ⟨s1, e, z, l, c, t, g1, g2⟩

/-- Witness of C17: `9` inserted at index 1 of `[5, 6, 7]` in a full buffer
of three slots, with the explicit increment 2. -/
theorem Set_InsertAt_inserts_witness :
    ∃ s1, (Set.mk (CompactSet.mk [5, 6, 7] 3 3) 2).InsertAt 1 9 = some s1 ∧
      s1.Size = (Set.mk (CompactSet.mk [5, 6, 7] 3 3) 2).Size + 1 ∧
      s1.Buf.length = s1.Capacity ∧ s1.Size ≤ s1.Capacity ∧
      s1.Buf.take s1.Size
        = (([5, 6, 7] : List Nat).take 3).take 1 ++ 9 :: (([5, 6, 7] : List Nat).take 3).drop 1 ∧
      ((Set.mk (CompactSet.mk [5, 6, 7] 3 3) 2).Capacity ≤
          (Set.mk (CompactSet.mk [5, 6, 7] 3 3) 2).Size →
        s1.Capacity = (Set.mk (CompactSet.mk [5, 6, 7] 3 3) 2).CapacityIncrement) ∧
      (¬ (Set.mk (CompactSet.mk [5, 6, 7] 3 3) 2).Capacity ≤
          (Set.mk (CompactSet.mk [5, 6, 7] 3 3) 2).Size →
        s1.Capacity = (Set.mk (CompactSet.mk [5, 6, 7] 3 3) 2).Capacity) :=
  Set_InsertAt_inserts (Set.mk (CompactSet.mk [5, 6, 7] 3 3) 2) 1 9 (by decide) (by decide)
    (by decide) (by decide) (by decide)

/-- C18 fails as stated, in its part (c): `ItemCount` is a `uint32_t`, so
after `Insert(key)` of the `2 ^ 32` distinct keys `0, 1, ..., 2 ^ 32 - 1` into
a `Map` of one bucket, the chain holds `2 ^ 32` nodes while `Count()` is 0. -/
theorem Map_Count_wraps :
    ∃ m : Map Nat Nat, Map.run (fun k : Nat => k) (Map.Init 1)
        ((List.range (2 ^ 32)).map MapOp.insertKey) = some m ∧
      Map.Count m = 0 ∧ (entries m.HashTable).length = 2 ^ 32 ∧
      Map.Count m ≠ (entries m.HashTable).length := by
  obtain ⟨m, e, _, hinv⟩ := Map_run_Init_inv (fun k : Nat => k) 1 (by decide)
    ((List.range (2 ^ 32)).map (MapOp.insertKey : Nat → MapOp Nat Nat))
  obtain ⟨_, _, _, hlen, hcount⟩ :=
    ChainedInv_facts (fun k : Nat => k) 1 (by decide) m.HashTable m.ItemCount _ hinv
  have hlive : liveKeys ((List.range (2 ^ 32)).map (MapOp.insertKey : Nat → MapOp Nat Nat))
      = List.range (2 ^ 32) := by
    have := foldl_keysStep_distinct (V := Nat) (List.range (2 ^ 32)) []
      (by rw [List.nil_append]; exact List.nodup_range _)
    rw [List.nil_append] at this
    exact this
  have hl : (entries m.HashTable).length = 2 ^ 32 := by
    rw [hlen, hlive, List.length_range]
  have hc : Map.Count m = 0 := by
    show m.ItemCount = 0
    rw [hcount, hl]
    decide
  exact ⟨m, e, hc, hl, by rw [hc, hl]; decide⟩

/-- C18 as amended: on a `Map` and on a `RefMap` initialised with a bucket
count > 0, in every state reached by any sequence of `Insert(key)`,
`Insert(key, value)` and `Clear` calls, (a) every node reachable from bucket
`b` has `Hash(key) mod HashSize == b`, (b) no key occurs in more than one
node, and (c) `Count()` equals the number of nodes reachable from all
buckets modulo `2 ^ 32`, hence that number itself while fewer than `2 ^ 32`
nodes are stored; `Insert` of a key that is present, with or without a
value, leaves `Count()` unchanged. -/
theorem Map_chained_invariant {K V : Type} [DecidableEq K] [Inhabited V] (hash : K → Nat)
    (hashSize : Nat) (h : 0 < hashSize) (ops : List (MapOp K V)) :
    (∃ m, Map.run hash (Map.Init hashSize) ops = some m ∧
      (∀ b chain, m.HashTable[b]? = some chain → ∀ e ∈ chain, hash e.Key % m.HashSize = b) ∧
      ((entries m.HashTable).map (fun e => e.Key)).Nodup ∧
      Map.Count m = (entries m.HashTable).length % 2 ^ 32 ∧
      ((entries m.HashTable).length < 2 ^ 32 → Map.Count m = (entries m.HashTable).length) ∧
      (∀ key, key ∈ (entries m.HashTable).map (fun e => e.Key) →
        (∃ r, Map.InsertKey hash m key = some r ∧ Map.Count r.1 = Map.Count m) ∧
        (∀ v, ∃ m1, Map.Insert hash m key v = some m1 ∧ Map.Count m1 = Map.Count m))) ∧
    (∃ m, RefMap.run hash (RefMap.Init hashSize) ops = some m ∧
      (∀ b chain, m.HashTable[b]? = some chain → ∀ e ∈ chain, hash e.Key % m.HashSize = b) ∧
      ((entries m.HashTable).map (fun e => e.Key)).Nodup ∧
      RefMap.Count m = (entries m.HashTable).length % 2 ^ 32 ∧
      ((entries m.HashTable).length < 2 ^ 32 → RefMap.Count m = (entries m.HashTable).length) ∧
      (∀ key, key ∈ (entries m.HashTable).map (fun e => e.Key) →
        (∃ r, RefMap.InsertKey hash m key = some r ∧ RefMap.Count r.1 = RefMap.Count m) ∧
        (∀ v, ∃ m1, RefMap.Insert hash m key v = some m1 ∧ RefMap.Count m1 = RefMap.Count m))) := by
  constructor
  · obtain ⟨m, e, s, hinv⟩ := Map_run_Init_inv hash hashSize h ops
    obtain ⟨hkeys, hbucket, hnd, _, hcount⟩ :=
      ChainedInv_facts hash hashSize h m.HashTable m.ItemCount (liveKeys ops) hinv
    have hc : Map.Count m = (entries m.HashTable).length % 2 ^ 32 := hcount
    refine ⟨m, e, ?_, hnd, hc, fun hlt => ?_, fun key hkey => ?_⟩
    · rw [s]
      exact hbucket
    · rw [hc, Nat.mod_eq_of_lt hlt]
    · rw [hkeys, mem_bucketOrder hash hashSize h] at hkey
      rw [← s] at hinv
      exact Map_Insert_present hash m (liveKeys ops) key (s ▸ h) hinv hkey
  · obtain ⟨m, e, s, hinv⟩ := RefMap_run_Init_inv hash hashSize h ops
    obtain ⟨hkeys, hbucket, hnd, _, hcount⟩ :=
      ChainedInv_facts hash hashSize h m.HashTable m.ItemCount (liveKeys ops) hinv
    have hc : RefMap.Count m = (entries m.HashTable).length % 2 ^ 32 := hcount
    refine ⟨m, e, ?_, hnd, hc, fun hlt => ?_, fun key hkey => ?_⟩
    · rw [s]
      exact hbucket
    · rw [hc, Nat.mod_eq_of_lt hlt]
    · rw [hkeys, mem_bucketOrder hash hashSize h] at hkey
      rw [← s] at hinv
      exact RefMap_Insert_present hash m (liveKeys ops) key (s ▸ h) hinv hkey

/-- Witness of C18 as amended: inserts with a collision and a repeated key
around a `Clear()`. -/
theorem Map_chained_invariant_witness :
    (0 < 3) ∧
    ((∃ m, Map.run (fun k : Nat => k) (Map.Init 3) [MapOp.insert 9 1, MapOp.clear, MapOp.insert 4 40, MapOp.insertKey 7,
        MapOp.insert 4 41] = some m ∧
      (∀ b chain, m.HashTable[b]? = some chain → ∀ e ∈ chain, (fun k : Nat => k) e.Key % m.HashSize = b) ∧
      ((entries m.HashTable).map (fun e => e.Key)).Nodup ∧
      Map.Count m = (entries m.HashTable).length % 2 ^ 32 ∧
      ((entries m.HashTable).length < 2 ^ 32 → Map.Count m = (entries m.HashTable).length) ∧
      (∀ key, key ∈ (entries m.HashTable).map (fun e => e.Key) →
        (∃ r, Map.InsertKey (fun k : Nat => k) m key = some r ∧ Map.Count r.1 = Map.Count m) ∧
        (∀ v, ∃ m1, Map.Insert (fun k : Nat => k) m key v = some m1 ∧ Map.Count m1 = Map.Count m))) ∧
    (∃ m, RefMap.run (fun k : Nat => k) (RefMap.Init 3) [MapOp.insert 9 1, MapOp.clear, MapOp.insert 4 40, MapOp.insertKey 7,
        MapOp.insert 4 41] = some m ∧
      (∀ b chain, m.HashTable[b]? = some chain → ∀ e ∈ chain, (fun k : Nat => k) e.Key % m.HashSize = b) ∧
      ((entries m.HashTable).map (fun e => e.Key)).Nodup ∧
      RefMap.Count m = (entries m.HashTable).length % 2 ^ 32 ∧
      ((entries m.HashTable).length < 2 ^ 32 → RefMap.Count m = (entries m.HashTable).length) ∧
      (∀ key, key ∈ (entries m.HashTable).map (fun e => e.Key) →
        (∃ r, RefMap.InsertKey (fun k : Nat => k) m key = some r ∧ RefMap.Count r.1 = RefMap.Count m) ∧
        (∀ v, ∃ m1, RefMap.Insert (fun k : Nat => k) m key v = some m1 ∧ RefMap.Count m1 = RefMap.Count m)))) :=
  ⟨by decide, Map_chained_invariant (fun k : Nat => k) 3 (by decide)
    [MapOp.insert 9 1, MapOp.clear, MapOp.insert 4 40, MapOp.insertKey 7,
      MapOp.insert 4 41]⟩

/-- C19 fails as stated: `Add` and `InsertAt` do not preserve `Size <= Capacity`
when the growth wraps.  On the empty `Set` with `CapacityIncrementSize = 2 ^ 32`
(low 32 bits zero) the reallocation asks for capacity 0, so `Add` and
`InsertAt(0, .)` store outside the buffer before they increment `Size` above
`Capacity`; on an `Array` with `Size = Capacity = 2 ^ 31` the doubled
capacity is 0 and `Add` does the same.  Both start states satisfy the
invariant. -/
theorem Sequence_invariant_lost_on_wrap :
    (SeqInv (Set.empty (2 ^ 32) : Set Nat).Buf (Set.empty (2 ^ 32) : Set Nat).Capacity
        (Set.empty (2 ^ 32) : Set Nat).Size ∧
      (Set.empty (2 ^ 32) : Set Nat).CapacityIncrement = 0 ∧
      Set.Add (Set.empty (2 ^ 32)) (7 : Nat) = none ∧
      Set.InsertAt (Set.empty (2 ^ 32)) 0 (7 : Nat) = none) ∧
    (SeqInv (Array.mk (List.replicate (2 ^ 31) (0 : Nat)) (2 ^ 31) 0 (2 ^ 31) 0).Buf
        (Array.mk (List.replicate (2 ^ 31) (0 : Nat)) (2 ^ 31) 0 (2 ^ 31) 0).Capacity
        (Array.mk (List.replicate (2 ^ 31) (0 : Nat)) (2 ^ 31) 0 (2 ^ 31) 0).Size ∧
      (Array.mk (List.replicate (2 ^ 31) (0 : Nat)) (2 ^ 31) 0 (2 ^ 31) 0).CapacityIncrement = 0 ∧
      (Array.mk (List.replicate (2 ^ 31) (0 : Nat)) (2 ^ 31) 0 (2 ^ 31) 0).Add 7 = none) := by
  have hinv : SeqInv (Array.mk (List.replicate (2 ^ 31) (0 : Nat)) (2 ^ 31) 0 (2 ^ 31) 0).Buf
      (Array.mk (List.replicate (2 ^ 31) (0 : Nat)) (2 ^ 31) 0 (2 ^ 31) 0).Capacity
      (Array.mk (List.replicate (2 ^ 31) (0 : Nat)) (2 ^ 31) 0 (2 ^ 31) 0).Size :=
    ⟨List.length_replicate _ _, Nat.le_refl _, by decide⟩
  have hinc : (Array.mk (List.replicate (2 ^ 31) (0 : Nat)) (2 ^ 31) 0 (2 ^ 31) 0).CapacityIncrement
      = 0 := by decide
  refine ⟨⟨by decide, by decide, by decide, by decide⟩, hinv, hinc, ?_⟩
  exact Array_Add_none _ 7 hinv (Nat.le_refl _) (by rw [hinc]; exact Nat.zero_le _)

/-- C19 as amended: for `Set` (with every configured `CapacityIncrementSize`),
`PrimitiveSmallSet` and `Array`, `Size <= Capacity` (with a buffer of
`Capacity` slots) holds in every state reachable from the empty one through
`Add`, `InsertAt` with `index <= Size`, `Remove`, `Clear` and copy assignment
(self-assignment included) as long as the calls stay within defined
behaviour.  From a state that satisfies it, `Remove`, `Clear`, copy
assignment from another object in such a state (which is left as it was) and
self-assignment always run and preserve it; `Add` and `InsertAt` run and
preserve it whenever the
growth they need gives a capacity above `Size`
(`Capacity <= Size` implies `Size < CapacityIncrement()`), which is the case
when `Size < 2 ^ 31` and, for `Set`, `CapacityIncrementSize < 2 ^ 31`. -/
theorem Sequence_invariant_preserved {T : Type} [Inhabited T] :
    ((∀ s : Set T, Set.Reachable s → s.Buf.length = s.Capacity ∧ s.Size ≤ s.Capacity) ∧
     (∀ s : PrimitiveSmallSet T, PrimitiveSmallSet.Reachable s →
        s.Buf.length = s.Capacity ∧ s.Size ≤ s.Capacity) ∧
     (∀ a : Array T, Array.Reachable a → a.Buf.length = a.Capacity ∧ a.Size ≤ a.Capacity)) ∧
    (∀ s : Set T, SeqInv s.Buf s.Capacity s.Size →
      (∀ v, (s.Capacity ≤ s.Size → s.Size < s.CapacityIncrement) →
        ∃ s1, s.Add v = some s1 ∧ SeqInv s1.Buf s1.Capacity s1.Size) ∧
      (∀ index v, index ≤ s.Size → (s.Capacity ≤ s.Size → s.Size < s.CapacityIncrement) →
        ∃ s1, s.InsertAt index v = some s1 ∧ SeqInv s1.Buf s1.Capacity s1.Size) ∧
      (∀ index, ∃ s1, s.Remove index = some s1 ∧ SeqInv s1.Buf s1.Capacity s1.Size) ∧
      SeqInv s.Clear.Buf s.Clear.Capacity s.Clear.Size ∧
      (∀ other : Set T, SeqInv other.Buf other.Capacity other.Size →
        ∃ s1, Set.assign (Operands.distinct s other) = some (Operands.distinct s1 other) ∧
          SeqInv s1.Buf s1.Capacity s1.Size) ∧
      (∃ s1, Set.assign (Operands.aliased s) = some (Operands.aliased s1) ∧
        SeqInv s1.Buf s1.Capacity s1.Size) ∧
      (s.Size < 2 ^ 31 → s.CapacityIncrementSize < 2 ^ 31 →
        s.Capacity ≤ s.Size → s.Size < s.CapacityIncrement)) ∧
    (∀ s : PrimitiveSmallSet T, SeqInv s.Buf s.Capacity s.Size →
      (∀ v, (s.Capacity ≤ s.Size → s.Size < s.CapacityIncrement) →
        ∃ s1, s.Add v = some s1 ∧ SeqInv s1.Buf s1.Capacity s1.Size) ∧
      (∀ index, ∃ s1, s.Remove index = some s1 ∧ SeqInv s1.Buf s1.Capacity s1.Size) ∧
      SeqInv s.Clear.Buf s.Clear.Capacity s.Clear.Size ∧
      (∀ other : PrimitiveSmallSet T, SeqInv other.Buf other.Capacity other.Size →
        ∃ s1, PrimitiveSmallSet.assign (Operands.distinct s other) =
            some (Operands.distinct s1 other) ∧
          SeqInv s1.Buf s1.Capacity s1.Size) ∧
      (∃ s1, PrimitiveSmallSet.assign (Operands.aliased s) = some (Operands.aliased s1) ∧
        SeqInv s1.Buf s1.Capacity s1.Size) ∧
      (s.Size < 2 ^ 31 → s.Capacity ≤ s.Size → s.Size < s.CapacityIncrement)) ∧
    (∀ a : Array T, SeqInv a.Buf a.Capacity a.Size →
      (∀ v, (a.Capacity ≤ a.Size → a.Size < a.CapacityIncrement) →
        ∃ a1, a.Add v = some a1 ∧ SeqInv a1.Buf a1.Capacity a1.Size) ∧
      (∀ index, ∃ a1, a.Remove index = some a1 ∧ SeqInv a1.Buf a1.Capacity a1.Size) ∧
      SeqInv a.Clear.Buf a.Clear.Capacity a.Clear.Size ∧
      (∀ other : Array T, SeqInv other.Buf other.Capacity other.Size →
        ∃ a1, Array.CopyFrom (Operands.distinct a other) = some (Operands.distinct a1 other) ∧
          SeqInv a1.Buf a1.Capacity a1.Size) ∧
      (∃ a1, Array.CopyFrom (Operands.aliased a) = some (Operands.aliased a1) ∧
        SeqInv a1.Buf a1.Capacity a1.Size) ∧
      (a.Size < 2 ^ 31 → a.Capacity ≤ a.Size → a.Size < a.CapacityIncrement)) := by
  refine ⟨⟨fun s h => ?_, fun s h => ?_, fun a h => ?_⟩, fun s hs => ?_, fun s hs => ?_,
    fun a ha => ?_⟩
  · have := Set_Reachable_inv s h
    exact ⟨this.1, this.2.1⟩
  · have := PrimitiveSmallSet_Reachable_inv s h
    exact ⟨this.1, this.2.1⟩
  · have := Array_Reachable_inv a h
    exact ⟨this.1, this.2.1⟩
  · refine ⟨fun v hg => ?_, fun index v hidx hg => ?_, fun index => ?_,
      ⟨hs.1, Nat.zero_le _, hs.2.2⟩, fun other ho => ?_, ?_, fun hn hinc hle => ?_⟩
    · obtain ⟨s1, e, hinv, _⟩ := Set_Add_total s v hs hg
      exact ⟨s1, e, hinv⟩
    · obtain ⟨s1, e, hinv, _⟩ := Set_InsertAt_total s index v hs hg hidx
      exact ⟨s1, e, hinv⟩
    · obtain ⟨c1, e1, hinv⟩ := CompactSet_Remove_inv s.toCompactSet index hs
      exact ⟨{ s with toCompactSet := c1 }, by simp only [Set.Remove, e1], hinv⟩
    · obtain ⟨s1, e1, hinv, _⟩ := Set_assign_inv s other hs ho
      exact ⟨s1, e1, hinv⟩
    · obtain ⟨s1, e1, hinv, _⟩ := Set_assign_self_inv s hs
      exact ⟨s1, e1, hinv⟩
    · exact Set_increment_grows s hs.2.1 hle hn hinc
  · refine ⟨fun v hg => ?_, fun index => ?_, ⟨hs.1, Nat.zero_le _, hs.2.2⟩,
      fun other ho => ?_, ?_, fun hn hle => ?_⟩
    · obtain ⟨s1, e, hinv, _⟩ := PrimitiveSmallSet_Add_total s v hs hg
      exact ⟨s1, e, hinv⟩
    · obtain ⟨c1, e1, hinv⟩ := CompactSet_Remove_inv s.toCompactSet index hs
      exact ⟨{ toCompactSet := c1 }, by simp only [PrimitiveSmallSet.Remove, e1], hinv⟩
    · obtain ⟨s1, e1, hinv, _⟩ := PrimitiveSmallSet_assign_inv s other hs ho
      exact ⟨s1, e1, hinv⟩
    · obtain ⟨s1, e1, hinv, _⟩ := PrimitiveSmallSet_assign_self_inv s hs
      exact ⟨s1, e1, hinv⟩
    · exact doubling_grows hle hs.2.1 hn
  · refine ⟨fun v hg => ?_, fun index => Array_Remove_inv a index ha,
      ⟨ha.1, Nat.zero_le _, ha.2.2⟩, fun other ho => ?_, ?_, fun hn hle => ?_⟩
    · obtain ⟨a1, e, hinv, _⟩ := Array_Add_total a v ha hg
      exact ⟨a1, e, hinv⟩
    · obtain ⟨d1, e1, hinv, _⟩ := Array_CopyFrom_inv a other ha ho
      exact ⟨d1, e1, hinv⟩
    · exact ⟨a.Clear, Array_CopyFrom_self a, ⟨ha.1, Nat.zero_le _, ha.2.2⟩⟩
    · exact doubling_grows hle ha.2.1 hn

/-- Witness of C19 as amended: the `Set` reached by `Add(5)` then `Add(6)` from
the empty one with increment 3 satisfies the invariant, and an `Add` on a
full `Array` of two elements preserves it. -/
theorem Sequence_invariant_preserved_witness :
    ((Set.mk (CompactSet.mk [5, 6, 0] 3 2) 3).Buf.length
        = (Set.mk (CompactSet.mk [5, 6, 0] 3 2) 3).Capacity ∧
      (Set.mk (CompactSet.mk [5, 6, 0] 3 2) 3).Size ≤
        (Set.mk (CompactSet.mk [5, 6, 0] 3 2) 3).Capacity) ∧
    (∃ a1, (Array.mk [5, 6] 2 0 2 0).Add 7 = some a1 ∧ SeqInv a1.Buf a1.Capacity a1.Size) :=
  ⟨(Sequence_invariant_preserved (T := Nat)).1.1 (Set.mk (CompactSet.mk [5, 6, 0] 3 2) 3)
      (Set.Reachable.add 6 (Set.Reachable.add 5 (Set.Reachable.empty 3)
        (by decide : (Set.empty 3).Add 5 = some (Set.mk (CompactSet.mk [5, 0, 0] 3 1) 3)))
        (by decide)),
   ((Sequence_invariant_preserved (T := Nat)).2.2.2 (Array.mk [5, 6] 2 0 2 0)
      (by decide)).1 7 (by decide)⟩

/-- C20: on a `Map` and on a `RefMap` initialised with a bucket count > 0 and
brought to any state by `Insert` and `Clear` calls, `begin()` runs, and the
traversal that increments the iterator until it compares equal to `end()`
ends within as many increments as there are entries and visits exactly the
sequence of (key, value) pairs that `Iterate` visits, without a null
`Element` dereference and without a read of a bucket slot outside
`[HashTable, HashTable + HashSize)`; for a map without entries `begin()`
compares equal to `end()`. -/
theorem Map_iterator_matches_Iterate {K V : Type} [DecidableEq K] [Inhabited V]
    (hash : K → Nat) (hashSize : Nat) (h : 0 < hashSize) (ops : List (MapOp K V)) :
    (∃ m visits it0, Map.run hash (Map.Init hashSize) ops = some m ∧
      Map.Iterate m = some visits ∧ Map.begin m = some it0 ∧
      (∀ fuel, visits.length ≤ fuel →
        Iterator.traverse m.HashTable m.HashSize fuel it0 = some visits) ∧
      (entries m.HashTable = [] → Iterator.eq it0 (Map.end_ m) = true)) ∧
    (∃ m visits it0, RefMap.run hash (RefMap.Init hashSize) ops = some m ∧
      RefMap.Iterate m = some visits ∧ RefMap.begin m = some it0 ∧
      (∀ fuel, visits.length ≤ fuel →
        Iterator.traverse m.HashTable m.HashSize fuel it0 = some visits) ∧
      (entries m.HashTable = [] → Iterator.eq it0 (RefMap.end_ m) = true)) := by
  constructor
  · obtain ⟨m, e, s1, l1⟩ := Map_run_wf hash ops (Map.Init hashSize) h (by simp [Map.Init])
    have hl : m.HashTable.length = m.HashSize := by rw [l1, s1]
    obtain ⟨it0, hb, ht, he⟩ := begin_traverse m.HashTable
    refine ⟨m, (entries m.HashTable).map (fun x => (x.Key, x.Value)), it0, e, ?_, ?_, ?_, ?_⟩
    · rw [Map.Iterate, ← hl]
      exact iterateLoop_all m.HashTable
    · rw [Map.begin, ← hl]
      exact hb
    · intro fuel hfuel
      rw [← hl]
      exact ht fuel (by simpa using hfuel)
    · intro hempty
      rw [he hempty, Map.end_, ← hl]
      simp [Iterator.eq]
  · obtain ⟨m, e, s1, l1⟩ := RefMap_run_wf hash ops (RefMap.Init hashSize) h
      (by simp [RefMap.Init])
    have hl : m.HashTable.length = m.HashSize := by rw [l1, s1]
    obtain ⟨it0, hb, ht, he⟩ := begin_traverse m.HashTable
    refine ⟨m, (entries m.HashTable).map (fun x => (x.Key, x.Value)), it0, e, ?_, ?_, ?_, ?_⟩
    · rw [RefMap.Iterate, ← hl]
      exact iterateLoop_all m.HashTable
    · rw [RefMap.begin, ← hl]
      exact hb
    · intro fuel hfuel
      rw [← hl]
      exact ht fuel (by simpa using hfuel)
    · intro hempty
      rw [he hempty, RefMap.end_, ← hl]
      simp [Iterator.eq]

/-- Witness of C20: four entries in three buckets, one bucket left empty
between two used ones. -/
theorem Map_iterator_matches_Iterate_witness :
    (0 < 3) ∧
    ((∃ m visits it0, Map.run (fun k : Nat => k) (Map.Init 3)
        [MapOp.insert 3 30, MapOp.insert 2 5, MapOp.insertKey 6, MapOp.insert 5 11] = some m ∧
      Map.Iterate m = some visits ∧ Map.begin m = some it0 ∧
      (∀ fuel, visits.length ≤ fuel →
        Iterator.traverse m.HashTable m.HashSize fuel it0 = some visits) ∧
      (entries m.HashTable = [] → Iterator.eq it0 (Map.end_ m) = true)) ∧
    (∃ m visits it0, RefMap.run (fun k : Nat => k) (RefMap.Init 3)
        [MapOp.insert 3 30, MapOp.insert 2 5, MapOp.insertKey 6, MapOp.insert 5 11] = some m ∧
      RefMap.Iterate m = some visits ∧ RefMap.begin m = some it0 ∧
      (∀ fuel, visits.length ≤ fuel →
        Iterator.traverse m.HashTable m.HashSize fuel it0 = some visits) ∧
      (entries m.HashTable = [] → Iterator.eq it0 (RefMap.end_ m) = true))) :=
  ⟨by decide, Map_iterator_matches_Iterate (fun k : Nat => k) 3 (by decide)
    [MapOp.insert 3 30, MapOp.insert 2 5, MapOp.insertKey 6, MapOp.insert 5 11]⟩

/-- C21: for a `BitArray` of `w` words in any state, every index `i` and every
other index `j` (valid or not, so in particular every `j != i` with
`1 <= j <= 32 * w`), `Set(i)` and `Clear(i)` run inside `Bits` and `IsSet(j)`
gives the same result after either call as before.  Each call leaves every
word other than `(i - 1) >> 5` as it was and, of the 32 bits of that word,
every bit other than `(i - 1) & 31`; words below `2 ^ 32` stay below
`2 ^ 32`. -/
theorem BitArray_Set_Clear_frame {w : Nat} (b : BitArray w) (i j : Nat) (hij : j ≠ i) :
    ∃ r1 b1 r2 b2, b.Set i = some (r1, b1) ∧ b.Clear i = some (r2, b2) ∧
      (∃ r, b.IsSet j = some r ∧ b1.IsSet j = some r ∧ b2.IsSet j = some r) ∧
      (∀ k, k ≠ (i - 1) >>> 5 → b1.Bits[k]? = b.Bits[k]? ∧ b2.Bits[k]? = b.Bits[k]?) ∧
      (∀ k p, p < 32 → (k ≠ (i - 1) >>> 5 ∨ p ≠ (i - 1) &&& 0x1f) →
        b1.bit k p = b.bit k p ∧ b2.bit k p = b.bit k p) ∧
      ((∀ x ∈ b.Bits, x < 2 ^ 32) →
        (∀ x ∈ b1.Bits, x < 2 ^ 32) ∧ (∀ x ∈ b2.Bits, x < 2 ^ 32)) := by
  have hisset : ∃ r, b.IsSet j = some r := by
    cases hj : BitArray.outOfRange w j with
    | true => exact ⟨false, by rw [BitArray.IsSet, if_pos hj]⟩
    | false =>
      have hjdx : (j - 1) >>> 5 < b.Bits.length := by
        rw [b.length_eq]
        exact word_index_of_inRange hj
      exact ⟨decide (b.Bits[(j - 1) >>> 5] &&& BitArray.mask j ≠ 0),
        by simp [BitArray.IsSet, hj, List.getElem?_eq_getElem hjdx]⟩
  obtain ⟨r, hr⟩ := hisset
  cases hi : BitArray.outOfRange w i with
  | true =>
    exact ⟨false, b, false, b, by rw [BitArray.Set, if_pos hi], by rw [BitArray.Clear, if_pos hi],
      ⟨r, hr, hr, hr⟩, fun _ _ => ⟨rfl, rfl⟩, fun _ _ _ _ => ⟨rfl, rfl⟩, fun h => ⟨h, h⟩⟩
  | false =>
    have hidx : (i - 1) >>> 5 < b.Bits.length := by
      rw [b.length_eq]
      exact word_index_of_inRange hi
    have hx : b.Bits[(i - 1) >>> 5]? = some b.Bits[(i - 1) >>> 5] :=
      List.getElem?_eq_getElem hidx
    have hi0 : i ≠ 0 := by
      intro h0
      simp [BitArray.outOfRange, h0] at hi
    refine ⟨true,
      { Bits := b.Bits.set ((i - 1) >>> 5) (b.Bits[(i - 1) >>> 5] ||| BitArray.mask i),
        length_eq := by rw [List.length_set]; exact b.length_eq },
      true,
      { Bits := b.Bits.set ((i - 1) >>> 5) (b.Bits[(i - 1) >>> 5] &&& BitArray.notMask i),
        length_eq := by rw [List.length_set]; exact b.length_eq },
      by simp [BitArray.Set, hi, hx], by simp [BitArray.Clear, hi, hx], ⟨r, hr, ?_, ?_⟩,
      ?_, ?_, ?_⟩
    · cases hj : BitArray.outOfRange w j with
      | true =>
        rw [BitArray.IsSet, if_pos hj] at hr
        rw [BitArray.IsSet, if_pos hj]
        exact hr
      | false =>
        have hj0 : j ≠ 0 := by
          intro h0
          simp [BitArray.outOfRange, h0] at hj
        by_cases hw : (j - 1) >>> 5 = (i - 1) >>> 5
        · have hb := bit_position_ne hi0 hj0 hij hw
          simp only [BitArray.IsSet, hj, hw, hx, isSet_bit] at hr
          simp only [BitArray.IsSet, hj, hw, List.getElem?_set_self hidx, isSet_bit,
            testBit_lor_mask _ i _ hb]
          exact hr
        · simp only [BitArray.IsSet, hj] at hr
          simp only [BitArray.IsSet, hj, List.getElem?_set_ne (Ne.symm hw)]
          exact hr
    · cases hj : BitArray.outOfRange w j with
      | true =>
        rw [BitArray.IsSet, if_pos hj] at hr
        rw [BitArray.IsSet, if_pos hj]
        exact hr
      | false =>
        have hj0 : j ≠ 0 := by
          intro h0
          simp [BitArray.outOfRange, h0] at hj
        by_cases hw : (j - 1) >>> 5 = (i - 1) >>> 5
        · have hb := bit_position_ne hi0 hj0 hij hw
          have h32 : (j - 1) &&& 0x1f < 32 :=
            Nat.lt_succ_of_le (Nat.and_le_right (n := j - 1) (m := 0x1f))
          simp only [BitArray.IsSet, hj, hw, hx, isSet_bit] at hr
          simp only [BitArray.IsSet, hj, hw, List.getElem?_set_self hidx, isSet_bit,
            testBit_land_notMask _ i _ h32 hb]
          exact hr
        · simp only [BitArray.IsSet, hj] at hr
          simp only [BitArray.IsSet, hj, List.getElem?_set_ne (Ne.symm hw)]
          exact hr
    · intro k hk
      exact ⟨List.getElem?_set_ne (Ne.symm hk), List.getElem?_set_ne (Ne.symm hk)⟩
    · intro k p h32 hkp
      by_cases hk : k = (i - 1) >>> 5
      · subst hk
        have hp : p ≠ (i - 1) &&& 0x1f := by
          rcases hkp with h | h
          · exact absurd rfl h
          · exact h
        simp only [BitArray.bit, List.getElem?_set_self hidx, hx, Option.map_some',
          testBit_lor_mask _ i _ hp, testBit_land_notMask _ i _ h32 hp, and_self]
      · simp only [BitArray.bit, List.getElem?_set_ne (Ne.symm hk), and_self]
    · intro hall
      have hxlt : b.Bits[(i - 1) >>> 5] < 2 ^ 32 := hall _ (List.getElem_mem hidx)
      constructor
      · intro x hxm
        rcases List.mem_or_eq_of_mem_set hxm with h | h
        · exact hall x h
        · rw [h]
          exact lor_mask_lt _ i hxlt
      · intro x hxm
        rcases List.mem_or_eq_of_mem_set hxm with h | h
        · exact hall x h
        · rw [h]
          exact land_notMask_lt _ i

/-- Witness of C21: on two words with bits 3 and 4 of the first word set,
`Set(4)` and `Clear(4)` against index 3 of the same word. -/
theorem BitArray_Set_Clear_frame_witness :
    (3 ≠ 4 ∧ ∃ r1 b1 r2 b2, (BitArray.mk [12, 8] rfl : BitArray 2).Set 4 = some (r1, b1) ∧
      (BitArray.mk [12, 8] rfl : BitArray 2).Clear 4 = some (r2, b2) ∧
      (∃ r, (BitArray.mk [12, 8] rfl : BitArray 2).IsSet 3 = some r ∧ b1.IsSet 3 = some r ∧
        b2.IsSet 3 = some r) ∧
      (∀ k, k ≠ (4 - 1) >>> 5 → b1.Bits[k]? = (BitArray.mk [12, 8] rfl : BitArray 2).Bits[k]? ∧
        b2.Bits[k]? = (BitArray.mk [12, 8] rfl : BitArray 2).Bits[k]?) ∧
      (∀ k p, p < 32 → (k ≠ (4 - 1) >>> 5 ∨ p ≠ (4 - 1) &&& 0x1f) →
        b1.bit k p = (BitArray.mk [12, 8] rfl : BitArray 2).bit k p ∧
        b2.bit k p = (BitArray.mk [12, 8] rfl : BitArray 2).bit k p) ∧
      ((∀ x ∈ (BitArray.mk [12, 8] rfl : BitArray 2).Bits, x < 2 ^ 32) →
        (∀ x ∈ b1.Bits, x < 2 ^ 32) ∧ (∀ x ∈ b2.Bits, x < 2 ^ 32))) ∧
    (BitArray.mk [12, 8] rfl : BitArray 2).Set 4 = some (true, BitArray.mk [12, 8] rfl) ∧
    (BitArray.mk [12, 8] rfl : BitArray 2).Clear 4 = some (true, BitArray.mk [4, 8] rfl) ∧
    (BitArray.mk [12, 8] rfl : BitArray 2).IsSet 3 = some true ∧
    (BitArray.mk [4, 8] rfl : BitArray 2).IsSet 3 = some true :=
  ⟨⟨by decide, BitArray_Set_Clear_frame (BitArray.mk [12, 8] rfl) 4 3 (by decide)⟩,
    rfl, rfl, by decide, by decide⟩

/-- C22: for an `Array` with a buffer of `Capacity` slots and
`Size <= Capacity`, and every value `v`: when `Capacity < 2 ^ 31`,
`SafeAdd(v)` returns true and leaves exactly the state `Add(v)` produces,
with `Size` one more and `v` after the former elements.  In general
`SafeAdd(v)` runs within its buffers; whenever it returns true its state is
the one `Add(v)` produces; it returns false exactly when the array is full
and doubling `Capacity` wraps in 32-bit arithmetic, and then the state is the
one the growth attempt alone leaves (capacity `2 * Capacity - 2 ^ 32`, not
above the unchanged `Size`, the buffer holding the leading elements of the
old one): `v` is not stored, whereas `Add(v)` would store outside the
buffer. -/
theorem Array_SafeAdd_agrees_with_Add {T : Type} [Inhabited T] (a : Array T) (v : T)
    (hinv : SeqInv a.Buf a.Capacity a.Size) :
    (a.Capacity < 2 ^ 31 →
      ∃ a1, a.SafeAdd v = some (true, a1) ∧ a.Add v = some a1 ∧ a1.Size = a.Size + 1 ∧
        a1.Buf.length = a1.Capacity ∧ a1.Buf.take a1.Size = a.Buf.take a.Size ++ [v] ∧
        (a1.Capacity = a.Capacity ∨ a1.Capacity = a.CapacityIncrement)) ∧
    (∃ r a1, a.SafeAdd v = some (r, a1) ∧
      (r = true → a.Add v = some a1) ∧
      (r = false ↔ (a.Capacity ≤ a.Size ∧ 2 ^ 32 ≤ 2 * a.Capacity)) ∧
      (r = false →
        a.Reallocate a.CapacityIncrement = some a1 ∧ a.Add v = none ∧ a1.Size = a.Size ∧
        a1.Capacity = 2 * a.Capacity - 2 ^ 32 ∧ a1.Capacity ≤ a1.Size ∧
        a1.Buf = a.Buf.take a1.Capacity)) := by
  obtain ⟨hlen, hsz, hcap⟩ := hinv
  have hinc := Array_CapacityIncrement_eq a hcap
  have general : ∃ r a1, a.SafeAdd v = some (r, a1) ∧
      (r = true → a.Add v = some a1) ∧
      (r = false ↔ (a.Capacity ≤ a.Size ∧ 2 ^ 32 ≤ 2 * a.Capacity)) ∧
      (r = false →
        a.Reallocate a.CapacityIncrement = some a1 ∧ a.Add v = none ∧ a1.Size = a.Size ∧
        a1.Capacity = 2 * a.Capacity - 2 ^ 32 ∧ a1.Capacity ≤ a1.Size ∧
        a1.Buf = a.Buf.take a1.Capacity) := by
    by_cases hg : a.Capacity ≤ a.Size
    · obtain ⟨r, er, lr, tr⟩ := realloc_copy a.Buf a.Size a.CapacityIncrement (by omega)
      have ere : a.Reallocate a.CapacityIncrement =
          some { a with Buf := r, Capacity := a.CapacityIncrement } := by
        simp [Array.Reallocate, er]
      by_cases hfit : a.Size < a.CapacityIncrement
      · have hw : writeAt r a.Size v = some (r.set a.Size v) := by
          have : a.Size < r.length := by omega
          simp [writeAt, this]
        refine ⟨true, { a with Buf := r.set a.Size v, Capacity := a.CapacityIncrement,
                               Size := u32 (a.Size + 1) }, ?_, ?_, ?_, ?_⟩
        · simp [Array.SafeAdd, hg, ere, hfit, hw]
        · intro _
          simp [Array.Add, hg, ere, hw]
        · constructor
          · intro h
            exact Bool.noConfusion h
          · rintro ⟨_, hwrap⟩
            exfalso
            have h0 : a.Capacity ≠ 0 := by omega
            have h1 : ¬ 2 * a.Capacity < 2 ^ 32 := by omega
            rw [hinc, if_neg h0, if_neg h1] at hfit
            omega
        · intro h
          exact Bool.noConfusion h
      · have hwrap : 2 ^ 32 ≤ 2 * a.Capacity := by
          by_contra hc
          have h1 : 2 * a.Capacity < 2 ^ 32 := by omega
          rw [hinc] at hfit
          by_cases h0 : a.Capacity = 0
          · rw [if_pos h0] at hfit
            omega
          · rw [if_neg h0, if_pos h1] at hfit
            omega
        have hval : a.CapacityIncrement = 2 * a.Capacity - 2 ^ 32 := by
          have h0 : a.Capacity ≠ 0 := by omega
          have h1 : ¬ 2 * a.Capacity < 2 ^ 32 := by omega
          rw [hinc, if_neg h0, if_neg h1]
        have hmin : min a.Size a.CapacityIncrement = a.CapacityIncrement := by omega
        have hbuf : r = a.Buf.take a.CapacityIncrement := by
          rw [hmin] at tr
          rw [← tr, ← lr, List.take_length]
        refine ⟨false, { a with Buf := r, Capacity := a.CapacityIncrement }, ?_, ?_, ?_, ?_⟩
        · simp [Array.SafeAdd, hg, ere, hfit]
        · intro h
          exact Bool.noConfusion h
        · exact ⟨fun _ => ⟨hg, hwrap⟩, fun _ => rfl⟩
        · intro _
          refine ⟨ere, ?_, rfl, hval, ?_, hbuf⟩
          · exact Array_Add_none a v ⟨hlen, hsz, hcap⟩ hg (by omega)
          · show a.CapacityIncrement ≤ a.Size
            omega
    · have hlt : a.Size < a.Capacity := by omega
      have hw : writeAt a.Buf a.Size v = some (a.Buf.set a.Size v) := by
        have : a.Size < a.Buf.length := by omega
        simp [writeAt, this]
      refine ⟨true, { a with Buf := a.Buf.set a.Size v, Size := u32 (a.Size + 1) }, ?_, ?_, ?_, ?_⟩
      · simp [Array.SafeAdd, hg, hlt, hw]
      · intro _
        simp [Array.Add, hg, hw]
      · constructor
        · intro h
          exact Bool.noConfusion h
        · rintro ⟨hle, _⟩
          exact absurd hle hg
      · intro h
        exact Bool.noConfusion h
  refine ⟨fun h31 => ?_, general⟩
  obtain ⟨r, a1, e, hadd, hiff, _⟩ := general
  have hr : r = true := by
    cases r with
    | true => rfl
    | false =>
      have := (hiff.mp rfl).2
      omega
  subst hr
  have hgrow : a.Capacity ≤ a.Size → a.Size < a.CapacityIncrement := by
    intro hle
    rw [hinc]
    by_cases h0 : a.Capacity = 0
    · rw [if_pos h0]
      omega
    · have h1 : 2 * a.Capacity < 2 ^ 32 := by omega
      rw [if_neg h0, if_pos h1]
      omega
  obtain ⟨a2, e2, l2, _, n2, t2, c2⟩ := Array_Add_spec a v hlen hsz (by omega) hgrow
  have h12 : a1 = a2 := by
    have := hadd rfl
    rw [e2] at this
    exact (Option.some.inj this).symm
  subst h12
  exact ⟨a1, e, e2, n2, l2, t2, c2⟩

/-- Witness of C22: a full `Array` of capacity 2 takes the growing branch, and
on a full `Array` of capacity `2 ^ 31` the doubled capacity is 0 and `SafeAdd`
returns false with `Size` unchanged. -/
theorem Array_SafeAdd_agrees_with_Add_witness :
    (SeqInv (Array.mk [5, 6] 2 0 2 0).Buf (Array.mk [5, 6] 2 0 2 0).Capacity
        (Array.mk [5, 6] 2 0 2 0).Size ∧
      (Array.mk [5, 6] 2 0 2 0).SafeAdd 7 = some (true, Array.mk [5, 6, 7, 0] 4 0 3 0) ∧
      (Array.mk [5, 6] 2 0 2 0).Add 7 = some (Array.mk [5, 6, 7, 0] 4 0 3 0)) ∧
    (∃ a1, (Array.mk (List.replicate (2 ^ 31) (0 : Nat)) (2 ^ 31) 0 (2 ^ 31) 0).SafeAdd 7 =
        some (false, a1) ∧
      (Array.mk (List.replicate (2 ^ 31) (0 : Nat)) (2 ^ 31) 0 (2 ^ 31) 0).Add 7 = none ∧
      a1.Size = 2 ^ 31 ∧ a1.Capacity = 0) := by
  refine ⟨⟨by decide, ?_, by decide⟩, ?_⟩
  · obtain ⟨a1, e, ea, _⟩ :=
      (Array_SafeAdd_agrees_with_Add (Array.mk [5, 6] 2 0 2 0) (7 : Nat) (by decide)).1
        (by decide)
    have h : (Array.mk [5, 6] 2 0 2 0).Add 7 = some (Array.mk [5, 6, 7, 0] 4 0 3 0) := by decide
    rw [h] at ea
    rw [e, Option.some.inj ea]
  · have hinv : SeqInv (Array.mk (List.replicate (2 ^ 31) (0 : Nat)) (2 ^ 31) 0 (2 ^ 31) 0).Buf
        (Array.mk (List.replicate (2 ^ 31) (0 : Nat)) (2 ^ 31) 0 (2 ^ 31) 0).Capacity
        (Array.mk (List.replicate (2 ^ 31) (0 : Nat)) (2 ^ 31) 0 (2 ^ 31) 0).Size :=
      ⟨List.length_replicate _ _, Nat.le_refl _, by decide⟩
    obtain ⟨r, a1, e, _, hiff, hf⟩ :=
      (Array_SafeAdd_agrees_with_Add
        (Array.mk (List.replicate (2 ^ 31) (0 : Nat)) (2 ^ 31) 0 (2 ^ 31) 0) 7 hinv).2
    have hr : r = false := hiff.mpr ⟨Nat.le_refl _, by decide⟩
    subst hr
    obtain ⟨_, hadd, hs, hc, _⟩ := hf rfl
    exact ⟨a1, e, hadd, hs, hc.trans (by decide)⟩

end bg3se
